import Mathlib

/-!
# file-converter: the text conversion core

A shallow embedding of `internal/converter/text.go` and of `ValidateFormat`
from `internal/converter/converter.go`.

Go `[]byte` and Go `string` values are both sequences of bytes; they are
embedded as `List UInt8`. Runes are embedded as natural numbers.

The byte-level helpers of the Go standard library that the converter calls
(`bytes.TrimSpace`, `strings.TrimSpace`, `bytes.SplitN`, `bytes.Count`,
`bytes.ContainsAny`, `strings.Split`, `encoding/csv`) are embedded from their
library sources. `encoding/json` and `encoding/xml` are taken as parameters
(`StdLib`).
-/

namespace FileConverter

/-- Go `[]byte` / `string`: a sequence of bytes. -/
abbrev Bytes := List UInt8

/-- The bytes of an ASCII literal. -/
def ascii (s : String) : Bytes := s.toList.map (fun c => UInt8.ofNat c.toNat)

/-! ## unicode/utf8 -/

/-- Constant `utf8.RuneError`. -/
def RuneError : Nat := 0xFFFD

/-- Constant `utf8.RuneSelf`. -/
def RuneSelf : Nat := 0x80

/-- Constant `utf8.UTFMax`. -/
def UTFMax : Nat := 4

/-- Table `utf8.first`: information about the first byte of a UTF-8 sequence.
`0xF0` is `as` (ASCII), `0xF1` is `xx` (invalid); otherwise the low three bits
are the size and the high four bits index `acceptRanges`. -/
def first (b : UInt8) : Nat :=
  let n := b.toNat
  if n < 0x80 then 0xF0
  else if n < 0xC2 then 0xF1
  else if n < 0xE0 then 0x02
  else if n = 0xE0 then 0x13
  else if n < 0xED then 0x03
  else if n = 0xED then 0x23
  else if n < 0xF0 then 0x03
  else if n = 0xF0 then 0x34
  else if n < 0xF4 then 0x04
  else if n = 0xF4 then 0x44
  else 0xF1

/-- Table `utf8.acceptRanges`: the accepted range `(lo, hi)` of the second byte. -/
def acceptRanges (i : Nat) : Nat × Nat :=
  match i with
  | 0 => (0x80, 0xBF)
  | 1 => (0xA0, 0xBF)
  | 2 => (0x80, 0x9F)
  | 3 => (0x90, 0xBF)
  | 4 => (0x80, 0x8F)
  | _ => (0, 0)

/-- Function `utf8.DecodeRune`: the first rune of `p` and its width in bytes.
Invalid encodings give `(RuneError, 1)`, the empty input `(RuneError, 0)`. -/
def DecodeRune (p : Bytes) : Nat × Nat :=
  let n := p.length
  if n < 1 then (RuneError, 0)
  else
    let p0 := (p.getD 0 0).toNat
    let x := first (p.getD 0 0)
    if x ≥ 0xF0 then
      -- mask := rune(x) << 31 >> 31 is all ones exactly when x is odd (xx)
      (if x % 2 = 1 then RuneError else p0, 1)
    else
      let sz := x &&& 7
      let accept := acceptRanges (x >>> 4)
      if n < sz then (RuneError, 1)
      else
        let b1 := (p.getD 1 0).toNat
        if b1 < accept.1 ∨ accept.2 < b1 then (RuneError, 1)
        else if sz ≤ 2 then (((p0 &&& 0x1F) <<< 6) ||| (b1 &&& 0x3F), 2)
        else
          let b2 := (p.getD 2 0).toNat
          if b2 < 0x80 ∨ 0xBF < b2 then (RuneError, 1)
          else if sz ≤ 3 then
            (((p0 &&& 0x0F) <<< 12) ||| ((b1 &&& 0x3F) <<< 6) ||| (b2 &&& 0x3F), 3)
          else
            let b3 := (p.getD 3 0).toNat
            if b3 < 0x80 ∨ 0xBF < b3 then (RuneError, 1)
            else
              (((p0 &&& 0x07) <<< 18) ||| ((b1 &&& 0x3F) <<< 12) |||
                ((b2 &&& 0x3F) <<< 6) ||| (b3 &&& 0x3F), 4)

/-- Function `utf8.RuneStart`: `b` is not a continuation byte. -/
def RuneStart (b : UInt8) : Bool := b.toNat &&& 0xC0 != 0x80

/-- The backwards scan of `utf8.DecodeLastRune`: starting at `start`, visit
`start, start - 1, ..., lim` and stop at the first rune-start byte. The result
is the final value of `start` as an integer (it is `lim - 1` when no byte in the
window starts a rune). -/
def DecodeLastRune.scan (p : Bytes) (lim : Nat) : Nat → Nat → Int
  | 0, start => start
  | fuel + 1, start =>
    if start < lim then start
    else if RuneStart (p.getD start 0) then start
    else match start with
      | 0 => -1
      | s + 1 => DecodeLastRune.scan p lim fuel s

/-- The index at which `utf8.DecodeLastRune` starts to decode when the last
byte of `p` is not ASCII: the result of the backwards scan from `len(p) - 2`
down to `lim = len(p) - UTFMax`, and 0 when that is negative. -/
def DecodeLastRune.start (p : Bytes) : Nat :=
  let stop := p.length
  let lim := stop - UTFMax
  let start := stop - 1
  let st : Int :=
    match start with
    | 0 => -1
    | s + 1 => DecodeLastRune.scan p lim (UTFMax + 1) s
  if st < 0 then 0 else st.toNat

/-- Function `utf8.DecodeLastRune`: the last rune of `p` and its width. -/
def DecodeLastRune (p : Bytes) : Nat × Nat :=
  let stop := p.length
  if stop = 0 then (RuneError, 0)
  else
    let r := (p.getD (stop - 1) 0).toNat
    if r < RuneSelf then (r, 1)
    else
      let start := DecodeLastRune.start p
      let rs := DecodeRune ((p.take stop).drop start)
      if start + rs.2 ≠ stop then (RuneError, 1) else rs

/-! ## unicode -/

/-- Function `unicode.IsSpace`. -/
def IsSpace (r : Nat) : Bool :=
  if r ≤ 0xFF then
    r = 0x09 ∨ r = 0x0A ∨ r = 0x0B ∨ r = 0x0C ∨ r = 0x0D ∨ r = 0x20 ∨ r = 0x85 ∨ r = 0xA0
  else
    r = 0x1680 ∨ (0x2000 ≤ r ∧ r ≤ 0x200A) ∨ r = 0x2028 ∨ r = 0x2029 ∨ r = 0x202F ∨
      r = 0x205F ∨ r = 0x3000

/-! ## bytes / strings -/

/-- The loop of `bytes.indexFunc s f false`, returning the slice `s[start:]` at
the first rune that does not satisfy `f` (and the empty slice when there is
none). -/
def TrimLeftFunc.loop (f : Nat → Bool) : Nat → Bytes → Bytes
  | 0, s => s
  | _ + 1, [] => []
  | fuel + 1, c :: rest =>
    let rw := if c.toNat ≥ RuneSelf then DecodeRune (c :: rest) else (c.toNat, 1)
    if f rw.1 = false then c :: rest
    else TrimLeftFunc.loop f fuel ((c :: rest).drop rw.2)

/-- Function `bytes.TrimLeftFunc` (and `strings.TrimLeftFunc`). -/
def TrimLeftFunc (s : Bytes) (f : Nat → Bool) : Bytes :=
  TrimLeftFunc.loop f s.length s

/-- The rune and size that one iteration of `bytes.lastIndexFunc` reads at the
end of the prefix `p = s[0:i]`: the last byte when it is ASCII, otherwise the
result of `utf8.DecodeLastRune`. -/
def lastIndexFunc.rune (p : Bytes) : Nat × Nat :=
  let c := (p.getD (p.length - 1) 0).toNat
  if c ≥ RuneSelf then DecodeLastRune p else (c, 1)

/-- The loop of `bytes.lastIndexFunc s f false` on the prefix `s[0:i]`: the
index of the last rune that does not satisfy `f`, or `none` for `-1`. -/
def lastIndexFunc.loop (f : Nat → Bool) : Nat → Bytes → Option Nat
  | 0, _ => none
  | fuel + 1, p =>
    if p.length > 0 then
      let rs := lastIndexFunc.rune p
      let i := p.length - rs.2
      if f rs.1 = false then some i
      else lastIndexFunc.loop f fuel (p.take i)
    else none

/-- Function `bytes.lastIndexFunc s f false`. -/
def lastIndexFunc (s : Bytes) (f : Nat → Bool) : Option Nat :=
  lastIndexFunc.loop f (s.length + 1) s

/-- Function `bytes.TrimRightFunc` (and `strings.TrimRightFunc`). -/
def TrimRightFunc (s : Bytes) (f : Nat → Bool) : Bytes :=
  match lastIndexFunc s f with
  | some i =>
    if (s.getD i 0).toNat ≥ RuneSelf then s.take (i + (DecodeRune (s.drop i)).2)
    else s.take (i + 1)
  | none => s.take 0

/-- Function `bytes.TrimFunc`. -/
def TrimFunc (s : Bytes) (f : Nat → Bool) : Bytes :=
  TrimRightFunc (TrimLeftFunc s f) f

/-- Function `bytes.TrimSpace` (and `strings.TrimSpace`): slice off all leading
and trailing white space, as defined by Unicode. The library's fast path for
ASCII input computes the same slice. -/
def TrimSpace (s : Bytes) : Bytes := TrimFunc s IsSpace

/-- The first element of `bytes.SplitN(s, []byte{sep}, 2)`: everything before
the first `sep`, or all of `s` when `sep` does not occur. -/
def SplitN2_first (s : Bytes) (sep : UInt8) : Bytes :=
  match s with
  | [] => []
  | c :: rest => if c = sep then [] else c :: SplitN2_first rest sep

/-- Function `bytes.Count(s, []byte{c})`: the number of occurrences of `c`. -/
def Count (s : Bytes) (c : UInt8) : Nat :=
  match s with
  | [] => 0
  | b :: rest => (if b = c then 1 else 0) + Count rest c

/-- Function `bytes.ContainsAny(s, chars)` for an ASCII `chars`: some byte of
`s` is one of `chars`. -/
def ContainsAny (s : Bytes) (chars : Bytes) : Bool :=
  match s with
  | [] => false
  | b :: rest => if chars.contains b then true else ContainsAny rest chars

/-- Function `strings.Split(s, string(sep))` for a one-byte separator. -/
def Split (s : Bytes) (sep : UInt8) : List Bytes :=
  match s with
  | [] => [[]]
  | c :: rest =>
    if c = sep then [] :: Split rest sep
    else
      match Split rest sep with
      | [] => [[c]]
      | l :: ls => (c :: l) :: ls

/-! ## text.go: detectFormat -/

/-- Function `detectFormat` of `text.go`. -/
def detectFormat (input : Bytes) : Bytes :=
  let trimmed := TrimSpace input
  if trimmed.length = 0 then ascii ""
  else if trimmed.getD 0 0 = 0x7B ∨ trimmed.getD 0 0 = 0x5B then ascii "json"
  else if trimmed.getD 0 0 = 0x3C then ascii "xml"
  else
    let firstLine := SplitN2_first trimmed 0x0A
    if Count firstLine 0x2C > 0 ∧ ¬ ContainsAny firstLine (ascii "{}[]<>") then ascii "csv"
    else ascii "txt"

/-! ## The intermediate record model -/

deriving instance DecidableEq for Except

/-- A Go `interface{}` value stored in a record. The CSV, XML and line-text
decoders store strings only. `encoding/json` may store any other JSON value
(number, boolean, null, array, object); only the library inspects such a value,
so it is carried as a token. -/
inductive Value where
  | str (s : Bytes)
  | other (token : Bytes)
  deriving DecidableEq, Repr

/-- A non-nil Go `map[string]interface{}`: its entries, with pairwise distinct
keys. The order of the list carries no meaning. -/
abbrev GoMap := List (Bytes × Value)

/-- Go `m[k] = v`: overwrite the entry of `k`, or add one. -/
def mapAssign (m : GoMap) (k : Bytes) (v : Value) : GoMap :=
  match m with
  | [] => [(k, v)]
  | (k1, v1) :: rest => if k1 = k then (k, v) :: rest else (k1, v1) :: mapAssign rest k v

/-- The lookup of `k` among the entries of a map. -/
def mapIndex.find (m : GoMap) (k : Bytes) : Option Value :=
  match m with
  | [] => none
  | (k1, v1) :: rest => if k1 = k then some v1 else mapIndex.find rest k

/-- Go `val, ok := m[k]` on a possibly nil map: `none` is `ok = false`. -/
def mapIndex (m : Option GoMap) (k : Bytes) : Option Value :=
  match m with
  | none => none
  | some m => mapIndex.find m k

/-- The iteration order of one `for ... range m` statement over a map. Go leaves
it unspecified and lets it change from one iteration to the next, so it is a
parameter: `order i m` lists the entries of `m` in the order in which the range
statement over the map at index `i` of the record set visits them. -/
structure RangeOrder where
  order : Nat → GoMap → GoMap
  perm : ∀ i m, (order i m).Perm m

/-- The order that visits the entries as they are stored. -/
def RangeOrder.stored : RangeOrder := ⟨fun _ m => m, fun _ _ => List.Perm.refl _⟩

/-- The entries visited by `for key, value := range m` for the map at index `i`;
ranging over a nil map visits nothing. -/
def rangeMap (ρ : RangeOrder) (i : Nat) (m : Option GoMap) : GoMap :=
  match m with
  | none => []
  | some m => ρ.order i m

/-- Go `[]map[string]interface{}`: the record set; `none` is a nil map. -/
abbrev Data := List (Option GoMap)

/-- Type `XMLField` of `text.go`. -/
structure XMLField where
  Name : Bytes
  Value : Bytes
  deriving DecidableEq, Repr

/-- Type `XMLRecord` of `text.go`. -/
structure XMLRecord where
  Fields : List XMLField
  deriving DecidableEq, Repr

/-- Type `XMLData` of `text.go`. -/
structure XMLData where
  Items : List XMLRecord
  deriving DecidableEq, Repr

/-- The functions of `encoding/json`, `encoding/xml` and `fmt` that `Convert`
calls and that are not embedded here. An error is carried as its message. -/
structure StdLib where
  /-- `json.Unmarshal(input, &data)` for `data []map[string]interface{}`. -/
  jsonUnmarshal : Bytes → Except Bytes Data
  /-- `json.MarshalIndent(data, "", "  ")`. -/
  jsonMarshalIndent : Data → Except Bytes Bytes
  /-- `xml.Unmarshal(input, &xmlData)`. -/
  xmlUnmarshal : Bytes → Except Bytes XMLData
  /-- `encoder.Encode(xmlData)` of an encoder with `Indent("", "  ")`. -/
  xmlEncode : XMLData → Except Bytes Bytes
  /-- `fmt.Sprint` of a value that is not a string. -/
  sprintOther : Bytes → Bytes

/-- Function `fmt.Sprint(val)` (the `%v` verb): a string is printed as it is. -/
def Sprint (lib : StdLib) (val : Value) : Bytes :=
  match val with
  | .str s => s
  | .other t => lib.sprintOther t

/-! ## converter.go -/

/-- Type `SupportedFormat` of `converter.go`. -/
structure SupportedFormat where
  Name : Bytes
  Extension : Bytes
  ContentType : Bytes
  deriving DecidableEq, Repr

/-- The errors of `encoding/csv` that a reader with the default settings
reports (the `Err` of its `ParseError`; line and column are not kept). -/
inductive CsvError where
  | ErrBareQuote
  | ErrQuote
  | ErrFieldCount
  | errInvalidDelim
  deriving DecidableEq, Repr

/-- The errors that `Convert` returns, one constructor per `fmt.Errorf` site
(and one for an error passed through from `json.MarshalIndent`). -/
inductive ConvertError where
  /-- `"format non supporté: %s"` (ValidateFormat). -/
  | unsupportedFormat (format : Bytes)
  /-- `"format d'entrée non reconnu: %s"`. -/
  | unrecognizedInput (inputFormat : Bytes)
  /-- `"erreur lors du parsing JSON: %v"`. -/
  | jsonParse (err : Bytes)
  /-- `"erreur lors du parsing CSV: %v"`. -/
  | csvParse (err : CsvError)
  /-- `"CSV invalide: besoin d'au moins un en-tête et une ligne de données"`. -/
  | csvInvalid
  /-- `"erreur lors du parsing XML: %v"`. -/
  | xmlParse (err : Bytes)
  /-- The error of `json.MarshalIndent`, returned as it is. -/
  | jsonMarshal (err : Bytes)
  /-- `"pas de données à convertir"`. -/
  | noData
  /-- `"erreur lors de l'écriture des en-têtes CSV: %v"`. -/
  | csvWriteHeaders (err : CsvError)
  /-- `"erreur lors de l'écriture des données CSV: %v"`. -/
  | csvWriteData (err : CsvError)
  /-- `"erreur lors de la finalisation du CSV: %v"`. -/
  | csvFinalize (err : CsvError)
  /-- `"erreur lors de l'encodage XML: %v"`. -/
  | xmlEncode (err : Bytes)
  deriving DecidableEq, Repr

/-- Function `ValidateFormat` of `converter.go`; `none` is the nil error. -/
def ValidateFormat (format : Bytes) (supportedFormats : List SupportedFormat) :
    Option ConvertError :=
  match supportedFormats with
  | [] => some (.unsupportedFormat format)
  | f :: rest => if f.Extension = format then none else ValidateFormat format rest

/-- Method `TextConverter.GetSupportedFormats` of `text.go`. -/
def GetSupportedFormats : List SupportedFormat :=
  [ ⟨ascii "JSON", ascii "json", ascii "application/json"⟩,
    ⟨ascii "CSV", ascii "csv", ascii "text/csv"⟩,
    ⟨ascii "XML", ascii "xml", ascii "application/xml"⟩,
    ⟨ascii "Text", ascii "txt", ascii "text/plain"⟩ ]

/-! ## encoding/csv

`csv.NewReader` and `csv.NewWriter` are used with their default settings: the
comma is `,`, there is no comment character, `LazyQuotes`, `TrimLeadingSpace`
and `UseCRLF` are false, and `FieldsPerRecord` starts at 0. -/

/-- Method `bufio.Reader.ReadSlice(delim)` on the unread input: the bytes up to
and including the first `delim` (all of the input when there is none), the
input left unread, and whether `delim` was found (otherwise the error is
`io.EOF`). -/
def ReadSlice (input : Bytes) (delim : UInt8) : Bytes × Bytes × Bool :=
  match input with
  | [] => ([], [], false)
  | c :: rest =>
    if c = delim then ([c], rest, true)
    else
      let res := ReadSlice rest delim
      (c :: res.1, res.2.1, res.2.2)

/-- Function `lengthNL` of `encoding/csv`: 1 when `b` ends with a newline. -/
def lengthNL (b : Bytes) : Nat :=
  if b.length > 0 ∧ b.getD (b.length - 1) 0 = 0x0A then 1 else 0

/-- Method `csv.Reader.readLine` on the unread input: the next line, whether the
error is `io.EOF`, and the input left unread. -/
def readLine (input : Bytes) : Bytes × Bool × Bytes :=
  let res := ReadSlice input 0x0A
  let line := res.1
  let err := !res.2.2
  let readSize := line.length
  -- For backwards compatibility, drop trailing \r before EOF.
  let line1 :=
    if readSize > 0 ∧ err = true then
      (if line.getD (readSize - 1) 0 = 0x0D then line.take (readSize - 1) else line)
    else line
  let err1 := if readSize > 0 ∧ err = true then false else err
  -- Normalize \r\n to \n on all input lines.
  let n := line1.length
  let line2 :=
    if n ≥ 2 ∧ line1.getD (n - 2) 0 = 0x0D ∧ line1.getD (n - 1) 0 = 0x0A then
      line1.take (n - 2) ++ [0x0A]
    else line1
  (line2, err1, res.2.1)

/-- Function `bytes.IndexByte`: the index of the first `c` in `b`. -/
def IndexByte (b : Bytes) (c : UInt8) : Option Nat :=
  match b with
  | [] => none
  | x :: rest => if x = c then some 0 else (IndexByte rest c).map (· + 1)

/-- The first loop of `csv.Reader.readRecord`: read lines, skipping empty ones.
Returns the line, whether `errRead` is `io.EOF`, and the input left unread. -/
def readRecord.skip : Nat → Bytes → Bytes × Bool × Bytes
  | 0, input => ([], true, input)
  | fuel + 1, input =>
    let res := readLine input
    if res.2.1 = false ∧ res.1.length = lengthNL res.1 then readRecord.skip fuel res.2.2
    else res

/-- The `parseField` loop of `csv.Reader.readRecord`. `cur = none` is the start
of a field; `cur = some b` is the inner loop of a quoted field, `b` being the
part of the field copied so far. `line` is the unparsed rest of the current
line, `rest` the unread input, `fields` the fields completed so far. Returns
the fields, the parse error, and the input left unread. -/
def readRecord.parse : Nat → Option Bytes → Bytes → Bytes → List Bytes →
    List Bytes × Option CsvError × Bytes
  | 0, _, _, rest, fields => (fields, some .ErrQuote, rest)
  | fuel + 1, none, line, rest, fields =>
    if line.length = 0 ∨ line.getD 0 0 ≠ 0x22 then
      -- Non-quoted string field
      let i := IndexByte line 0x2C
      let field :=
        match i with
        | some i => line.take i
        | none => line.take (line.length - lengthNL line)
      -- Check to make sure a quote does not appear in field.
      if (IndexByte field 0x22).isSome then (fields, some .ErrBareQuote, rest)
      else
        match i with
        | some i => readRecord.parse fuel none (line.drop (i + 1)) rest (fields ++ [field])
        | none => (fields ++ [field], none, rest)
    else
      -- Quoted string field
      readRecord.parse fuel (some []) (line.drop 1) rest fields
  | fuel + 1, some cur, line, rest, fields =>
    match IndexByte line 0x22 with
    | some i =>
      -- Hit next quote.
      let cur1 := cur ++ line.take i
      let line1 := line.drop (i + 1)
      let rn := (DecodeRune line1).1
      if rn = 0x22 then
        readRecord.parse fuel (some (cur1 ++ [0x22])) (line1.drop 1) rest fields
      else if rn = 0x2C then
        readRecord.parse fuel none (line1.drop 1) rest (fields ++ [cur1])
      else if lengthNL line1 = line1.length then (fields ++ [cur1], none, rest)
      else (fields, some .ErrQuote, rest)
    | none =>
      if line.length > 0 then
        -- Hit end of line (copy all data so far).
        let res := readLine rest
        readRecord.parse fuel (some (cur ++ line)) res.1 res.2.2 fields
      else
        -- Abrupt end of file.
        (fields, some .ErrQuote, rest)

/-- Type `csv.Reader`: the unread input and the field `FieldsPerRecord`. -/
structure Reader where
  r : Bytes
  FieldsPerRecord : Int
  deriving DecidableEq, Repr

/-- Function `csv.NewReader`. -/
def NewReader (r : Bytes) : Reader := ⟨r, 0⟩

/-- The error result of `csv.Reader.readRecord`. -/
inductive ReadError where
  | EOF
  | parse (err : CsvError)
  deriving DecidableEq, Repr

/-- Method `csv.Reader.readRecord`: the record, the error, and the reader
afterwards. -/
def readRecord (r : Reader) : List Bytes × Option ReadError × Reader :=
  let res := readRecord.skip (r.r.length + 1) r.r
  if res.2.1 = true then ([], some .EOF, ⟨res.2.2, r.FieldsPerRecord⟩)
  else
    let p := readRecord.parse (res.1.length + res.2.2.length + 1) none res.1 res.2.2 []
    let dst := p.1
    let err := p.2.1.map ReadError.parse
    -- Check or update the expected fields per record.
    if r.FieldsPerRecord > 0 then
      if (dst.length : Int) ≠ r.FieldsPerRecord ∧ err = none then
        (dst, some (.parse .ErrFieldCount), ⟨p.2.2, r.FieldsPerRecord⟩)
      else (dst, err, ⟨p.2.2, r.FieldsPerRecord⟩)
    else if r.FieldsPerRecord = 0 then (dst, err, ⟨p.2.2, dst.length⟩)
    else (dst, err, ⟨p.2.2, r.FieldsPerRecord⟩)

/-- The loop of `csv.Reader.ReadAll`. -/
def ReadAll.loop : Nat → Reader → List (List Bytes) → Except CsvError (List (List Bytes))
  | 0, _, records => .ok records
  | fuel + 1, r, records =>
    match readRecord r with
    | (_, some .EOF, _) => .ok records
    | (_, some (.parse err), _) => .error err
    | (record, none, r1) => ReadAll.loop fuel r1 (records ++ [record])

/-- Method `csv.Reader.ReadAll`. -/
def ReadAll (r : Reader) : Except CsvError (List (List Bytes)) :=
  ReadAll.loop (r.r.length + 1) r []

/-- Method `csv.Writer.fieldNeedsQuotes`. -/
def fieldNeedsQuotes (field : Bytes) : Bool :=
  if field = [] then false
  else if field = [0x5C, 0x2E] then true
  else if field.any (fun c => c = 0x0A || c = 0x0D || c = 0x22 || c = 0x2C) then true
  else IsSpace (DecodeRune field).1

/-- The loop of `csv.Writer.Write` that writes a quoted field: a quote is
doubled, every other byte is copied (`UseCRLF` is false). -/
def writeQuoted : Bytes → Bytes
  | [] => []
  | c :: rest => (if c = 0x22 then [0x22, 0x22] else [c]) ++ writeQuoted rest

/-- One field as `csv.Writer.Write` writes it. -/
def writeField (field : Bytes) : Bytes :=
  if !fieldNeedsQuotes field then field
  else [0x22] ++ writeQuoted field ++ [0x22]

/-- The field loop of `csv.Writer.Write`, `n` being the index of the field. -/
def writeFields : Nat → List Bytes → Bytes
  | _, [] => []
  | n, field :: rest =>
    (if n > 0 then [0x2C] else []) ++ writeField field ++ writeFields (n + 1) rest

/-- Method `csv.Writer.Write` on the bytes written so far: the bytes written
afterwards and the error. With the comma `,` and a `bytes.Buffer` underneath no
error is reported. -/
def Writer.Write (w : Bytes) (record : List Bytes) : Bytes × Option CsvError :=
  (w ++ writeFields 0 record ++ [0x0A], none)

/-- Methods `csv.Writer.Flush` and `csv.Writer.Error`: the error of the
underlying `bytes.Buffer`, which is always nil. -/
def Writer.Error (_w : Bytes) : Option CsvError := none

/-- Constant `xml.Header`. -/
def xmlHeader : Bytes := ascii "<?xml version=\"1.0\" encoding=\"UTF-8\"?>\n"

/-! ## text.go: Convert -/

/-- The inner loop of the `csv` decode case: `for i, value := range record`,
assigning `item[headers[i]] = value` while `i < len(headers)`. -/
def csvItem.loop (headers : List Bytes) : Nat → List Bytes → GoMap → GoMap
  | _, [], item => item
  | i, value :: rest, item =>
    if i < headers.length then
      csvItem.loop headers (i + 1) rest (mapAssign item (headers.getD i []) (.str value))
    else csvItem.loop headers (i + 1) rest item

/-- The `item` built from one CSV record. -/
def csvItem (headers record : List Bytes) : GoMap := csvItem.loop headers 0 record []

/-- The outer loop of the `csv` decode case: `for _, record := range records[1:]`. -/
def csvRecords.loop (headers : List Bytes) : List (List Bytes) → Data → Data
  | [], data => data
  | record :: rest, data => csvRecords.loop headers rest (data ++ [some (csvItem headers record)])

/-- The `record` of the `xml` decode case: `record[field.Name] = field.Value`
for each field of the item. -/
def xmlRecord.loop : List XMLField → GoMap → GoMap
  | [], record => record
  | field :: rest, record => xmlRecord.loop rest (mapAssign record field.Name (.str field.Value))

/-- The first loop of the `txt` decode case: entry `i` is the map
`{"line": line}` of the trimmed line `i` when that is not empty, and stays nil
otherwise. -/
def txtLines.loop : List Bytes → Data
  | [] => []
  | line :: rest =>
    let line1 := TrimSpace line
    (if line1 ≠ [] then some [(ascii "line", Value.str line1)] else none) :: txtLines.loop rest

/-- The second loop of the `txt` decode case: keep the entries that are not nil. -/
def cleanData.loop : Data → Data → Data
  | [], cleanData => cleanData
  | item :: rest, cleanData =>
    if item ≠ none then cleanData.loop rest (cleanData ++ [item])
    else cleanData.loop rest cleanData

/-- The first `switch` of `Convert`: decode `input` as `inputFormat` into the
record set, or return the error of that case. -/
def decode (lib : StdLib) (input : Bytes) (inputFormat : Bytes) : Except ConvertError Data :=
  if inputFormat = ascii "json" then
    match lib.jsonUnmarshal input with
    | .error err => .error (.jsonParse err)
    | .ok data => .ok data
  else if inputFormat = ascii "csv" then
    match ReadAll (NewReader input) with
    | .error err => .error (.csvParse err)
    | .ok records =>
      if records.length < 2 then .error .csvInvalid
      else
        let headers := records.getD 0 []
        .ok (csvRecords.loop headers (records.drop 1) [])
  else if inputFormat = ascii "xml" then
    match lib.xmlUnmarshal input with
    | .error err => .error (.xmlParse err)
    | .ok xmlData => .ok (xmlData.Items.map (fun item => some (xmlRecord.loop item.Fields [])))
  else if inputFormat = ascii "txt" then
    .ok (cleanData.loop (txtLines.loop (Split input 0x0A)) [])
  else .ok []

/-- The `headers` of the `csv` encode case: `for k := range data[0]`. -/
def csvHeaders (ρ : RangeOrder) (data : Data) : List Bytes :=
  (rangeMap ρ 0 (data.getD 0 none)).map Prod.fst

/-- The `record` of the `csv` encode case for one item: under each header the
text of the item's value, or the empty string when the item has no such key. -/
def csvRow (lib : StdLib) (headers : List Bytes) (item : Option GoMap) : List Bytes :=
  headers.map (fun header =>
    match mapIndex item header with
    | some val => Sprint lib val
    | none => [])

/-- The data loop of the `csv` encode case: write one record per item. -/
def csvWriteData.loop (lib : StdLib) (headers : List Bytes) : Data → Bytes →
    Bytes × Option CsvError
  | [], w => (w, none)
  | item :: rest, w =>
    match Writer.Write w (csvRow lib headers item) with
    | (_, some err) => (w, some err)
    | (w1, none) => csvWriteData.loop lib headers rest w1

/-- The `fields` of the `xml` encode case for the item at index `i`. -/
def xmlFields (lib : StdLib) (ρ : RangeOrder) (i : Nat) (item : Option GoMap) : List XMLField :=
  (rangeMap ρ i item).map (fun kv => ⟨kv.1, Sprint lib kv.2⟩)

/-- The item loop of the `xml` encode case. -/
def xmlItems.loop (lib : StdLib) (ρ : RangeOrder) : Nat → Data → List XMLRecord
  | _, [] => []
  | i, item :: rest => ⟨xmlFields lib ρ i item⟩ :: xmlItems.loop lib ρ (i + 1) rest

/-- The field loop of the `txt` encode case over the entries in range order:
`fmt.Sprintf("%s: %v\n", key, value)` for each entry. -/
def txtFields.loop (lib : StdLib) : GoMap → Bytes
  | [] => []
  | (key, value) :: rest =>
    key ++ ascii ": " ++ Sprint lib value ++ ascii "\n" ++ txtFields.loop lib rest

/-- The lines of the `txt` encode case for the item at index `i`. -/
def txtFields (lib : StdLib) (ρ : RangeOrder) (i : Nat) (item : Option GoMap) : Bytes :=
  txtFields.loop lib (rangeMap ρ i item)

/-- The item loop of the `txt` encode case: the fields of each item and then a
blank line. -/
def txtItems.loop (lib : StdLib) (ρ : RangeOrder) : Nat → Data → Bytes
  | _, [] => []
  | i, item :: rest => txtFields lib ρ i item ++ ascii "\n" ++ txtItems.loop lib ρ (i + 1) rest

/-- The second `switch` of `Convert`: encode the record set as `outputFormat`.
The result is the Go pair `([]byte, error)`, `none` being nil. -/
def encode (lib : StdLib) (ρ : RangeOrder) (data : Data) (outputFormat : Bytes) :
    Option Bytes × Option ConvertError :=
  if outputFormat = ascii "json" then
    match lib.jsonMarshalIndent data with
    | .error err => (none, some (.jsonMarshal err))
    | .ok out => (some out, none)
  else if outputFormat = ascii "csv" then
    if data.length = 0 then (none, some .noData)
    else
      let headers := csvHeaders ρ data
      match Writer.Write [] headers with
      | (_, some err) => (none, some (.csvWriteHeaders err))
      | (w, none) =>
        match csvWriteData.loop lib headers data w with
        | (_, some err) => (none, some (.csvWriteData err))
        | (w1, none) =>
          match Writer.Error w1 with
          | some err => (none, some (.csvFinalize err))
          | none => (some w1, none)
  else if outputFormat = ascii "xml" then
    let xmlData : XMLData := ⟨xmlItems.loop lib ρ 0 data⟩
    match lib.xmlEncode xmlData with
    | .error err => (none, some (.xmlEncode err))
    | .ok out => (some (xmlHeader ++ out), none)
  else if outputFormat = ascii "txt" then
    (some (txtItems.loop lib ρ 0 data), none)
  else (none, none)

/-- Method `TextConverter.Convert` of `text.go`. The result is the Go pair
`([]byte, error)`, `none` being nil. -/
def Convert (lib : StdLib) (ρ : RangeOrder) (input : Bytes) (outputFormat : Bytes) :
    Option Bytes × Option ConvertError :=
  -- Valider le format de sortie
  match ValidateFormat outputFormat GetSupportedFormats with
  | some err => (none, some err)
  | none =>
    -- Détecter le format d'entrée
    let inputFormat := detectFormat input
    match ValidateFormat inputFormat GetSupportedFormats with
    | some _ => (none, some (.unrecognizedInput inputFormat))
    | none =>
      match decode lib input inputFormat with
      | .error err => (none, some err)
      | .ok data => encode lib ρ data outputFormat

/-- A library instance for evaluating examples that do not involve JSON or XML:
its JSON and XML functions report an error. -/
def StdLib.noJsonXml : StdLib :=
  { jsonUnmarshal := fun _ => .error []
    jsonMarshalIndent := fun _ => .error []
    xmlUnmarshal := fun _ => .error []
    xmlEncode := fun _ => .error []
    sprintOther := fun t => t }

/-! ## Specification-side definitions -/

/-- Function `utf8.EncodeRune` (as `utf8.AppendRune(nil, r)`): the UTF-8
encoding of the rune `r`. -/
def EncodeRune (r : Nat) : Bytes :=
  if r ≤ 0x7F then [UInt8.ofNat r]
  else if r ≤ 0x7FF then [UInt8.ofNat (0xC0 ||| (r >>> 6)), UInt8.ofNat (0x80 ||| (r &&& 0x3F))]
  else
    let r1 := if r > 0x10FFFF ∨ (0xD800 ≤ r ∧ r ≤ 0xDFFF) then RuneError else r
    if r1 ≤ 0xFFFF then
      [UInt8.ofNat (0xE0 ||| (r1 >>> 12)), UInt8.ofNat (0x80 ||| ((r1 >>> 6) &&& 0x3F)),
        UInt8.ofNat (0x80 ||| (r1 &&& 0x3F))]
    else
      [UInt8.ofNat (0xF0 ||| (r1 >>> 18)), UInt8.ofNat (0x80 ||| ((r1 >>> 12) &&& 0x3F)),
        UInt8.ofNat (0x80 ||| ((r1 >>> 6) &&& 0x3F)), UInt8.ofNat (0x80 ||| (r1 &&& 0x3F))]

/-- The UTF-8 text of a sequence of runes (Go `string(runes)`). -/
def encodeRunes : List Nat → Bytes
  | [] => []
  | r :: rest => EncodeRune r ++ encodeRunes rest

/-- The classification of section 4.1 of the specification, steps 2 to 5, on the
trimmed buffer: json when its first byte is an opening brace or bracket, else
xml when it is `<`, else csv when the first line (up to the first newline)
contains a comma and none of the characters `{ } [ ] < >`, else txt. -/
def classifyTrimmed (trimmed : Bytes) : Bytes :=
  let firstLine := trimmed.takeWhile (· ≠ 0x0A)
  if trimmed.head? = some 0x7B ∨ trimmed.head? = some 0x5B then ascii "json"
  else if trimmed.head? = some 0x3C then ascii "xml"
  else if 0x2C ∈ firstLine ∧ ∀ c ∈ ascii "{}[]<>", c ∉ firstLine then ascii "csv"
  else ascii "txt"

/-- Method `csv.Writer.WriteAll` on the bytes written so far: `Write` for each
record in turn. -/
def Writer.WriteAll : Bytes → List (List Bytes) → Bytes
  | w, [] => w
  | w, record :: rest => Writer.WriteAll (Writer.Write w record).1 rest

/-- The keys of a possibly nil map. -/
def mapKeys (m : Option GoMap) : List Bytes :=
  match m with
  | none => []
  | some m => m.map Prod.fst

/-- A library instance for evaluating examples on the empty documents: it
decodes the JSON text `[]` to the empty record set and the XML text `<root/>` to
an `XMLData` without items, and encodes the empty record set as `[]` and as
`<root></root>`; on anything else its JSON and XML functions report an error. -/
def StdLib.emptyDocs : StdLib :=
  { jsonUnmarshal := fun input => if input = ascii "[]" then .ok [] else .error []
    jsonMarshalIndent := fun data => if data = [] then .ok (ascii "[]") else .error []
    xmlUnmarshal := fun input => if input = ascii "<root/>" then .ok ⟨[]⟩ else .error []
    xmlEncode := fun xmlData => if xmlData = ⟨[]⟩ then .ok (ascii "<root></root>") else .error []
    sprintOther := fun t => t }

/-- A UTF-8 continuation byte: `0x80` to `0xBF`. -/
def isCont (b : UInt8) : Bool := 0x80 ≤ b.toNat && b.toNat ≤ 0xBF

/-- The trimmed texts of the lines of a line-text document that are not blank,
in order: the values of the records that the txt decode case builds. -/
def txtValues (input : Bytes) : List Bytes :=
  (Split input 0x0A).filterMap (fun line =>
    if TrimSpace line ≠ [] then some (TrimSpace line) else none)

/-- The record of the txt decoder for the line text `v`. -/
def lineRecord (v : Bytes) : Option GoMap := some [(ascii "line", Value.str v)]

/-- The line-text encoding of the records of the values `vs`: for each value the
line `line: ` followed by the value, and a blank line. -/
def txtOutput : List Bytes → Bytes
  | [] => []
  | v :: rest => ascii "line: " ++ v ++ ascii "\n" ++ ascii "\n" ++ txtOutput rest

/-- Two records hold the same (key, value) pairs: both are maps, and the
entries of one are a permutation of the entries of the other. -/
def sameRecord (a b : Option GoMap) : Prop :=
  ∃ m m1, a = some m ∧ b = some m1 ∧ m1.Perm m

/-- No carriage return in `s` is directly followed by a line feed. -/
def noCRLF : Bytes → Bool
  | [] => true
  | a :: rest =>
    match rest with
    | [] => true
    | b :: _ => !(a == 0x0D && b == 0x0A) && noCRLF rest

/-- The field loop of `readRecord` with the fuel that `readRecord` gives it. -/
def readRecord.parseAt (cur : Option Bytes) (line rest : Bytes) (fields : List Bytes) :
    List Bytes × Option CsvError × Bytes :=
  readRecord.parse (line.length + rest.length + 1) cur line rest fields

/-- The field loop of `readRecord` on the unread input `s`, of which the first
line has been read. -/
def readRecord.parseS (cur : Option Bytes) (s : Bytes) (fields : List Bytes) :
    List Bytes × Option CsvError × Bytes :=
  readRecord.parseAt cur (ReadSlice s 0x0A).1 (ReadSlice s 0x0A).2.1 fields

/-- The text that `csv.Writer` writes for the records `rows`. -/
def csvText : List (List Bytes) → Bytes
  | [] => []
  | r :: rest => writeFields 0 r ++ 0x0A :: csvText rest

/-- The condition under which records decoded from CSV read back from the CSV
text that is written for them: no field name and no value holds a carriage
return directly before a line feed, and a record with a single field has a
name and a value that are not empty. -/
def csvReadable (data : Data) : Bool :=
  data.all (fun item =>
    match item with
    | none => true
    | some m => m.all (fun kv =>
        match kv.2 with
        | .str s =>
          noCRLF kv.1 && noCRLF s && decide (m.length = 1 → kv.1 ≠ [] ∧ s ≠ [])
        | .other _ => true))

/-- A library instance for evaluating examples on two sample documents: it
decodes a JSON text and an XML text of one record with the field `a` of value
`1`, encodes that record set the way `json.MarshalIndent` and the XML encoder
with a two-space indent do, and decodes these encodings back; on anything else
its JSON and XML functions report an error. -/
def StdLib.sampleDocs : StdLib :=
  { jsonUnmarshal := fun input =>
      if input = ascii "[\x7b\"a\":\"1\"\x7d]" ∨
          input = ascii "[\n  \x7b\n    \"a\": \"1\"\n  \x7d\n]" then
        .ok [some [(ascii "a", .str (ascii "1"))]]
      else .error []
    jsonMarshalIndent := fun data =>
      if data = [some [(ascii "a", .str (ascii "1"))]] then
        .ok (ascii "[\n  \x7b\n    \"a\": \"1\"\n  \x7d\n]")
      else .error []
    xmlUnmarshal := fun input =>
      if input = ascii "<root><item><field name=\"a\">1</field></item></root>" ∨
          input = xmlHeader ++
            ascii "<root>\n  <item>\n    <field name=\"a\">1</field>\n  </item>\n</root>" then
        .ok ⟨[⟨[⟨ascii "a", ascii "1"⟩]⟩]⟩
      else .error []
    xmlEncode := fun xmlData =>
      if xmlData = ⟨[⟨[⟨ascii "a", ascii "1"⟩]⟩]⟩ then
        .ok (ascii "<root>\n  <item>\n    <field name=\"a\">1</field>\n  </item>\n</root>")
      else .error []
    sprintOther := fun t => t }

/-! ## Theorems -/

/-- The values of the table `first`. -/
theorem first_cases (b : UInt8) :
    first b = 0xF0 ∨ first b = 0xF1 ∨ first b = 0x02 ∨ first b = 0x13 ∨ first b = 0x03 ∨
      first b = 0x23 ∨ first b = 0x34 ∨ first b = 0x04 ∨ first b = 0x44 := by
  unfold first
  dsimp only
  split_ifs <;> simp

/-- For a first byte that starts a multi-byte sequence the size is 2, 3 or 4. -/
theorem first_size (b : UInt8) (h : first b < 0xF0) :
    first b = 0x02 ∨ first b = 0x13 ∨ first b = 0x03 ∨ first b = 0x23 ∨ first b = 0x34 ∨
      first b = 0x04 ∨ first b = 0x44 := by
  rcases first_cases b with h1 | h1 | h1 | h1 | h1 | h1 | h1 | h1 | h1 <;>
    rw [h1] at h ⊢ <;> simp at h ⊢

theorem DecodeRune_size_pos (p : Bytes) (h : p ≠ []) : 1 ≤ (DecodeRune p).2 := by
  have hl : ¬ p.length < 1 := by
    cases p with
    | nil => exact absurd rfl h
    | cons a t => simp
  unfold DecodeRune
  simp only [hl, if_false]
  split_ifs <;> simp

/-- The size bits of a first byte that starts a multi-byte sequence. -/
theorem first_size_ge (b : UInt8) (h : first b < 0xF0) : 2 ≤ first b &&& 7 := by
  rcases first_size b h with h1 | h1 | h1 | h1 | h1 | h1 | h1 <;> rw [h1] <;> decide

theorem DecodeRune_size_le (p : Bytes) : (DecodeRune p).2 ≤ p.length := by
  unfold DecodeRune
  simp only []
  by_cases hl : p.length < 1
  · simp [hl]
  · simp only [hl, if_false]
    by_cases hx : first (p.getD 0 0) ≥ 0xF0
    · simp only [hx, if_true]; omega
    · simp only [hx, if_false]
      have hs := first_size_ge (p.getD 0 0) (by omega)
      generalize first (p.getD 0 0) &&& 7 = sz at hs ⊢
      split_ifs <;> simp <;> omega

/-- Enough fuel: any two amounts of fuel that cover the length give the same
result of the left trimming loop. -/
theorem TrimLeftFunc_loop_fuel (f : Nat → Bool) (n : Nat) :
    ∀ (m : Nat) (s : Bytes), s.length ≤ n → s.length ≤ m →
      TrimLeftFunc.loop f n s = TrimLeftFunc.loop f m s := by
  induction n with
  | zero =>
    intro m s hn _
    have : s = [] := List.length_eq_zero.mp (by omega)
    subst this
    cases m <;> simp [TrimLeftFunc.loop]
  | succ n ih =>
    intro m s hn hm
    cases s with
    | nil => cases m <;> simp [TrimLeftFunc.loop]
    | cons c rest =>
      cases m with
      | zero => simp at hm
      | succ m =>
        simp only [TrimLeftFunc.loop]
        split_ifs with h1 h2 h2
        · rfl
        · have hp := DecodeRune_size_pos (c :: rest) (by simp)
          obtain ⟨k, hk⟩ : ∃ k, (DecodeRune (c :: rest)).2 = k + 1 := ⟨_, (Nat.sub_add_cancel hp).symm⟩
          simp only [hk, List.drop_succ_cons]
          simp only [List.length_cons] at hn hm
          apply ih <;> simp only [List.length_drop] <;> omega
        · rfl
        · simp only [List.drop_succ_cons, List.drop_zero]
          simp only [List.length_cons] at hn hm
          apply ih <;> omega

/-- The white space runes. -/
theorem IsSpace_cases (r : Nat) (h : IsSpace r = true) :
    r ∈ [0x09, 0x0A, 0x0B, 0x0C, 0x0D, 0x20, 0x85, 0xA0, 0x1680, 0x2000, 0x2001, 0x2002, 0x2003,
      0x2004, 0x2005, 0x2006, 0x2007, 0x2008, 0x2009, 0x200A, 0x2028, 0x2029, 0x202F, 0x205F,
      0x3000] := by
  unfold IsSpace at h
  split_ifs at h with h1
  · simp only [Bool.decide_or, Bool.or_eq_true, decide_eq_true_eq] at h
    rcases h with h | h | h | h | h | h | h | h <;> subst h <;> decide
  · simp only [Bool.decide_or, Bool.decide_and, Bool.or_eq_true, Bool.and_eq_true,
      decide_eq_true_eq] at h
    rcases h with h | ⟨h2, h3⟩ | h | h | h | h | h
    · subst h; decide
    · interval_cases r <;> decide
    all_goals (subst h; decide)

theorem getD_append_left (p rest : Bytes) (i : Nat) (h : i < p.length) :
    (p ++ rest).getD i 0 = p.getD i 0 := by
  simp [List.getD_eq_getElem?_getD, List.getElem?_append_left h]

theorem first_size_val (b : UInt8) (h : first b < 0xF0) :
    first b &&& 7 = 2 ∨ first b &&& 7 = 3 ∨ first b &&& 7 = 4 := by
  rcases first_size b h with h1 | h1 | h1 | h1 | h1 | h1 | h1 <;> rw [h1] <;> decide

theorem DecodeRune_append (p rest : Bytes)
    (h : (if first (p.getD 0 0) ≥ 0xF0 then 1 else first (p.getD 0 0) &&& 7) ≤ p.length) :
    DecodeRune (p ++ rest) = DecodeRune p := by
  have hpos : 0 < p.length := by
    split_ifs at h with hx
    · omega
    · have := first_size_ge (p.getD 0 0) (by omega); omega
  unfold DecodeRune
  have hl1 : ¬ (p ++ rest).length < 1 := by rw [List.length_append]; omega
  have hl2 : ¬ p.length < 1 := by omega
  simp only [hl1, hl2, if_false, getD_append_left p rest 0 hpos]
  by_cases hx : first (p.getD 0 0) ≥ 0xF0
  · simp only [hx, if_true]
  · simp only [hx, if_false] at h ⊢
    have hv := first_size_val (p.getD 0 0) (by omega)
    generalize first (p.getD 0 0) &&& 7 = sz at h hv ⊢
    rcases hv with rfl | rfl | rfl
    · have a1 : ¬ (p ++ rest).length < 2 := by rw [List.length_append]; omega
      have a2 : ¬ p.length < 2 := by omega
      simp only [a1, a2, if_false, getD_append_left p rest 1 (by omega), le_refl, if_true]
    · have a1 : ¬ (p ++ rest).length < 3 := by rw [List.length_append]; omega
      have a2 : ¬ p.length < 3 := by omega
      simp only [a1, a2, if_false, getD_append_left p rest 1 (by omega),
        getD_append_left p rest 2 (by omega), le_refl, if_true]
    · have a1 : ¬ (p ++ rest).length < 4 := by rw [List.length_append]; omega
      have a2 : ¬ p.length < 4 := by omega
      simp only [a1, a2, if_false, getD_append_left p rest 1 (by omega),
        getD_append_left p rest 2 (by omega), getD_append_left p rest 3 (by omega)]

theorem decode_space (r : Nat) (h : IsSpace r = true) (rest : Bytes) :
    EncodeRune r ≠ [] ∧ DecodeRune (EncodeRune r ++ rest) = (r, (EncodeRune r).length) ∧
      ((EncodeRune r).getD 0 0).toNat ≥ RuneSelf ∨ EncodeRune r = [UInt8.ofNat r] ∧ r < RuneSelf := by
  have hc := IsSpace_cases r h
  simp only [List.mem_cons, List.mem_singleton, List.not_mem_nil, or_false] at hc
  rcases hc with h | h | h | h | h | h | h | h | h | h | h | h | h | h | h | h | h | h | h | h |
    h | h | h | h | h <;> subst h
  all_goals first
    | (right; decide)
    | (left; refine ⟨by decide, ?_, by decide⟩; rw [DecodeRune_append _ _ (by decide)]; decide)

/-- The left trimming loop consumes a text made of white space runes only. -/
theorem TrimLeftFunc_loop_spaces (runes : List Nat) (h : ∀ r ∈ runes, IsSpace r = true) :
    ∀ fuel, (encodeRunes runes).length ≤ fuel →
      TrimLeftFunc.loop IsSpace fuel (encodeRunes runes) = [] := by
  induction runes with
  | nil => intro fuel _; cases fuel <;> simp [encodeRunes, TrimLeftFunc.loop]
  | cons r rs ih =>
    intro fuel hf
    have hr : IsSpace r = true := h r (List.mem_cons_self _ _)
    have ih1 := ih (fun x hx => h x (List.mem_cons_of_mem _ hx))
    simp only [encodeRunes, List.length_append] at hf ⊢
    rcases decode_space r hr (encodeRunes rs) with ⟨hne, hdec, hge⟩ | ⟨henc, hlt⟩
    · obtain ⟨c, t, hct⟩ := List.exists_cons_of_ne_nil hne
      rw [hct] at hf hdec hge ⊢
      simp only [List.length_cons] at hf
      obtain ⟨fuel1, rfl⟩ : ∃ k, fuel = k + 1 := ⟨fuel - 1, by omega⟩
      simp only [List.getD_cons_zero] at hge
      simp only [List.cons_append] at hdec ⊢
      simp only [TrimLeftFunc.loop, hge, if_true, hdec, hr]
      rw [if_neg (by decide)]
      simp only [List.length_cons, List.drop_succ_cons, List.drop_left]
      exact ih1 fuel1 (by omega)
    · rw [henc] at hf ⊢
      simp only [List.length_cons, List.length_nil] at hf
      obtain ⟨fuel1, rfl⟩ : ∃ k, fuel = k + 1 := ⟨fuel - 1, by omega⟩
      have hn : (UInt8.ofNat r).toNat = r := by
        simp only [RuneSelf] at hlt
        simp only [UInt8.toNat, UInt8.ofNat, Fin.ofNat]
        show r % 256 = r
        omega
      have hnot : ¬ r ≥ RuneSelf := by omega
      simp only [List.singleton_append, TrimLeftFunc.loop, hn, hnot, if_false, hr]
      rw [if_neg (by decide)]
      simp only [List.drop_succ_cons, List.drop_zero]
      exact ih1 fuel1 (by omega)

/-- A text made of white space runes only is trimmed to the empty slice. -/
theorem TrimSpace_spaces (runes : List Nat) (h : ∀ r ∈ runes, IsSpace r = true) :
    TrimSpace (encodeRunes runes) = [] := by
  unfold TrimSpace TrimFunc TrimLeftFunc
  rw [TrimLeftFunc_loop_spaces runes h _ (le_refl _)]
  rfl

theorem SplitN2_first_eq (s : Bytes) (sep : UInt8) :
    SplitN2_first s sep = s.takeWhile (· ≠ sep) := by
  induction s with
  | nil => rfl
  | cons c rest ih =>
    by_cases h : c = sep <;> simp [SplitN2_first, List.takeWhile, h, ih]

theorem Count_pos_iff (s : Bytes) (c : UInt8) : Count s c > 0 ↔ c ∈ s := by
  induction s with
  | nil => simp [Count]
  | cons b rest ih =>
    by_cases h : b = c
    · simp [Count, h]
    · have h1 : ¬ c = b := fun e => h e.symm
      simp [Count, h, h1, ih]

theorem ContainsAny_iff (s chars : Bytes) :
    ContainsAny s chars = true ↔ ∃ b ∈ s, b ∈ chars := by
  induction s with
  | nil => simp [ContainsAny]
  | cons b rest ih =>
    by_cases h : b ∈ chars
    · simp [ContainsAny, h]
    · simp [ContainsAny, h, ih]

/-- C2: on every buffer whose white-space-trimmed form is not empty,
`detectFormat` is the classification of the specification applied to the
trimmed form, in its fixed order: json when the first byte is an opening brace
or bracket, else xml when it is `<`, else csv when the first line contains a
comma and none of `{ } [ ] < >`, else txt. -/
theorem detectFormat_classifies (input : Bytes) (h : TrimSpace input ≠ []) :
    detectFormat input = classifyTrimmed (TrimSpace input) := by
  unfold detectFormat classifyTrimmed
  obtain ⟨c, t, hct⟩ := List.exists_cons_of_ne_nil h
  simp only [hct, List.length_cons, Nat.succ_ne_zero, if_false, List.getD_cons_zero,
    List.head?_cons, Option.some.injEq, SplitN2_first_eq, Count_pos_iff]
  have hc : (¬ ContainsAny (List.takeWhile (fun x => decide (x ≠ 0x0A)) (c :: t))
      (ascii "{}[]<>") = true) ↔
      ∀ x ∈ ascii "{}[]<>", x ∉ List.takeWhile (fun x => decide (x ≠ 0x0A)) (c :: t) := by
    rw [ContainsAny_iff]
    constructor
    · intro hn x hx hm; exact hn ⟨x, hm, hx⟩
    · rintro hn ⟨x, hm, hx⟩; exact hn x hx hm
  simp only [hc]

/-- C2 (witness): the four documents of the specification. -/
theorem detectFormat_classifies_witness :
    (TrimSpace (ascii "\x7b\"a\":1\x7d") ≠ [] ∧ detectFormat (ascii "\x7b\"a\":1\x7d") = ascii "json" ∧
      classifyTrimmed (TrimSpace (ascii "\x7b\"a\":1\x7d")) = ascii "json") ∧
    (TrimSpace (ascii "<root/>") ≠ [] ∧ detectFormat (ascii "<root/>") = ascii "xml" ∧
      classifyTrimmed (TrimSpace (ascii "<root/>")) = ascii "xml") ∧
    (TrimSpace (ascii "a,b\n1,2\n") ≠ [] ∧ detectFormat (ascii "a,b\n1,2\n") = ascii "csv" ∧
      classifyTrimmed (TrimSpace (ascii "a,b\n1,2\n")) = ascii "csv") ∧
    (TrimSpace (ascii "hello world") ≠ [] ∧ detectFormat (ascii "hello world") = ascii "txt" ∧
      classifyTrimmed (TrimSpace (ascii "hello world")) = ascii "txt") :=
  ⟨⟨by decide, (detectFormat_classifies _ (by decide)).trans (by decide), by decide⟩,
   ⟨by decide, (detectFormat_classifies _ (by decide)).trans (by decide), by decide⟩,
   ⟨by decide, (detectFormat_classifies _ (by decide)).trans (by decide), by decide⟩,
   ⟨by decide, (detectFormat_classifies _ (by decide)).trans (by decide), by decide⟩⟩

/-- C1 (counterexample): on the empty buffer and on a buffer of white space
`detectFormat` returns the empty string, which is none of the four tags and in
particular not txt. -/
theorem detectFormat_empty_not_txt :
    detectFormat [] = ascii "" ∧
    detectFormat [] ∉ [ascii "json", ascii "xml", ascii "csv", ascii "txt"] ∧
    detectFormat (ascii " \n\t ") = ascii "" ∧
    detectFormat (ascii " \n\t ") ≠ ascii "txt" := by
  decide

/-- C1 (amended): for every byte buffer `detectFormat` returns the empty string
or one of the four tags json, xml, csv, txt; it returns the empty string exactly
when the white-space-trimmed buffer is empty, so for the empty buffer and for
every buffer that is the UTF-8 text of white space runes only. -/
theorem detectFormat_tags (input : Bytes) :
    detectFormat input ∈ [ascii "", ascii "json", ascii "xml", ascii "csv", ascii "txt"] ∧
    (detectFormat input = ascii "" ↔ TrimSpace input = []) ∧
    (∀ runes : List Nat, (∀ r ∈ runes, IsSpace r = true) → input = encodeRunes runes →
      detectFormat input = ascii "") := by
  have hiff : detectFormat input = ascii "" ↔ TrimSpace input = [] := by
    unfold detectFormat
    constructor
    · intro h
      by_contra hne
      have hl : ¬ (TrimSpace input).length = 0 := fun e => hne (List.length_eq_zero.mp e)
      simp only [hl, if_false] at h
      split_ifs at h <;> revert h <;> decide
    · intro h
      simp [h]
  refine ⟨?_, hiff, ?_⟩
  · unfold detectFormat
    simp only []
    split_ifs <;> decide
  · intro runes hr he
    rw [hiff, he]
    exact TrimSpace_spaces runes hr

/-- C1 (witness): a buffer of one space, one ideographic space (U+3000) and one
newline is classified as the empty string. -/
theorem detectFormat_tags_witness :
    (∀ r ∈ [0x20, 0x3000, 0x0A], IsSpace r = true) ∧
    detectFormat (encodeRunes [0x20, 0x3000, 0x0A]) = ascii "" :=
  ⟨by decide, (detectFormat_tags (encodeRunes [0x20, 0x3000, 0x0A])).2.2 [0x20, 0x3000, 0x0A]
    (by decide) rfl⟩

/-- The formats that `ValidateFormat` accepts for the text converter are
exactly the four extensions. -/
theorem ValidateFormat_supported (format : Bytes) :
    ValidateFormat format GetSupportedFormats =
      if format ∈ [ascii "json", ascii "csv", ascii "xml", ascii "txt"] then none
      else some (.unsupportedFormat format) := by
  simp only [GetSupportedFormats, ValidateFormat, List.mem_cons, List.mem_singleton,
    List.not_mem_nil, or_false]
  by_cases h1 : ascii "json" = format
  · simp [h1.symm]
  by_cases h2 : ascii "csv" = format
  · simp [h2.symm]
  by_cases h3 : ascii "xml" = format
  · simp [h3.symm]
  by_cases h4 : ascii "txt" = format
  · simp [h4.symm]
  have g1 : ¬ format = ascii "json" := fun e => h1 e.symm
  have g2 : ¬ format = ascii "csv" := fun e => h2 e.symm
  have g3 : ¬ format = ascii "xml" := fun e => h3 e.symm
  have g4 : ¬ format = ascii "txt" := fun e => h4 e.symm
  simp [h1, h2, h3, h4, g1, g2, g3, g4]

/-- C3: for every input and every requested output format that is not exactly
one of json, csv, xml, txt, `Convert` returns no output and the
unsupported-format error of `ValidateFormat`, whatever the input is. -/
theorem Convert_unsupported_output (lib : StdLib) (ρ : RangeOrder) (input outputFormat : Bytes)
    (h : outputFormat ∉ [ascii "json", ascii "csv", ascii "xml", ascii "txt"]) :
    ValidateFormat outputFormat GetSupportedFormats = some (.unsupportedFormat outputFormat) ∧
    Convert lib ρ input outputFormat = (none, some (.unsupportedFormat outputFormat)) := by
  have hv : ValidateFormat outputFormat GetSupportedFormats =
      some (.unsupportedFormat outputFormat) := by
    rw [ValidateFormat_supported, if_neg h]
  exact ⟨hv, by simp only [Convert, hv]⟩

/-- C3 (witness): the formats yaml and JSON (upper case) are refused, on a valid
JSON input, on a malformed input and on the empty input. -/
theorem Convert_unsupported_output_witness :
    ascii "yaml" ∉ [ascii "json", ascii "csv", ascii "xml", ascii "txt"] ∧
    ascii "JSON" ∉ [ascii "json", ascii "csv", ascii "xml", ascii "txt"] ∧
    Convert StdLib.noJsonXml RangeOrder.stored (ascii "[\x7b\"a\":\"1\"\x7d]") (ascii "yaml") =
      (none, some (.unsupportedFormat (ascii "yaml"))) ∧
    Convert StdLib.noJsonXml RangeOrder.stored (ascii "a,\"b") (ascii "JSON") =
      (none, some (.unsupportedFormat (ascii "JSON"))) ∧
    Convert StdLib.noJsonXml RangeOrder.stored [] (ascii "yaml") =
      (none, some (.unsupportedFormat (ascii "yaml"))) :=
  ⟨by decide, by decide,
    (Convert_unsupported_output _ _ _ _ (by decide)).2,
    (Convert_unsupported_output _ _ _ _ (by decide)).2,
    (Convert_unsupported_output _ _ _ _ (by decide)).2⟩

/-! ### encoding/csv: every record read has the field count of the first -/

/-- A record parsed without error has at least one field. -/
theorem readRecord_parse_ne_nil (fuel : Nat) :
    ∀ (cur : Option Bytes) (line rest : Bytes) (fields : List Bytes),
      (readRecord.parse fuel cur line rest fields).2.1 = none →
      (readRecord.parse fuel cur line rest fields).1 ≠ [] := by
  induction fuel with
  | zero => intro cur line rest fields h; simp [readRecord.parse] at h
  | succ fuel ih =>
    intro cur line rest fields
    cases cur with
    | none =>
      simp only [readRecord.parse]
      split_ifs with h1 h2
      · intro h; simp at h
      · cases hi : IndexByte line 0x2C with
        | none => intro _; simp
        | some i => simp only []; exact ih _ _ _ _
      · exact ih _ _ _ _
    | some cur =>
      simp only [readRecord.parse]
      cases hi : IndexByte line 0x22 with
      | none =>
        simp only []
        split_ifs with h1
        · exact ih _ _ _ _
        · intro h; simp at h
      | some i =>
        simp only []
        split_ifs with h1 h2 h3
        · exact ih _ _ _ _
        · exact ih _ _ _ _
        · intro _; simp
        · intro h; simp at h

/-- What `readRecord` guarantees when it returns a record and no error: the
record is not empty, it has the expected number of fields when that number is
positive, and the expected number afterwards is its number of fields. -/
theorem readRecord_ok (r r1 : Reader) (record : List Bytes)
    (h : readRecord r = (record, none, r1)) (h0 : 0 ≤ r.FieldsPerRecord) :
    record ≠ [] ∧ (0 < r.FieldsPerRecord → (record.length : Int) = r.FieldsPerRecord) ∧
      r1.FieldsPerRecord = record.length := by
  unfold readRecord at h
  simp only [] at h
  split_ifs at h with h1 h2 h3 h4
  · simp at h
  · simp at h
  · simp only [Prod.mk.injEq, Option.map_eq_none'] at h
    obtain ⟨hd, he, hr⟩ := h
    have hlen : (record.length : Int) = r.FieldsPerRecord := by
      by_contra hne
      apply h3
      rw [hd]
      exact ⟨hne, by simp [he]⟩
    refine ⟨?_, fun _ => hlen, ?_⟩
    · rw [← hd]; exact readRecord_parse_ne_nil _ _ _ _ _ he
    · rw [← hr]; exact hlen.symm
  · simp only [Prod.mk.injEq, Option.map_eq_none'] at h
    obtain ⟨hd, he, hr⟩ := h
    refine ⟨?_, fun hpos => absurd hpos h2, ?_⟩
    · rw [← hd]; exact readRecord_parse_ne_nil _ _ _ _ _ he
    · rw [← hr, ← hd]
  · exfalso; omega

/-- The invariant of the `ReadAll` loop: the records read so far are not empty
and all have the expected number of fields. -/
theorem ReadAll_loop_uniform (fuel : Nat) :
    ∀ (r : Reader) (records out : List (List Bytes)) (n : Nat),
      ReadAll.loop fuel r records = .ok out →
      r.FieldsPerRecord = n → (records = [] → n = 0) →
      (∀ row ∈ records, row.length = n ∧ 0 < n) →
      ∃ m : Nat, ∀ row ∈ out, row.length = m ∧ 0 < m := by
  induction fuel with
  | zero =>
    intro r records out n h _ _ hall
    simp only [ReadAll.loop, Except.ok.injEq] at h
    exact ⟨n, h ▸ hall⟩
  | succ fuel ih =>
    intro r records out n h hn hnil hall
    simp only [ReadAll.loop] at h
    rcases hrr : readRecord r with ⟨record, err, r1⟩
    rw [hrr] at h
    cases err with
    | some e =>
      cases e with
      | EOF =>
        simp only [Except.ok.injEq] at h
        exact ⟨n, h ▸ hall⟩
      | parse e => simp at h
    | none =>
      simp only [] at h
      obtain ⟨hne, hlen, hr1⟩ := readRecord_ok r r1 record hrr (by omega)
      have hpos : 0 < record.length := List.length_pos.mpr hne
      refine ih r1 (records ++ [record]) out record.length h hr1 (by simp) ?_
      intro row hrow
      rcases List.mem_append.mp hrow with hm | hm
      · have hrn := hall row hm
        have : (record.length : Int) = r.FieldsPerRecord := hlen (by omega)
        exact ⟨by omega, hpos⟩
      · simp only [List.mem_singleton] at hm
        exact ⟨by rw [hm], hpos⟩

/-- Every record list that `ReadAll` returns is uniform: all records have the
same, positive number of fields. -/
theorem ReadAll_uniform (input : Bytes) (out : List (List Bytes))
    (h : ReadAll (NewReader input) = .ok out) :
    ∃ m : Nat, ∀ row ∈ out, row.length = m ∧ 0 < m := by
  unfold ReadAll at h
  exact ReadAll_loop_uniform _ _ [] out 0 h rfl (fun _ => rfl) (by simp)

/-! ### The csv decode loops -/

theorem mapIndex_find_mapAssign (m : GoMap) (k k1 : Bytes) (v : Value) :
    mapIndex.find (mapAssign m k v) k1 = if k = k1 then some v else mapIndex.find m k1 := by
  induction m with
  | nil => simp [mapAssign, mapIndex.find]
  | cons e rest ih =>
    obtain ⟨a, b⟩ := e
    by_cases h1 : a = k
    · subst h1
      by_cases h2 : a = k1 <;> simp [mapAssign, mapIndex.find, h2]
    · simp only [mapAssign, h1, if_false, mapIndex.find, ih]
      by_cases h2 : a = k1
      · subst h2
        have h3 : ¬ k = a := fun e => h1 e.symm
        simp [h3]
      · simp [h2]

/-- The assignment loop of the csv decode case as a fold over the header and
value pairs: the values beyond the header length take no part. -/
theorem csvItem_loop_eq_foldl (headers : List Bytes) :
    ∀ (record : List Bytes) (i : Nat) (item : GoMap),
      csvItem.loop headers i record item =
        ((headers.drop i).zip record).foldl (fun m kv => mapAssign m kv.1 (.str kv.2)) item := by
  intro record
  induction record with
  | nil => intro i item; simp [csvItem.loop]
  | cons v rest ih =>
    intro i item
    by_cases hi : i < headers.length
    · have hd : headers.drop i = headers.getD i [] :: headers.drop (i + 1) := by
        rw [List.getD_eq_getElem _ _ hi]
        exact List.drop_eq_getElem_cons hi
      simp only [csvItem.loop, hi, if_true, ih, hd, List.zip_cons_cons, List.foldl_cons]
    · have hd : headers.drop i = [] := List.drop_eq_nil_of_le (by omega)
      have hd1 : headers.drop (i + 1) = [] := List.drop_eq_nil_of_le (by omega)
      simp only [csvItem.loop, hi, if_false, ih, hd, hd1, List.zip_nil_left, List.foldl_nil]

theorem csvItem_eq_foldl (headers record : List Bytes) :
    csvItem headers record =
      (headers.zip record).foldl (fun m kv => mapAssign m kv.1 (.str kv.2)) [] := by
  simp [csvItem, csvItem_loop_eq_foldl]

/-- A key that is no header is not touched by the assignments. -/
theorem foldl_assign_not_mem (n : Bytes) :
    ∀ (headers record : List Bytes) (init : GoMap), n ∉ headers →
      mapIndex.find ((headers.zip record).foldl
        (fun m kv => mapAssign m kv.1 (.str kv.2)) init) n = mapIndex.find init n := by
  intro headers
  induction headers with
  | nil => intro record init _; simp
  | cons x hs ih =>
    intro record init hn
    cases record with
    | nil => simp
    | cons v vs =>
      simp only [List.zip_cons_cons, List.foldl_cons]
      rw [ih vs _ (fun hm => hn (List.mem_cons_of_mem _ hm)), mapIndex_find_mapAssign]
      have : ¬ x = n := fun e => hn (e ▸ List.mem_cons_self _ _)
      simp [this]

/-- After the assignments a header name is mapped to the value at the last
column that carries this name. -/
theorem foldl_assign_last (n : Bytes) :
    ∀ (headers record : List Bytes) (init : GoMap) (j : Nat),
      record.length = headers.length → j < headers.length → headers.getD j [] = n →
      (∀ j1, j < j1 → j1 < headers.length → headers.getD j1 [] ≠ n) →
      mapIndex.find ((headers.zip record).foldl
        (fun m kv => mapAssign m kv.1 (.str kv.2)) init) n = some (.str (record.getD j [])) := by
  intro headers
  induction headers with
  | nil => intro record init j _ hj; simp at hj
  | cons x hs ih =>
    intro record init j hlen hj hjn hlast
    cases record with
    | nil => simp at hlen
    | cons v vs =>
      simp only [List.length_cons, Nat.add_right_cancel_iff] at hlen
      simp only [List.zip_cons_cons, List.foldl_cons]
      cases j with
      | zero =>
        simp only [List.getD_cons_zero] at hjn ⊢
        have hnm : n ∉ hs := by
          intro hm
          obtain ⟨k, hk, hkn⟩ := List.getElem_of_mem hm
          have := hlast (k + 1) (by omega) (by simp; omega)
          simp only [List.getD_cons_succ] at this
          rw [List.getD_eq_getElem _ _ hk] at this
          exact this hkn
        rw [foldl_assign_not_mem n hs vs _ hnm, mapIndex_find_mapAssign]
        simp [hjn]
      | succ j0 =>
        simp only [List.getD_cons_succ] at hjn ⊢
        simp only [List.length_cons] at hj
        apply ih vs _ j0 hlen (by omega) hjn
        intro j1 h1 h2
        have := hlast (j1 + 1) (by omega) (by simp; omega)
        simpa only [List.getD_cons_succ] using this

theorem csvRecords_loop_eq (headers : List Bytes) :
    ∀ (records : List (List Bytes)) (data : Data),
      csvRecords.loop headers records data =
        data ++ records.map (fun record => some (csvItem headers record)) := by
  intro records
  induction records with
  | nil => intro data; simp [csvRecords.loop]
  | cons r rest ih => intro data; simp [csvRecords.loop, ih]

/-- The csv decode case on a parsed document of at least two records. -/
theorem decode_csv_ok (lib : StdLib) (input : Bytes) (h : List Bytes) (rows : List (List Bytes))
    (hparse : ReadAll (NewReader input) = .ok (h :: rows)) (hk : rows ≠ []) :
    decode lib input (ascii "csv") = .ok (rows.map (fun row => some (csvItem h row))) := by
  have hl : ¬ (h :: rows).length < 2 := by
    have := List.length_pos.mpr hk
    simp only [List.length_cons]; omega
  have e1 : ¬ ascii "csv" = ascii "json" := by decide
  simp only [decode, e1, if_false, if_true, hparse, hl, List.getD_cons_zero, List.drop_succ_cons,
    List.drop_zero, csvRecords_loop_eq, List.nil_append]

theorem zip_take_length (headers record : List Bytes) :
    headers.zip (record.take headers.length) = headers.zip record := by
  induction headers generalizing record with
  | nil => simp
  | cons x hs ih =>
    cases record with
    | nil => simp
    | cons v vs => simp [ih]

/-- C5: when the CSV reader parses the input into a header row `h` and at least
one data row, the csv decode case of `Convert` yields one record per data row,
in row order; every data row has as many fields as the header; the record of a
row maps each header name to the row's value at the last column that carries
this name, and has no key that is not a header name. In the assignment loop the
values at columns beyond the header length take no part. -/
theorem decode_csv_zip (lib : StdLib) (input : Bytes) (h : List Bytes) (rows : List (List Bytes))
    (hparse : ReadAll (NewReader input) = .ok (h :: rows)) (hk : rows ≠ []) :
    decode lib input (ascii "csv") = .ok (rows.map (fun row => some (csvItem h row))) ∧
    (rows.map (fun row => some (csvItem h row))).length = rows.length ∧
    (∀ row ∈ rows, row.length = h.length ∧
      (∀ n j, j < h.length → h.getD j [] = n →
        (∀ j1, j < j1 → j1 < h.length → h.getD j1 [] ≠ n) →
        mapIndex (some (csvItem h row)) n = some (.str (row.getD j []))) ∧
      (∀ n, n ∉ h → mapIndex (some (csvItem h row)) n = none)) ∧
    (∀ headers record : List Bytes,
      csvItem headers record = csvItem headers (record.take headers.length)) := by
  refine ⟨decode_csv_ok lib input h rows hparse hk, by simp, ?_, ?_⟩
  · intro row hrow
    obtain ⟨m, hm⟩ := ReadAll_uniform input (h :: rows) hparse
    have hlen : row.length = h.length := by
      rw [(hm row (List.mem_cons_of_mem _ hrow)).1, (hm h (List.mem_cons_self _ _)).1]
    refine ⟨hlen, ?_, ?_⟩
    · intro n j hj hjn hlast
      simp only [mapIndex, csvItem_eq_foldl]
      exact foldl_assign_last n h row [] j hlen hj hjn hlast
    · intro n hn
      simp only [mapIndex, csvItem_eq_foldl]
      rw [foldl_assign_not_mem n h row [] hn]
      rfl
  · intro headers record
    rw [csvItem_eq_foldl, csvItem_eq_foldl, zip_take_length]

/-- C5 (witness): the document of the specification decodes to the two records
`{name: Alice, age: 30}` and `{name: Bob, age: 25}`. -/
theorem decode_csv_zip_witness :
    ReadAll (NewReader (ascii "name,age\nAlice,30\nBob,25\n")) =
      .ok [[ascii "name", ascii "age"], [ascii "Alice", ascii "30"], [ascii "Bob", ascii "25"]] ∧
    decode StdLib.noJsonXml (ascii "name,age\nAlice,30\nBob,25\n") (ascii "csv") =
      .ok [some [(ascii "name", .str (ascii "Alice")), (ascii "age", .str (ascii "30"))],
           some [(ascii "name", .str (ascii "Bob")), (ascii "age", .str (ascii "25"))]] :=
  ⟨by decide,
    (decode_csv_zip StdLib.noJsonXml (ascii "name,age\nAlice,30\nBob,25\n")
      [ascii "name", ascii "age"] [[ascii "Alice", ascii "30"], [ascii "Bob", ascii "25"]]
      (by decide) (by decide)).1.trans (by decide)⟩

/-- C7: when `detectFormat` classifies the input as csv and the CSV reader
parses it to fewer than two records, `Convert` returns no output and the error
of an invalid CSV, for each of the four output formats. -/
theorem Convert_csv_too_few_rows (lib : StdLib) (ρ : RangeOrder) (input outputFormat : Bytes)
    (records : List (List Bytes))
    (hd : detectFormat input = ascii "csv")
    (hp : ReadAll (NewReader input) = .ok records) (hl : records.length < 2)
    (ho : outputFormat ∈ [ascii "json", ascii "csv", ascii "xml", ascii "txt"]) :
    Convert lib ρ input outputFormat = (none, some .csvInvalid) := by
  have hv : ValidateFormat outputFormat GetSupportedFormats = none := by
    rw [ValidateFormat_supported, if_pos ho]
  have hv2 : ValidateFormat (ascii "csv") GetSupportedFormats = none := by decide
  have e1 : ¬ ascii "csv" = ascii "json" := by decide
  simp only [Convert, hv, hd, hv2, decode, e1, if_false, if_true, hp, hl]

/-- C7 (witness): a header with no data row, for the four output formats. -/
theorem Convert_csv_too_few_rows_witness :
    detectFormat (ascii "name,age\n") = ascii "csv" ∧
    ReadAll (NewReader (ascii "name,age\n")) = .ok [[ascii "name", ascii "age"]] ∧
    Convert StdLib.noJsonXml RangeOrder.stored (ascii "name,age\n") (ascii "json") =
      (none, some .csvInvalid) ∧
    Convert StdLib.noJsonXml RangeOrder.stored (ascii "name,age\n") (ascii "csv") =
      (none, some .csvInvalid) ∧
    Convert StdLib.noJsonXml RangeOrder.stored (ascii "name,age\n") (ascii "xml") =
      (none, some .csvInvalid) ∧
    Convert StdLib.noJsonXml RangeOrder.stored (ascii "name,age\n") (ascii "txt") =
      (none, some .csvInvalid) :=
  ⟨by decide, by decide,
    Convert_csv_too_few_rows _ _ _ _ [[ascii "name", ascii "age"]] (by decide) (by decide)
      (by decide) (by decide),
    Convert_csv_too_few_rows _ _ _ _ [[ascii "name", ascii "age"]] (by decide) (by decide)
      (by decide) (by decide),
    Convert_csv_too_few_rows _ _ _ _ [[ascii "name", ascii "age"]] (by decide) (by decide)
      (by decide) (by decide),
    Convert_csv_too_few_rows _ _ _ _ [[ascii "name", ascii "age"]] (by decide) (by decide)
      (by decide) (by decide)⟩

/-! ### The txt decode loops -/

theorem txtLines_loop_eq (lines : List Bytes) :
    txtLines.loop lines = lines.map (fun line =>
      if TrimSpace line ≠ [] then some [(ascii "line", Value.str (TrimSpace line))] else none) := by
  induction lines with
  | nil => rfl
  | cons l rest ih => simp only [txtLines.loop, ih, List.map_cons]

theorem cleanData_loop_eq (data : Data) :
    ∀ acc : Data, cleanData.loop data acc = acc ++ data.filter (fun item => item.isSome) := by
  induction data with
  | nil => intro acc; simp [cleanData.loop]
  | cons item rest ih =>
    intro acc
    cases item with
    | none => simp [cleanData.loop, ih]
    | some m => simp [cleanData.loop, ih]

/-- The txt decode case as a filter over the lines of the input. -/
theorem decode_txt_filterMap (lib : StdLib) (input : Bytes) :
    decode lib input (ascii "txt") =
      .ok ((Split input 0x0A).filterMap (fun line =>
        if TrimSpace line ≠ [] then some (some [(ascii "line", Value.str (TrimSpace line))])
        else none)) := by
  have e1 : ¬ ascii "txt" = ascii "json" := by decide
  have e2 : ¬ ascii "txt" = ascii "csv" := by decide
  have e3 : ¬ ascii "txt" = ascii "xml" := by decide
  simp only [decode, e1, e2, e3, if_false, if_true, txtLines_loop_eq, cleanData_loop_eq,
    List.nil_append, Except.ok.injEq]
  generalize Split input 0x0A = lines
  induction lines with
  | nil => rfl
  | cons l rest ih =>
    by_cases hl : TrimSpace l = []
    · simpa [hl, List.filterMap_cons] using ih
    · simpa [hl, List.filterMap_cons] using ih

/-- C9: the txt decode case of `Convert` yields, in order, one record per line
of the input (split at newlines) whose trimmed text is not empty; each such
record is the map with the single key `line` and the trimmed line as value; the
result holds no nil and no empty record. The input `foo`, blank line, `bar`
yields exactly the two records of `foo` and `bar`. -/
theorem decode_txt_lines (lib : StdLib) (input : Bytes) :
    decode lib input (ascii "txt") =
      .ok ((Split input 0x0A).filterMap (fun line =>
        if TrimSpace line ≠ [] then some (some [(ascii "line", Value.str (TrimSpace line))])
        else none)) ∧
    (∀ data, decode lib input (ascii "txt") = .ok data → ∀ item ∈ data,
      ∃ line ∈ Split input 0x0A, TrimSpace line ≠ [] ∧
        item = some [(ascii "line", Value.str (TrimSpace line))]) ∧
    decode lib (ascii "foo\n\nbar\n") (ascii "txt") =
      .ok [some [(ascii "line", .str (ascii "foo"))], some [(ascii "line", .str (ascii "bar"))]] := by
  refine ⟨decode_txt_filterMap lib input, ?_, ?_⟩
  · intro data hdata item hitem
    rw [decode_txt_filterMap lib input] at hdata
    simp only [Except.ok.injEq] at hdata
    rw [← hdata, List.mem_filterMap] at hitem
    obtain ⟨line, hline, hsome⟩ := hitem
    by_cases hl : TrimSpace line = []
    · simp [hl] at hsome
    · refine ⟨line, hline, hl, ?_⟩
      simp only [hl, ne_eq, not_false_eq_true, if_true, Option.some.injEq] at hsome
      exact hsome.symm
  · rw [decode_txt_filterMap]
    decide

/-- C9 (witness): lines with surrounding white space and a line of white space
only. -/
theorem decode_txt_lines_witness :
    decode StdLib.noJsonXml (ascii " a \n\t \nb") (ascii "txt") =
      .ok [some [(ascii "line", .str (ascii "a"))], some [(ascii "line", .str (ascii "b"))]] :=
  (decode_txt_lines StdLib.noJsonXml (ascii " a \n\t \nb")).1.trans (by decide)

/-! ### The csv encode loops -/

theorem csvWriteData_loop_eq (lib : StdLib) (headers : List Bytes) :
    ∀ (data : Data) (w : Bytes),
      csvWriteData.loop lib headers data w =
        (Writer.WriteAll w (data.map (csvRow lib headers)), none) := by
  intro data
  induction data with
  | nil => intro w; rfl
  | cons item rest ih =>
    intro w
    simp only [csvWriteData.loop, Writer.Write, ih, List.map_cons, Writer.WriteAll]

theorem rangeMap_perm (ρ : RangeOrder) (i : Nat) (m : Option GoMap) :
    ((rangeMap ρ i m).map Prod.fst).Perm (mapKeys m) := by
  cases m with
  | none => simp [rangeMap, mapKeys]
  | some m => exact (ρ.perm i m).map _

theorem mapIndex_eq_none_iff (m : Option GoMap) (k : Bytes) :
    mapIndex m k = none ↔ k ∉ mapKeys m := by
  cases m with
  | none => simp [mapIndex, mapKeys]
  | some m =>
    simp only [mapIndex, mapKeys]
    induction m with
    | nil => simp [mapIndex.find]
    | cons e rest ih =>
      obtain ⟨a, b⟩ := e
      by_cases h : a = k
      · simp [mapIndex.find, h]
      · have h1 : ¬ k = a := fun e => h e.symm
        simp [mapIndex.find, h, h1, ih]

/-- C10: for every non-empty record set the csv encode case of `Convert`
returns the bytes that the CSV writer produces for the header row followed by
one data row per record, in the order of the record set. The header row is a
permutation of the keys of the first record, so it holds each key of the first
record once and no key that the first record lacks; every data row has as many
fields as the header; the field of row `i` under header `k` is the text of
record `i`'s value for `k`, or the empty string when record `i` has no key `k`. -/
theorem encode_csv_rows (lib : StdLib) (ρ : RangeOrder) (data : Data) (hne : data ≠ []) :
    encode lib ρ data (ascii "csv") =
      (some (Writer.WriteAll [] (csvHeaders ρ data :: data.map (csvRow lib (csvHeaders ρ data)))),
        none) ∧
    (csvHeaders ρ data).Perm (mapKeys (data.getD 0 none)) ∧
    ((mapKeys (data.getD 0 none)).Nodup → (csvHeaders ρ data).Nodup) ∧
    (∀ k, mapIndex (data.getD 0 none) k = none → k ∉ csvHeaders ρ data) ∧
    (data.map (csvRow lib (csvHeaders ρ data))).length = data.length ∧
    (∀ i, i < data.length →
      (csvRow lib (csvHeaders ρ data) (data.getD i none)).length = (csvHeaders ρ data).length ∧
      (data.map (csvRow lib (csvHeaders ρ data))).getD i [] =
        csvRow lib (csvHeaders ρ data) (data.getD i none) ∧
      ∀ j, j < (csvHeaders ρ data).length →
        (csvRow lib (csvHeaders ρ data) (data.getD i none)).getD j [] =
          match mapIndex (data.getD i none) ((csvHeaders ρ data).getD j []) with
          | some val => Sprint lib val
          | none => []) := by
  have hperm : (csvHeaders ρ data).Perm (mapKeys (data.getD 0 none)) := rangeMap_perm ρ 0 _
  refine ⟨?_, hperm, fun hnd => hperm.nodup_iff.mpr hnd, ?_, by simp, ?_⟩
  · have hl : ¬ data.length = 0 := fun e => hne (List.length_eq_zero.mp e)
    have e1 : ¬ ascii "csv" = ascii "json" := by decide
    simp only [encode, e1, if_false, if_true, hl, Writer.Write, csvWriteData_loop_eq,
      Writer.Error, Writer.WriteAll]
  · intro k hk hmem
    exact (mapIndex_eq_none_iff _ k).mp hk (hperm.mem_iff.mp hmem)
  · intro i hi
    refine ⟨by simp [csvRow], ?_, ?_⟩
    · rw [List.getD_eq_getElem _ _ (by simpa using hi), List.getD_eq_getElem _ _ hi]
      simp
    · intro j hj
      rw [List.getD_eq_getElem _ _ (by simpa [csvRow] using hj), List.getD_eq_getElem _ _ hj]
      simp [csvRow]

/-- C10 (witness): a record set whose second record lacks the key `b` and has
a key `c` that the first record lacks. -/
theorem encode_csv_rows_witness :
    encode StdLib.noJsonXml RangeOrder.stored
      [some [(ascii "a", .str (ascii "1")), (ascii "b", .str (ascii "2"))],
       some [(ascii "a", .str (ascii "3")), (ascii "c", .str (ascii "4"))]] (ascii "csv") =
      (some (ascii "a,b\n1,2\n3,\n"), none) :=
  (encode_csv_rows StdLib.noJsonXml RangeOrder.stored
    [some [(ascii "a", .str (ascii "1")), (ascii "b", .str (ascii "2"))],
     some [(ascii "a", .str (ascii "3")), (ascii "c", .str (ascii "4"))]] (by decide)).1.trans
    (by decide)

/-- C8: for every input of a recognised format that decodes to the empty record
set, `Convert` with the output format csv returns no output and the error of
missing data, whereas with the output format txt it returns the empty output
and no error, and with json and xml it returns the output of the library
encoder for the empty record set (given that `json.MarshalIndent` and the XML
encoder encode the empty record set without error). -/
theorem Convert_empty_record_set (lib : StdLib) (ρ : RangeOrder) (input jsonOut xmlOut : Bytes)
    (hfmt : detectFormat input ≠ ascii "")
    (hdec : decode lib input (detectFormat input) = .ok [])
    (hjson : lib.jsonMarshalIndent [] = .ok jsonOut)
    (hxml : lib.xmlEncode ⟨[]⟩ = .ok xmlOut) :
    Convert lib ρ input (ascii "csv") = (none, some .noData) ∧
    Convert lib ρ input (ascii "json") = (some jsonOut, none) ∧
    Convert lib ρ input (ascii "xml") = (some (xmlHeader ++ xmlOut), none) ∧
    Convert lib ρ input (ascii "txt") = (some [], none) := by
  have hv : ValidateFormat (detectFormat input) GetSupportedFormats = none := by
    unfold detectFormat at hfmt ⊢
    simp only [] at hfmt ⊢
    split_ifs at hfmt ⊢ <;> first | decide | exact absurd rfl hfmt
  have v1 : ValidateFormat (ascii "csv") GetSupportedFormats = none := by decide
  have v2 : ValidateFormat (ascii "json") GetSupportedFormats = none := by decide
  have v3 : ValidateFormat (ascii "xml") GetSupportedFormats = none := by decide
  have v4 : ValidateFormat (ascii "txt") GetSupportedFormats = none := by decide
  have e1 : ¬ ascii "csv" = ascii "json" := by decide
  have e2 : ¬ ascii "xml" = ascii "json" := by decide
  have e3 : ¬ ascii "xml" = ascii "csv" := by decide
  have e4 : ¬ ascii "txt" = ascii "json" := by decide
  have e5 : ¬ ascii "txt" = ascii "csv" := by decide
  have e6 : ¬ ascii "txt" = ascii "xml" := by decide
  refine ⟨?_, ?_, ?_, ?_⟩
  · simp only [Convert, v1, hv, hdec, encode, e1, if_false, if_true, List.length_nil]
  · simp only [Convert, v2, hv, hdec, encode, if_true, hjson]
  · simp only [Convert, v3, hv, hdec, encode, e2, e3, if_false, if_true, xmlItems.loop, hxml]
  · simp only [Convert, v4, hv, hdec, encode, e4, e5, e6, if_false, if_true, txtItems.loop]

/-- C8 (witness): the JSON document `[]` and the XML document `<root/>`. -/
theorem Convert_empty_record_set_witness :
    (detectFormat (ascii "[]") = ascii "json" ∧
      decode StdLib.emptyDocs (ascii "[]") (ascii "json") = .ok [] ∧
      Convert StdLib.emptyDocs RangeOrder.stored (ascii "[]") (ascii "csv") =
        (none, some .noData) ∧
      Convert StdLib.emptyDocs RangeOrder.stored (ascii "[]") (ascii "json") =
        (some (ascii "[]"), none) ∧
      Convert StdLib.emptyDocs RangeOrder.stored (ascii "[]") (ascii "xml") =
        (some (xmlHeader ++ ascii "<root></root>"), none) ∧
      Convert StdLib.emptyDocs RangeOrder.stored (ascii "[]") (ascii "txt") = (some [], none)) ∧
    (detectFormat (ascii "<root/>") = ascii "xml" ∧
      decode StdLib.emptyDocs (ascii "<root/>") (ascii "xml") = .ok [] ∧
      Convert StdLib.emptyDocs RangeOrder.stored (ascii "<root/>") (ascii "csv") =
        (none, some .noData) ∧
      Convert StdLib.emptyDocs RangeOrder.stored (ascii "<root/>") (ascii "json") =
        (some (ascii "[]"), none) ∧
      Convert StdLib.emptyDocs RangeOrder.stored (ascii "<root/>") (ascii "xml") =
        (some (xmlHeader ++ ascii "<root></root>"), none) ∧
      Convert StdLib.emptyDocs RangeOrder.stored (ascii "<root/>") (ascii "txt") =
        (some [], none)) :=
  ⟨⟨by decide, by decide,
    Convert_empty_record_set StdLib.emptyDocs RangeOrder.stored (ascii "[]") (ascii "[]")
      (ascii "<root></root>") (by decide) (by decide) (by decide) (by decide)⟩,
   ⟨by decide, by decide,
    Convert_empty_record_set StdLib.emptyDocs RangeOrder.stored (ascii "<root/>") (ascii "[]")
      (ascii "<root></root>") (by decide) (by decide) (by decide) (by decide)⟩⟩

/-- C6 (the code at the failing input): on a CSV input whose data row has fewer
fields than the header, `Convert` does not decode: for each of the four output
formats it returns no output and the CSV parse error of a wrong number of
fields, whatever the library and the map iteration order are. In general, every
row of a document that the CSV reader parses without error has as many fields
as the header row. -/
theorem Convert_csv_short_row (lib : StdLib) (ρ : RangeOrder) :
    detectFormat (ascii "a,b,c\n1,2\n") = ascii "csv" ∧
    ReadAll (NewReader (ascii "a,b,c\n1,2\n")) = .error .ErrFieldCount ∧
    Convert lib ρ (ascii "a,b,c\n1,2\n") (ascii "json") =
      (none, some (.csvParse .ErrFieldCount)) ∧
    Convert lib ρ (ascii "a,b,c\n1,2\n") (ascii "csv") =
      (none, some (.csvParse .ErrFieldCount)) ∧
    Convert lib ρ (ascii "a,b,c\n1,2\n") (ascii "xml") =
      (none, some (.csvParse .ErrFieldCount)) ∧
    Convert lib ρ (ascii "a,b,c\n1,2\n") (ascii "txt") =
      (none, some (.csvParse .ErrFieldCount)) ∧
    (∀ (input : Bytes) (records : List (List Bytes)),
      ReadAll (NewReader input) = .ok records →
      ∀ row ∈ records, row.length = (records.getD 0 []).length) := by
  have hd : detectFormat (ascii "a,b,c\n1,2\n") = ascii "csv" := by decide
  have hr : ReadAll (NewReader (ascii "a,b,c\n1,2\n")) = .error .ErrFieldCount := by decide
  have hv : ValidateFormat (ascii "csv") GetSupportedFormats = none := by decide
  have v2 : ValidateFormat (ascii "json") GetSupportedFormats = none := by decide
  have v3 : ValidateFormat (ascii "xml") GetSupportedFormats = none := by decide
  have v4 : ValidateFormat (ascii "txt") GetSupportedFormats = none := by decide
  have e1 : ¬ ascii "csv" = ascii "json" := by decide
  refine ⟨hd, hr, ?_, ?_, ?_, ?_, ?_⟩
  · simp only [Convert, hv, v2, v3, v4, hd, decode, e1, if_false, if_true, hr]
  · simp only [Convert, hv, v2, v3, v4, hd, decode, e1, if_false, if_true, hr]
  · simp only [Convert, hv, v2, v3, v4, hd, decode, e1, if_false, if_true, hr]
  · simp only [Convert, hv, v2, v3, v4, hd, decode, e1, if_false, if_true, hr]
  · intro input records hok row hrow
    obtain ⟨m, hm⟩ := ReadAll_uniform input records hok
    cases records with
    | nil => simp at hrow
    | cons h rows =>
      rw [List.getD_cons_zero, (hm row hrow).1, (hm h (List.mem_cons_self _ _)).1]

/-! ### Trimming a trimmed line behind an ASCII prefix -/

theorem first_ge_of_lt (b : UInt8) (h : b.toNat < 0xC2) : first b ≥ 0xF0 := by
  unfold first
  dsimp only
  split_ifs <;> omega

theorem first_ascii (b : UInt8) (h : b.toNat < 0x80) : first b = 0xF0 := by
  unfold first
  dsimp only
  rw [if_pos h]

theorem first_odd_of_ge (b : UInt8) (h : 0x80 ≤ b.toNat) (hx : first b ≥ 0xF0) :
    first b = 0xF1 := by
  rcases first_cases b with h1 | h1 | h1 | h1 | h1 | h1 | h1 | h1 | h1
  · exfalso
    unfold first at h1
    dsimp only at h1
    rw [if_neg (by omega)] at h1
    split_ifs at h1 <;> omega
  all_goals first | exact h1 | (rw [h1] at hx; simp at hx)

theorem accept_bounds (b : UInt8) (h : first b < 0xF0) :
    0x80 ≤ (acceptRanges (first b >>> 4)).1 ∧ (acceptRanges (first b >>> 4)).2 ≤ 0xBF := by
  rcases first_size b h with h1 | h1 | h1 | h1 | h1 | h1 | h1 <;> rw [h1] <;> decide

/-- `DecodeRune` with the tests on the length and on the first byte resolved
for a first byte that starts a multi-byte sequence. -/
theorem DecodeRune_multi_eq (q : Bytes) (hl : 1 ≤ q.length) (hx : first (q.getD 0 0) < 0xF0) :
    DecodeRune q =
      if q.length < first (q.getD 0 0) &&& 7 then (RuneError, 1)
      else if (q.getD 1 0).toNat < (acceptRanges (first (q.getD 0 0) >>> 4)).1 ∨
          (acceptRanges (first (q.getD 0 0) >>> 4)).2 < (q.getD 1 0).toNat then (RuneError, 1)
      else if first (q.getD 0 0) &&& 7 ≤ 2 then
        ((((q.getD 0 0).toNat &&& 0x1F) <<< 6) ||| ((q.getD 1 0).toNat &&& 0x3F), 2)
      else if (q.getD 2 0).toNat < 0x80 ∨ 0xBF < (q.getD 2 0).toNat then (RuneError, 1)
      else if first (q.getD 0 0) &&& 7 ≤ 3 then
        ((((q.getD 0 0).toNat &&& 0x0F) <<< 12) ||| (((q.getD 1 0).toNat &&& 0x3F) <<< 6) |||
          ((q.getD 2 0).toNat &&& 0x3F), 3)
      else if (q.getD 3 0).toNat < 0x80 ∨ 0xBF < (q.getD 3 0).toNat then (RuneError, 1)
      else
        ((((q.getD 0 0).toNat &&& 0x07) <<< 18) ||| (((q.getD 1 0).toNat &&& 0x3F) <<< 12) |||
          (((q.getD 2 0).toNat &&& 0x3F) <<< 6) ||| ((q.getD 3 0).toNat &&& 0x3F), 4) := by
  have h1 : ¬ q.length < 1 := by omega
  have h2 : ¬ first (q.getD 0 0) ≥ 0xF0 := by omega
  unfold DecodeRune
  simp only [h1, h2, if_false]

/-- A decoded rune of two or more bytes: the bytes are there, the first one is
a leading byte and the others are continuation bytes. -/
theorem DecodeRune_multi (q : Bytes) (h : 2 ≤ (DecodeRune q).2) :
    (DecodeRune q).2 ≤ q.length ∧ 0xC2 ≤ (q.getD 0 0).toNat ∧
      (DecodeRune q).2 ≤ 4 ∧
      (∀ j, 1 ≤ j → j < (DecodeRune q).2 → isCont (q.getD j 0) = true) ∧
      first (q.getD 0 0) < 0xF0 ∧ first (q.getD 0 0) &&& 7 = (DecodeRune q).2 := by
  have hl : 1 ≤ q.length := by
    by_contra hc
    have : q = [] := List.length_eq_zero.mp (by omega)
    subst this
    simp [DecodeRune] at h
  have hx : first (q.getD 0 0) < 0xF0 := by
    by_contra hc
    have h2 : first (q.getD 0 0) ≥ 0xF0 := by omega
    have h1 : ¬ q.length < 1 := by omega
    unfold DecodeRune at h
    simp only [h1, h2, if_false, if_true] at h
    omega
  have hc2 : 0xC2 ≤ (q.getD 0 0).toNat := by
    by_contra hc
    have := first_ge_of_lt (q.getD 0 0) (by omega)
    omega
  have hv := first_size_val (q.getD 0 0) hx
  obtain ⟨ha1, ha2⟩ := accept_bounds (q.getD 0 0) hx
  rw [DecodeRune_multi_eq q hl hx] at h ⊢
  generalize first (q.getD 0 0) &&& 7 = sz at hv h ⊢
  generalize acceptRanges (first (q.getD 0 0) >>> 4) = acc at ha1 ha2 h ⊢
  have hcont : ∀ c : UInt8, ¬ (c.toNat < 0x80 ∨ 0xBF < c.toNat) → isCont c = true := by
    intro c hc
    simp only [isCont, Bool.and_eq_true, decide_eq_true_eq]
    omega
  have hcont1 : ¬ ((q.getD 1 0).toNat < acc.1 ∨ acc.2 < (q.getD 1 0).toNat) →
      isCont (q.getD 1 0) = true := by
    intro hc
    simp only [isCont, Bool.and_eq_true, decide_eq_true_eq]
    omega
  rcases hv with rfl | rfl | rfl <;> split_ifs at h ⊢ <;> dsimp only at h ⊢ <;>
    first
    | omega
    | (refine ⟨by omega, hc2, by omega, ?_, hx, by omega⟩
       intro j hj1 hj2
       have hj : j = 1 ∨ j = 2 ∨ j = 3 := by omega
       rcases hj with rfl | rfl | rfl <;>
         first
         | exact hcont1 (by assumption)
         | exact hcont _ (by assumption)
         | omega)

theorem RuneStart_eq (b : UInt8) : RuneStart b = !isCont b := by
  have hlt : b.toNat < 256 := b.val.isLt
  unfold RuneStart isCont
  generalize b.toNat = n at hlt
  interval_cases n <;> rfl

/-- A byte that is not followed by a continuation byte decodes with width 1. -/
theorem DecodeRune_width_one (b : UInt8) (rest : Bytes)
    (h : ∀ c, rest.head? = some c → isCont c = false) : (DecodeRune (b :: rest)).2 = 1 := by
  have hpos := DecodeRune_size_pos (b :: rest) (by simp)
  by_contra hne
  have h2 : 2 ≤ (DecodeRune (b :: rest)).2 := by omega
  obtain ⟨hlen, _, _, hc, _, _⟩ := DecodeRune_multi (b :: rest) h2
  cases rest with
  | nil => simp at hlen; omega
  | cons c t =>
    have := hc 1 (le_refl _) (by omega)
    simp only [List.getD_cons_succ, List.getD_cons_zero] at this
    rw [h c rfl] at this
    exact Bool.noConfusion this

/-- A rune of width 1 whose byte is not ASCII is the error rune. -/
theorem DecodeRune_size_one_error (q : Bytes) (h0 : 0x80 ≤ (q.getD 0 0).toNat)
    (h1 : (DecodeRune q).2 = 1) : (DecodeRune q).1 = RuneError := by
  have hl : 1 ≤ q.length := by
    by_contra hc
    have : q = [] := List.length_eq_zero.mp (by omega)
    subst this
    simp [DecodeRune] at h1
  by_cases hx : first (q.getD 0 0) ≥ 0xF0
  · have hodd := first_odd_of_ge _ h0 hx
    have hl1 : ¬ q.length < 1 := by omega
    unfold DecodeRune
    simp only [hl1, hx, if_false, if_true, hodd]
    rfl
  · rw [DecodeRune_multi_eq q hl (by omega)] at h1 ⊢
    split_ifs at h1 ⊢ <;> dsimp only at h1 ⊢ <;> omega

theorem DecodeLastRune_scan_le (p : Bytes) (lim : Nat) (fuel : Nat) :
    ∀ s : Nat, DecodeLastRune.scan p lim fuel s ≤ (s : Int) ∧
      -1 ≤ DecodeLastRune.scan p lim fuel s := by
  induction fuel with
  | zero => intro s; simp only [DecodeLastRune.scan]; omega
  | succ fuel ih =>
    intro s
    unfold DecodeLastRune.scan
    split_ifs with h1 h2
    · omega
    · omega
    · cases s with
      | zero => simp
      | succ s =>
        have := ih s
        simp only []
        push_cast
        omega

theorem DecodeLastRune_start_eq (p : Bytes) (h : 2 ≤ p.length) :
    DecodeLastRune.start p =
      (DecodeLastRune.scan p (p.length - UTFMax) (UTFMax + 1) (p.length - 2)).toNat := by
  obtain ⟨n, hn⟩ : ∃ n, p.length = n + 2 := ⟨p.length - 2, by omega⟩
  unfold DecodeLastRune.start
  simp only [hn, Nat.add_sub_cancel]
  have e : n + 2 - 1 = n + 1 := by omega
  rw [e]
  simp only []
  split_ifs with h1
  · omega
  · rfl

theorem DecodeLastRune_start_lt (p : Bytes) (h : 1 ≤ p.length) :
    DecodeLastRune.start p < p.length := by
  by_cases h2 : 2 ≤ p.length
  · rw [DecodeLastRune_start_eq p h2]
    have := DecodeLastRune_scan_le p (p.length - UTFMax) (UTFMax + 1) (p.length - 2)
    omega
  · have h1 : p.length = 1 := by omega
    unfold DecodeLastRune.start
    simp only [h1]
    decide

/-- What `DecodeLastRune` returns on a text whose last byte is not ASCII: the
error rune with width 1, or a rune of two or more bytes that `DecodeRune`
decodes from exactly the last bytes of the text. -/
theorem DecodeLastRune_post (p : Bytes) (h : 1 ≤ p.length)
    (hlast : RuneSelf ≤ (p.getD (p.length - 1) 0).toNat) :
    DecodeLastRune p = (RuneError, 1) ∨
      (2 ≤ (DecodeLastRune p).2 ∧ (DecodeLastRune p).2 ≤ p.length ∧
        DecodeRune (p.drop (p.length - (DecodeLastRune p).2)) = DecodeLastRune p) := by
  have h0 : ¬ p.length = 0 := by omega
  have h1 : ¬ (p.getD (p.length - 1) 0).toNat < RuneSelf := by omega
  have hst := DecodeLastRune_start_lt p h
  unfold DecodeLastRune
  simp only [h0, h1, if_false, List.take_length]
  by_cases hc : DecodeLastRune.start p + (DecodeRune (p.drop (DecodeLastRune.start p))).2 ≠
      p.length
  · left; rw [if_pos hc]
  · rw [if_neg hc]
    have hc1 : DecodeLastRune.start p + (DecodeRune (p.drop (DecodeLastRune.start p))).2 =
        p.length := by
      by_contra hn; exact hc hn
    have hsub : p.length - (DecodeRune (p.drop (DecodeLastRune.start p))).2 =
        DecodeLastRune.start p := by omega
    by_cases h2 : 2 ≤ (DecodeRune (p.drop (DecodeLastRune.start p))).2
    · right
      refine ⟨h2, by omega, ?_⟩
      rw [hsub]
    · left
      have hne : p.drop (DecodeLastRune.start p) ≠ [] := by
        intro he
        have := congrArg List.length he
        simp only [List.length_drop, List.length_nil] at this
        omega
      have hpos := DecodeRune_size_pos _ hne
      have hone : (DecodeRune (p.drop (DecodeLastRune.start p))).2 = 1 := by omega
      have hstart : DecodeLastRune.start p = p.length - 1 := by omega
      have hb : 0x80 ≤ ((p.drop (DecodeLastRune.start p)).getD 0 0).toNat := by
        rw [hstart]
        simp only [List.getD_eq_getElem?_getD, List.getElem?_drop, Nat.add_zero]
        simp only [List.getD_eq_getElem?_getD, RuneSelf] at hlast
        exact hlast
      have herr := DecodeRune_size_one_error _ hb hone
      exact Prod.ext herr hone

theorem DecodeLastRune_scan_spec (p : Bytes) (lim t : Nat) (hlim : lim ≤ t)
    (ht : RuneStart (p.getD t 0) = true) (fuel : Nat) :
    ∀ s : Nat, t ≤ s → s - t < fuel →
      (∀ u, t < u → u ≤ s → RuneStart (p.getD u 0) = false) →
      DecodeLastRune.scan p lim fuel s = (t : Int) := by
  induction fuel with
  | zero => intro s _ h; omega
  | succ fuel ih =>
    intro s hts hf hu
    unfold DecodeLastRune.scan
    have h1 : ¬ s < lim := by omega
    rw [if_neg h1]
    by_cases hst : s = t
    · subst hst
      rw [if_pos ht]
    · have hfalse := hu s (by omega) (le_refl _)
      rw [if_neg (by rw [hfalse]; exact Bool.noConfusion)]
      cases s with
      | zero => omega
      | succ s1 =>
        simp only []
        exact ih s1 (by omega) (by omega) (fun u h1 h2 => hu u h1 (by omega))

theorem getD_drop (p : Bytes) (t j : Nat) : (p.drop t).getD j 0 = p.getD (t + j) 0 := by
  simp only [List.getD_eq_getElem?_getD, List.getElem?_drop]

/-- When the last bytes of a text are a rune of two or more bytes as
`DecodeRune` decodes it, `DecodeLastRune` returns this rune. -/
theorem DecodeLastRune_of_valid (p : Bytes) (sz : Nat) (h2 : 2 ≤ sz) (hle : sz ≤ p.length)
    (hdec : (DecodeRune (p.drop (p.length - sz))).2 = sz) :
    DecodeLastRune p = DecodeRune (p.drop (p.length - sz)) := by
  obtain ⟨_, hc2, h4, hcont, _, _⟩ := DecodeRune_multi (p.drop (p.length - sz)) (by omega)
  rw [hdec] at h4 hcont
  have h0 : ¬ p.length = 0 := by omega
  have hlastc := hcont (sz - 1) (by omega) (by omega)
  rw [getD_drop] at hlastc
  have hidx : p.length - sz + (sz - 1) = p.length - 1 := by omega
  rw [hidx] at hlastc
  have hlast : ¬ (p.getD (p.length - 1) 0).toNat < RuneSelf := by
    simp only [isCont, Bool.and_eq_true, decide_eq_true_eq] at hlastc
    simp only [RuneSelf]
    omega
  have hstart : DecodeLastRune.start p = p.length - sz := by
    rw [DecodeLastRune_start_eq p (by omega)]
    have ht : RuneStart (p.getD (p.length - sz) 0) = true := by
      rw [RuneStart_eq]
      rw [getD_drop, Nat.add_zero] at hc2
      simp only [isCont, Bool.not_eq_true', Bool.and_eq_false_iff, decide_eq_false_iff_not]
      right; omega
    have hscan := DecodeLastRune_scan_spec p (p.length - UTFMax) (p.length - sz)
      (by simp only [UTFMax]; omega) ht (UTFMax + 1) (p.length - 2) (by omega)
      (by simp only [UTFMax]; omega) (by
        intro u hu1 hu2
        have := hcont (u - (p.length - sz)) (by omega) (by omega)
        rw [getD_drop] at this
        have hidx2 : p.length - sz + (u - (p.length - sz)) = u := by omega
        rw [hidx2] at this
        rw [RuneStart_eq, this]
        rfl)
    rw [hscan]
    simp
  unfold DecodeLastRune
  simp only [h0, hlast, if_false, List.take_length, hstart]
  rw [if_neg (by rw [hdec]; omega)]

theorem lastIndexFunc_rune_ascii (p : Bytes) (h : (p.getD (p.length - 1) 0).toNat < RuneSelf) :
    lastIndexFunc.rune p = ((p.getD (p.length - 1) 0).toNat, 1) := by
  unfold lastIndexFunc.rune
  simp only []
  rw [if_neg (by omega)]

theorem lastIndexFunc_rune_multi (p : Bytes) (h : RuneSelf ≤ (p.getD (p.length - 1) 0).toNat) :
    lastIndexFunc.rune p = DecodeLastRune p := by
  unfold lastIndexFunc.rune
  simp only []
  rw [if_pos h]

theorem lastIndexFunc_rune_size (p : Bytes) (h : 1 ≤ p.length) :
    1 ≤ (lastIndexFunc.rune p).2 ∧ (lastIndexFunc.rune p).2 ≤ p.length := by
  by_cases hl : (p.getD (p.length - 1) 0).toNat < RuneSelf
  · rw [lastIndexFunc_rune_ascii p hl]; exact ⟨le_refl _, h⟩
  · rw [lastIndexFunc_rune_multi p (by omega)]
    rcases DecodeLastRune_post p h (by omega) with h1 | ⟨h1, h2, _⟩
    · rw [h1]; exact ⟨le_refl _, h⟩
    · exact ⟨by omega, h2⟩

/-- The rune read at the end of a text, when it is white space, begins at a
byte that is no continuation byte. -/
theorem lastIndexFunc_rune_space_start (p : Bytes) (h : 1 ≤ p.length)
    (hs : IsSpace (lastIndexFunc.rune p).1 = true) :
    isCont (p.getD (p.length - (lastIndexFunc.rune p).2) 0) = false := by
  by_cases hl : (p.getD (p.length - 1) 0).toNat < RuneSelf
  · rw [lastIndexFunc_rune_ascii p hl]
    simp only [isCont, RuneSelf] at hl ⊢
    simp only [Bool.and_eq_false_iff, decide_eq_false_iff_not]
    left; omega
  · rw [lastIndexFunc_rune_multi p (by omega)] at hs ⊢
    rcases DecodeLastRune_post p h (by omega) with h1 | ⟨h1, h2, h3⟩
    · rw [h1] at hs
      exact absurd hs (by decide)
    · have hm := DecodeRune_multi (p.drop (p.length - (DecodeLastRune p).2)) (by rw [h3]; exact h1)
      obtain ⟨_, hc2, _⟩ := hm
      rw [getD_drop, Nat.add_zero] at hc2
      simp only [isCont, Bool.and_eq_false_iff, decide_eq_false_iff_not]
      right; omega

theorem head_drop (s : Bytes) (k : Nat) (c : UInt8) (h : (s.drop k).head? = some c) :
    s.getD k 0 = c ∧ k < s.length := by
  have hlt : k < s.length := by
    by_contra hc
    rw [List.drop_eq_nil_of_le (by omega)] at h
    simp at h
  refine ⟨?_, hlt⟩
  rw [List.head?_drop] at h
  rw [List.getD_eq_getElem?_getD, h]
  rfl

/-- The loop of `lastIndexFunc`, run on a prefix `s[0:k]` behind which no
continuation byte follows, stops at a prefix `s[0:k1]` with the same property
whose last rune is not white space. -/
theorem lastIndexFunc_loop_spec (s : Bytes) (fuel : Nat) :
    ∀ (k i : Nat), k ≤ s.length → (∀ c, (s.drop k).head? = some c → isCont c = false) →
      lastIndexFunc.loop IsSpace fuel (s.take k) = some i →
      ∃ k1, 1 ≤ k1 ∧ k1 ≤ k ∧ (∀ c, (s.drop k1).head? = some c → isCont c = false) ∧
        i = k1 - (lastIndexFunc.rune (s.take k1)).2 ∧
        IsSpace (lastIndexFunc.rune (s.take k1)).1 = false := by
  induction fuel with
  | zero => intro k i _ _ h; simp [lastIndexFunc.loop] at h
  | succ fuel ih =>
    intro k i hk hinv h
    have hlen : (s.take k).length = k := by rw [List.length_take]; omega
    unfold lastIndexFunc.loop at h
    simp only [hlen] at h
    by_cases hk0 : k > 0
    · rw [if_pos hk0] at h
      by_cases hf : IsSpace (lastIndexFunc.rune (s.take k)).1 = false
      · rw [if_pos hf] at h
        simp only [Option.some.injEq] at h
        exact ⟨k, hk0, le_refl _, hinv, h.symm, hf⟩
      · rw [if_neg hf] at h
        have hsp : IsSpace (lastIndexFunc.rune (s.take k)).1 = true := by
          cases hb : IsSpace (lastIndexFunc.rune (s.take k)).1
          · exact absurd hb hf
          · rfl
        obtain ⟨hs1, hs2⟩ := lastIndexFunc_rune_size (s.take k) (by omega)
        rw [hlen] at hs2
        have hst := lastIndexFunc_rune_space_start (s.take k) (by omega) hsp
        rw [hlen] at hst
        rw [List.take_take, Nat.min_eq_left (Nat.sub_le _ _)] at h
        obtain ⟨k1, h1, h2, h3, h4, h5⟩ := ih (k - (lastIndexFunc.rune (s.take k)).2) i
          (by omega) (by
            intro c hc
            obtain ⟨hg, _⟩ := head_drop s _ c hc
            rw [← hg]
            rw [List.getD_eq_getElem?_getD, List.getElem?_take_of_lt (by omega),
              ← List.getD_eq_getElem?_getD] at hst
            exact hst) h
        exact ⟨k1, h1, by omega, h3, h4, h5⟩
    · rw [if_neg hk0] at h
      exact Option.noConfusion h

/-- The end of the slice that `TrimRightFunc` returns is the end of the prefix
at which the loop of `lastIndexFunc` stopped. -/
theorem TrimRightFunc_end_eq (s : Bytes) (k : Nat) (hk1 : 1 ≤ k) (hk : k ≤ s.length)
    (hinv : ∀ c, (s.drop k).head? = some c → isCont c = false) :
    (if (s.getD (k - (lastIndexFunc.rune (s.take k)).2) 0).toNat ≥ RuneSelf then
        k - (lastIndexFunc.rune (s.take k)).2 +
          (DecodeRune (s.drop (k - (lastIndexFunc.rune (s.take k)).2))).2
      else k - (lastIndexFunc.rune (s.take k)).2 + 1) = k := by
  have hlen : (s.take k).length = k := by rw [List.length_take]; omega
  have hgetlast : (s.take k).getD (k - 1) 0 = s.getD (k - 1) 0 := by
    rw [List.getD_eq_getElem?_getD, List.getElem?_take_of_lt (by omega),
      ← List.getD_eq_getElem?_getD]
  have hdropk : ∀ i, i < k → s.drop i = s.getD i 0 :: s.drop (i + 1) := by
    intro i hi
    rw [List.getD_eq_getElem _ _ (by omega)]
    exact List.drop_eq_getElem_cons (by omega)
  by_cases hl : ((s.take k).getD ((s.take k).length - 1) 0).toNat < RuneSelf
  · rw [lastIndexFunc_rune_ascii _ hl]
    rw [hlen, hgetlast] at hl
    simp only []
    rw [if_neg (by omega)]
    omega
  · have hl2 : RuneSelf ≤ ((s.take k).getD ((s.take k).length - 1) 0).toNat := by omega
    rw [lastIndexFunc_rune_multi _ hl2]
    rw [hlen, hgetlast] at hl2
    rcases DecodeLastRune_post (s.take k) (by omega) (by rw [hlen, hgetlast]; exact hl2) with
      h1 | ⟨h1, h2, h3⟩
    · rw [h1]
      simp only []
      rw [if_pos hl2, hdropk (k - 1) (by omega)]
      have e : k - 1 + 1 = k := by omega
      rw [e, DecodeRune_width_one _ _ hinv]
      omega
    · rw [hlen] at h2 h3
      generalize hsz : (DecodeLastRune (s.take k)).2 = sz at h1 h2 h3 ⊢
      have hsplit : s.drop (k - sz) = (s.take k).drop (k - sz) ++ s.drop k := by
        conv_lhs => rw [← List.take_append_drop k s]
        rw [List.drop_append_of_le_length (by rw [hlen]; omega)]
      have hq2 : (DecodeRune ((s.take k).drop (k - sz))).2 = sz := by rw [h3, hsz]
      obtain ⟨hm1, hm2, _, _, hm5, hm6⟩ := DecodeRune_multi ((s.take k).drop (k - sz))
        (by rw [hq2]; exact h1)
      have hfirst : ((s.take k).drop (k - sz)).getD 0 0 = s.getD (k - sz) 0 := by
        rw [getD_drop, Nat.add_zero, List.getD_eq_getElem?_getD,
          List.getElem?_take_of_lt (by omega), ← List.getD_eq_getElem?_getD]
      rw [hfirst] at hm2
      rw [if_pos (by simp only [RuneSelf]; omega), hsplit,
        DecodeRune_append _ _ (by rw [if_neg (by omega), hm6]; exact hm1), hq2]
      omega

theorem TrimRightFunc_eq (s : Bytes) :
    TrimRightFunc s IsSpace =
      match lastIndexFunc s IsSpace with
      | some i =>
        s.take (if (s.getD i 0).toNat ≥ RuneSelf then i + (DecodeRune (s.drop i)).2 else i + 1)
      | none => [] := by
  unfold TrimRightFunc
  cases lastIndexFunc s IsSpace with
  | none => simp
  | some i => simp only []; split_ifs <;> rfl

/-- A non-empty result of `TrimRightFunc` is a prefix of the text whose last
rune is not white space. -/
theorem TrimRightFunc_last (s : Bytes) (h : TrimRightFunc s IsSpace ≠ []) :
    ∃ k1, 1 ≤ k1 ∧ k1 ≤ s.length ∧ TrimRightFunc s IsSpace = s.take k1 ∧
      IsSpace (lastIndexFunc.rune (s.take k1)).1 = false := by
  rw [TrimRightFunc_eq] at h ⊢
  cases hi : lastIndexFunc s IsSpace with
  | none => rw [hi] at h; exact absurd rfl h
  | some i =>
    simp only []
    unfold lastIndexFunc at hi
    have hi2 : lastIndexFunc.loop IsSpace (s.length + 1) (s.take s.length) = some i := by
      rw [List.take_length]; exact hi
    obtain ⟨k1, h1, h2, h3, h4, h5⟩ := lastIndexFunc_loop_spec s _ s.length i (le_refl _)
      (by simp) hi2
    refine ⟨k1, h1, h2, ?_, h5⟩
    rw [h4, TrimRightFunc_end_eq s k1 h1 h2 h3]

/-- Behind a prefix of ASCII bytes, a text whose last rune is not white space
is not trimmed on the right. -/
theorem TrimRightFunc_prefix (P v : Bytes) (hP : ∀ b ∈ P, b.toNat < 0x80) (hv : 1 ≤ v.length)
    (hns : IsSpace (lastIndexFunc.rune v).1 = false) :
    TrimRightFunc (P ++ v) IsSpace = P ++ v := by
  have hlen : (P ++ v).length = P.length + v.length := List.length_append _ _
  have hlast : (P ++ v).getD ((P ++ v).length - 1) 0 = v.getD (v.length - 1) 0 := by
    rw [List.getD_eq_getElem?_getD, List.getD_eq_getElem?_getD, hlen,
      List.getElem?_append_right (by omega)]
    congr 2
    omega
  have hrune : IsSpace (lastIndexFunc.rune (P ++ v)).1 = false := by
    by_cases hl : (v.getD (v.length - 1) 0).toNat < RuneSelf
    · rw [lastIndexFunc_rune_ascii _ (by rw [hlast]; exact hl), hlast]
      rw [lastIndexFunc_rune_ascii _ hl] at hns
      exact hns
    · have hl2 : RuneSelf ≤ (v.getD (v.length - 1) 0).toNat := by omega
      rw [lastIndexFunc_rune_multi _ (by rw [hlast]; exact hl2)]
      rw [lastIndexFunc_rune_multi _ hl2] at hns
      rcases DecodeLastRune_post (P ++ v) (by omega) (by rw [hlast]; exact hl2) with
        h1 | ⟨h1, h2, h3⟩
      · rw [h1]; decide
      · generalize hsz : (DecodeLastRune (P ++ v)).2 = sz at h1 h2 h3
        rw [hlen] at h2 h3
        have hq2 : (DecodeRune ((P ++ v).drop (P.length + v.length - sz))).2 = sz := by
          rw [h3, hsz]
        obtain ⟨_, hm2, _, _, _, _⟩ := DecodeRune_multi _ (by rw [hq2]; exact h1)
        rw [getD_drop, Nat.add_zero] at hm2
        by_cases hin : sz ≤ v.length
        · have hdrop : (P ++ v).drop (P.length + v.length - sz) = v.drop (v.length - sz) := by
            have e : P.length + v.length - sz = P.length + (v.length - sz) := by omega
            rw [e, List.drop_append]
          rw [hdrop] at h3 hq2
          rw [← h3, ← DecodeLastRune_of_valid v sz h1 hin hq2]
          exact hns
        · exfalso
          have hidx : P.length + v.length - sz < P.length := by omega
          have hmem : (P ++ v).getD (P.length + v.length - sz) 0 ∈ P := by
            rw [List.getD_eq_getElem?_getD, List.getElem?_append_left hidx,
              List.getElem?_eq_getElem hidx]
            exact List.getElem_mem _
          have := hP _ hmem
          omega
  rw [TrimRightFunc_eq]
  have hloop : lastIndexFunc (P ++ v) IsSpace =
      some ((P ++ v).length - (lastIndexFunc.rune (P ++ v)).2) := by
    unfold lastIndexFunc lastIndexFunc.loop
    rw [if_pos (by omega)]
    simp only []
    rw [if_pos hrune]
  rw [hloop]
  simp only []
  have hend := TrimRightFunc_end_eq (P ++ v) (P ++ v).length (by omega) (le_refl _) (by simp)
  rw [List.take_length] at hend
  rw [hend, List.take_length]

/-- The slice that `TrimLeftFunc` returns is a suffix of the text. -/
theorem TrimLeftFunc_loop_suffix (f : Nat → Bool) (fuel : Nat) :
    ∀ s : Bytes, ∃ n, TrimLeftFunc.loop f fuel s = s.drop n := by
  induction fuel with
  | zero => intro s; exact ⟨0, by simp [TrimLeftFunc.loop]⟩
  | succ fuel ih =>
    intro s
    cases s with
    | nil => exact ⟨0, by simp [TrimLeftFunc.loop]⟩
    | cons c rest =>
      simp only [TrimLeftFunc.loop]
      split_ifs with h1 h2 h2
      · exact ⟨0, rfl⟩
      · obtain ⟨n, hn⟩ := ih (List.drop (DecodeRune (c :: rest)).2 (c :: rest))
        exact ⟨(DecodeRune (c :: rest)).2 + n, by rw [hn, List.drop_drop]⟩
      · exact ⟨0, rfl⟩
      · obtain ⟨n, hn⟩ := ih (List.drop 1 (c :: rest))
        exact ⟨1 + n, by rw [hn, List.drop_drop]⟩

/-- Every byte of the trimmed text is a byte of the text. -/
theorem TrimSpace_mem (s : Bytes) (b : UInt8) (h : b ∈ TrimSpace s) : b ∈ s := by
  unfold TrimSpace TrimFunc at h
  obtain ⟨n, hn⟩ := TrimLeftFunc_loop_suffix IsSpace s.length s
  have h1 : b ∈ TrimLeftFunc s IsSpace := by
    unfold TrimRightFunc at h
    cases hi : lastIndexFunc (TrimLeftFunc s IsSpace) IsSpace with
    | none => rw [hi] at h; simp at h
    | some i =>
      rw [hi] at h
      simp only [] at h
      split_ifs at h <;> exact List.mem_of_mem_take h
  unfold TrimLeftFunc at h1
  rw [hn] at h1
  exact List.mem_of_mem_drop h1

/-- Behind a prefix of ASCII bytes that begins with a byte that is not white
space, a non-empty trimmed text is left as it is by `TrimSpace`. -/
theorem TrimSpace_prefix (c : UInt8) (P l : Bytes) (hc : c.toNat < 0x80)
    (hcs : IsSpace c.toNat = false) (hP : ∀ b ∈ P, b.toNat < 0x80) (hne : TrimSpace l ≠ []) :
    TrimSpace (c :: P ++ TrimSpace l) = c :: P ++ TrimSpace l := by
  have hleft : TrimLeftFunc (c :: P ++ TrimSpace l) IsSpace = c :: P ++ TrimSpace l := by
    unfold TrimLeftFunc
    have h1 : ¬ c.toNat ≥ RuneSelf := by simp only [RuneSelf]; omega
    simp only [List.cons_append, List.length_cons, TrimLeftFunc.loop, h1, if_false]
    rw [if_pos hcs]
    rfl
  obtain ⟨k1, _, _, hk3, hk4⟩ := TrimRightFunc_last (TrimLeftFunc l IsSpace) hne
  have htl : TrimSpace l = (TrimLeftFunc l IsSpace).take k1 := hk3
  rw [← htl] at hk4
  have hpos : 1 ≤ (TrimSpace l).length := by
    cases hl : TrimSpace l with
    | nil => exact absurd hl hne
    | cons a t => simp
  show TrimRightFunc (TrimLeftFunc (c :: P ++ TrimSpace l) IsSpace) IsSpace = _
  rw [hleft]
  exact TrimRightFunc_prefix (c :: P) (TrimSpace l)
    (by
      intro b hb
      rcases List.mem_cons.mp hb with rfl | hb
      · exact hc
      · exact hP b hb) hpos hk4

/-! ### Converting a line-text document to line text -/

theorem decode_txt_values (lib : StdLib) (input : Bytes) :
    decode lib input (ascii "txt") = .ok ((txtValues input).map lineRecord) := by
  rw [decode_txt_filterMap, txtValues, List.map_filterMap]
  congr 2
  funext line
  by_cases h : TrimSpace line = [] <;> simp [h, lineRecord]

theorem txtItems_loop_lines (lib : StdLib) (ρ : RangeOrder) (vs : List Bytes) :
    ∀ i, txtItems.loop lib ρ i (vs.map lineRecord) = txtOutput vs := by
  induction vs with
  | nil => intro i; rfl
  | cons v rest ih =>
    intro i
    have hperm := ρ.perm i [(ascii "line", Value.str v)]
    rw [List.perm_singleton] at hperm
    simp only [List.map_cons, txtItems.loop, ih, txtOutput, txtFields, lineRecord, rangeMap,
      hperm, txtFields.loop, Sprint, List.append_nil, List.append_assoc]
    rfl

theorem Split_no_sep (s : Bytes) (sep : UInt8) : ∀ l ∈ Split s sep, sep ∉ l := by
  induction s with
  | nil => intro l hl; simp [Split] at hl; subst hl; simp
  | cons c rest ih =>
    intro l hl
    by_cases hc : c = sep
    · simp only [Split, hc, if_true, List.mem_cons] at hl
      rcases hl with rfl | hl
      · simp
      · exact ih l hl
    · simp only [Split, hc, if_false] at hl
      cases hs : Split rest sep with
      | nil =>
        rw [hs] at hl
        simp only [List.mem_singleton] at hl
        subst hl
        have hc2 : ¬ sep = c := fun e => hc e.symm
        simp [hc2]
      | cons l0 ls =>
        rw [hs] at hl ih
        simp only [List.mem_cons] at hl
        rcases hl with rfl | hl
        · have := ih l0 (List.mem_cons_self _ _)
          have hc2 : ¬ sep = c := fun e => hc e.symm
          simp [this, hc2]
        · exact ih l (List.mem_cons_of_mem _ hl)

theorem Split_append (l rest : Bytes) (sep : UInt8) (h : sep ∉ l) :
    Split (l ++ sep :: rest) sep = l :: Split rest sep := by
  induction l with
  | nil => simp [Split]
  | cons c t ih =>
    have hc : ¬ c = sep := fun e => h (e ▸ List.mem_cons_self _ _)
    have ht : sep ∉ t := fun hm => h (List.mem_cons_of_mem _ hm)
    have ih1 := ih ht
    simp only [List.cons_append, Split, hc, if_false]
    show (match Split (t ++ sep :: rest) sep with
      | [] => [[c]]
      | l :: ls => (c :: l) :: ls) = _
    rw [ih1]

theorem txtValues_spec (input : Bytes) :
    ∀ v ∈ txtValues input, (∃ l, v = TrimSpace l) ∧ v ≠ [] ∧ (0x0A : UInt8) ∉ v := by
  intro v hv
  simp only [txtValues, List.mem_filterMap] at hv
  obtain ⟨l, hl, hsome⟩ := hv
  by_cases h : TrimSpace l = []
  · simp [h] at hsome
  · simp only [h, ne_eq, not_false_eq_true, if_true, Option.some.injEq] at hsome
    subst hsome
    exact ⟨⟨l, rfl⟩, h, fun hm => Split_no_sep input 0x0A l hl (TrimSpace_mem l _ hm)⟩

/-- Decoding the line-text encoding of trimmed line texts: every value comes
back behind the text `line: `. -/
theorem decode_txtOutput (lib : StdLib) (vs : List Bytes)
    (h : ∀ v ∈ vs, (∃ l, v = TrimSpace l) ∧ v ≠ [] ∧ (0x0A : UInt8) ∉ v) :
    decode lib (txtOutput vs) (ascii "txt") =
      .ok (vs.map (fun v => lineRecord (ascii "line: " ++ v))) := by
  rw [decode_txt_filterMap]
  congr 1
  induction vs with
  | nil => decide
  | cons v rest ih =>
    obtain ⟨⟨l, hl⟩, hne, hnl⟩ := h v (List.mem_cons_self _ _)
    have ih1 := ih (fun x hx => h x (List.mem_cons_of_mem _ hx))
    have hsep : (0x0A : UInt8) ∉ ascii "line: " ++ v := by
      intro hm
      rcases List.mem_append.mp hm with h1 | h1
      · revert h1; decide
      · exact hnl h1
    have e1 : txtOutput (v :: rest) =
        (ascii "line: " ++ v) ++ 0x0A :: ([] ++ 0x0A :: txtOutput rest) := by
      simp only [txtOutput, List.append_assoc, List.nil_append]
      rfl
    rw [e1, Split_append _ _ _ hsep, Split_append _ _ _ (by simp)]
    have ht : TrimSpace (ascii "line: " ++ v) = ascii "line: " ++ v := by
      subst hl
      exact TrimSpace_prefix 0x6C (ascii "ine: ") l (by decide) (by decide) (by decide) hne
    have hne2 : ascii "line: " ++ v ≠ [] := by
      intro he
      have := congrArg List.length he
      simp [ascii] at this
    have hempty : TrimSpace [] = [] := by decide
    simp only [List.filterMap_cons, ht, hne2, ne_eq, not_false_eq_true, if_true, hempty,
      not_true_eq_false, if_false, ih1, List.map_cons, lineRecord]

/-! ### Decoding what the csv and xml encode loops produce -/

theorem mapAssign_not_mem (m : GoMap) (k : Bytes) (v : Value) (h : k ∉ m.map Prod.fst) :
    mapAssign m k v = m ++ [(k, v)] := by
  induction m with
  | nil => rfl
  | cons e rest ih =>
    obtain ⟨a, b⟩ := e
    simp only [List.map_cons, List.mem_cons, not_or] at h
    have h1 : ¬ a = k := fun e => h.1 e.symm
    simp only [mapAssign, h1, if_false, ih h.2, List.cons_append]

theorem mapAssign_keys (m : GoMap) (k : Bytes) (v : Value) :
    (mapAssign m k v).map Prod.fst =
      if k ∈ m.map Prod.fst then m.map Prod.fst else m.map Prod.fst ++ [k] := by
  induction m with
  | nil => simp [mapAssign]
  | cons e rest ih =>
    obtain ⟨a, b⟩ := e
    by_cases h1 : a = k
    · subst h1
      simp [mapAssign]
    · have h2 : ¬ k = a := fun e => h1 e.symm
      simp only [mapAssign, h1, if_false, List.map_cons, ih, List.mem_cons, h2, false_or]
      split_ifs <;> simp

theorem mapAssign_nodup (m : GoMap) (k : Bytes) (v : Value) (h : (m.map Prod.fst).Nodup) :
    ((mapAssign m k v).map Prod.fst).Nodup := by
  rw [mapAssign_keys]
  split_ifs with hk
  · exact h
  · exact List.Nodup.append h (List.nodup_singleton k) (by
      intro x hx hx1
      rw [List.mem_singleton] at hx1
      exact hk (hx1 ▸ hx))

theorem mapAssign_values (P : Value → Prop) (m : GoMap) (k : Bytes) (v : Value)
    (h : ∀ kv ∈ m, P kv.2) (hv : P v) : ∀ kv ∈ mapAssign m k v, P kv.2 := by
  induction m with
  | nil => intro kv hkv; simp only [mapAssign, List.mem_singleton] at hkv; subst hkv; exact hv
  | cons e rest ih =>
    obtain ⟨a, b⟩ := e
    intro kv hkv
    by_cases h1 : a = k
    · simp only [mapAssign, h1, if_true, List.mem_cons] at hkv
      rcases hkv with rfl | hkv
      · exact hv
      · exact h kv (List.mem_cons_of_mem _ hkv)
    · simp only [mapAssign, h1, if_false, List.mem_cons] at hkv
      rcases hkv with rfl | hkv
      · exact h _ (List.mem_cons_self _ _)
      · exact ih (fun x hx => h x (List.mem_cons_of_mem _ hx)) kv hkv

/-- A value that is a Go string. -/
theorem Sprint_str (lib : StdLib) (v : Value) (h : ∃ s, v = .str s) :
    Value.str (Sprint lib v) = v := by
  obtain ⟨s, rfl⟩ := h
  rfl

/-- Assigning entries with pairwise distinct new keys, one after the other,
appends them. -/
theorem foldl_mapAssign_nodup (l : GoMap) :
    ∀ init : GoMap, ((init ++ l).map Prod.fst).Nodup →
      l.foldl (fun m kv => mapAssign m kv.1 kv.2) init = init ++ l := by
  induction l with
  | nil => intro init _; simp
  | cons e rest ih =>
    intro init h
    have hk : e.1 ∉ init.map Prod.fst := by
      intro hm
      simp only [List.map_append, List.map_cons] at h
      have := (List.nodup_append.mp h).2.2
      exact this hm (List.mem_cons_self _ _)
    rw [List.foldl_cons, mapAssign_not_mem init e.1 e.2 hk, ih]
    · simp
    · simpa using h

theorem foldl_assign_wf (P : Value → Prop) (l : List (Bytes × Value)) (hl : ∀ kv ∈ l, P kv.2) :
    ∀ init : GoMap, (init.map Prod.fst).Nodup → (∀ kv ∈ init, P kv.2) →
      ((l.foldl (fun m kv => mapAssign m kv.1 kv.2) init).map Prod.fst).Nodup ∧
      ∀ kv ∈ l.foldl (fun m kv => mapAssign m kv.1 kv.2) init, P kv.2 := by
  induction l with
  | nil => intro init h1 h2; exact ⟨h1, h2⟩
  | cons e rest ih =>
    intro init h1 h2
    rw [List.foldl_cons]
    exact ih (fun kv hkv => hl kv (List.mem_cons_of_mem _ hkv)) _ (mapAssign_nodup _ _ _ h1)
      (mapAssign_values P _ _ _ h2 (hl e (List.mem_cons_self _ _)))

theorem xmlRecord_loop_eq_foldl (fields : List XMLField) :
    ∀ record : GoMap, xmlRecord.loop fields record =
      (fields.map (fun f => (f.Name, Value.str f.Value))).foldl
        (fun m kv => mapAssign m kv.1 kv.2) record := by
  induction fields with
  | nil => intro record; rfl
  | cons f rest ih => intro record; simp only [xmlRecord.loop, ih, List.map_cons, List.foldl_cons]

/-- A record built by the xml decode loop has pairwise distinct keys and
string values. -/
theorem xmlRecord_loop_wf (fields : List XMLField) :
    ((xmlRecord.loop fields []).map Prod.fst).Nodup ∧
      ∀ kv ∈ xmlRecord.loop fields [], ∃ s, kv.2 = Value.str s := by
  rw [xmlRecord_loop_eq_foldl]
  apply foldl_assign_wf (fun v => ∃ s, v = Value.str s)
  · intro kv hkv
    simp only [List.mem_map] at hkv
    obtain ⟨f, _, rfl⟩ := hkv
    exact ⟨_, rfl⟩
  · simp
  · simp

/-- The xml decode loop applied to the fields that the xml encode loop builds
from a map with distinct keys and string values gives the entries of the map
back, in the order of the range statement. -/
theorem xmlRecord_loop_xmlFields (lib : StdLib) (ρ : RangeOrder) (i : Nat) (m : GoMap)
    (hnd : (m.map Prod.fst).Nodup) (hstr : ∀ kv ∈ m, ∃ s, kv.2 = Value.str s) :
    xmlRecord.loop (xmlFields lib ρ i (some m)) [] = ρ.order i m := by
  have hperm := ρ.perm i m
  rw [xmlRecord_loop_eq_foldl]
  simp only [xmlFields, rangeMap, List.map_map]
  have hmap : List.map ((fun f : XMLField => (f.Name, Value.str f.Value)) ∘
      fun kv : Bytes × Value => (⟨kv.1, Sprint lib kv.2⟩ : XMLField)) (ρ.order i m) =
      ρ.order i m := by
    conv_rhs => rw [← List.map_id (ρ.order i m)]
    apply List.map_congr_left
    intro kv hkv
    simp only [Function.comp, id]
    rw [Sprint_str lib kv.2 (hstr kv (hperm.mem_iff.mp hkv))]
  rw [hmap, foldl_mapAssign_nodup]
  · simp
  · simpa using (hperm.map Prod.fst).nodup_iff.mpr hnd

theorem xml_loops_round_trip (lib : StdLib) (ρ : RangeOrder) :
    ∀ (data : Data) (i : Nat),
      (∀ item ∈ data, ∃ m, item = some m ∧ (m.map Prod.fst).Nodup ∧
        ∀ kv ∈ m, ∃ s, kv.2 = Value.str s) →
      List.Forall₂ sameRecord data
        ((xmlItems.loop lib ρ i data).map (fun item => some (xmlRecord.loop item.Fields []))) := by
  intro data
  induction data with
  | nil => intro i _; exact List.Forall₂.nil
  | cons item rest ih =>
    intro i h
    obtain ⟨m, rfl, hnd, hstr⟩ := h item (List.mem_cons_self _ _)
    simp only [xmlItems.loop, List.map_cons]
    refine List.Forall₂.cons ?_ (ih (i + 1) (fun x hx => h x (List.mem_cons_of_mem _ hx)))
    exact ⟨m, _, rfl, rfl, by rw [xmlRecord_loop_xmlFields lib ρ i m hnd hstr]; exact ρ.perm i m⟩

theorem csvItem_eq_foldl_pairs (headers record : List Bytes) :
    csvItem headers record =
      ((headers.zip record).map (fun kv => (kv.1, Value.str kv.2))).foldl
        (fun m kv => mapAssign m kv.1 kv.2) [] := by
  rw [csvItem_eq_foldl, List.foldl_map]

/-- A record built by the csv decode loop has pairwise distinct keys and
string values. -/
theorem csvItem_wf (headers record : List Bytes) :
    ((csvItem headers record).map Prod.fst).Nodup ∧
      ∀ kv ∈ csvItem headers record, ∃ s, kv.2 = Value.str s := by
  rw [csvItem_eq_foldl_pairs]
  apply foldl_assign_wf (fun v => ∃ s, v = Value.str s)
  · intro kv hkv
    simp only [List.mem_map] at hkv
    obtain ⟨f, _, rfl⟩ := hkv
    exact ⟨_, rfl⟩
  · simp
  · simp

theorem foldl_mapAssign_keys (l : GoMap) :
    ∀ init : GoMap, (l.foldl (fun m kv => mapAssign m kv.1 kv.2) init).map Prod.fst =
      (l.map Prod.fst).foldl (fun ks k => if k ∈ ks then ks else ks ++ [k])
        (init.map Prod.fst) := by
  induction l with
  | nil => intro init; rfl
  | cons e rest ih =>
    intro init
    simp only [List.foldl_cons, List.map_cons, ih, mapAssign_keys]

/-- The keys of the record of a row depend on the header only, when the row has
as many fields as the header. -/
theorem csvItem_keys (headers record : List Bytes) (h : record.length = headers.length) :
    (csvItem headers record).map Prod.fst =
      headers.foldl (fun ks k => if k ∈ ks then ks else ks ++ [k]) [] := by
  rw [csvItem_eq_foldl_pairs, foldl_mapAssign_keys, List.map_map]
  have : (Prod.fst ∘ fun kv : Bytes × Bytes => (kv.1, Value.str kv.2)) = Prod.fst := rfl
  rw [this, List.map_fst_zip _ _ (by omega)]
  rfl

theorem mapIndex_find_of_mem (m : GoMap) (h : (m.map Prod.fst).Nodup) :
    ∀ kv ∈ m, mapIndex.find m kv.1 = some kv.2 := by
  induction m with
  | nil => intro kv hkv; simp at hkv
  | cons e rest ih =>
    obtain ⟨a, b⟩ := e
    simp only [List.map_cons, List.nodup_cons] at h
    intro kv hkv
    rcases List.mem_cons.mp hkv with rfl | hkv
    · simp [mapIndex.find]
    · have hne : ¬ a = kv.1 := by
        intro e
        exact h.1 (e ▸ List.mem_map_of_mem Prod.fst hkv)
      simp only [mapIndex.find, hne, if_false]
      exact ih h.2 kv hkv

/-- The csv decode loop applied to the row that the csv encode loop builds from
a record, under a header that is a permutation of the record's keys, gives the
entries of the record back in the order of the header. -/
theorem csvItem_csvRow (lib : StdLib) (hs : List Bytes) (m : GoMap)
    (hnd : (m.map Prod.fst).Nodup) (hstr : ∀ kv ∈ m, ∃ s, kv.2 = Value.str s)
    (hperm : hs.Perm (m.map Prod.fst)) :
    (csvItem hs (csvRow lib hs (some m))).Perm m := by
  have hsnd : hs.Nodup := hperm.nodup_iff.mpr hnd
  rw [csvItem_eq_foldl_pairs]
  have hzip : (hs.zip (csvRow lib hs (some m))).map (fun kv => (kv.1, Value.str kv.2)) =
      hs.map (fun k => (k, Value.str (match mapIndex (some m) k with
        | some val => Sprint lib val
        | none => []))) := by
    simp only [csvRow, List.zip_map_right, List.map_map]
    generalize hs = l
    induction l with
    | nil => rfl
    | cons a t ih => simp only [List.zip_cons_cons, List.map_cons, ih, id]; rfl
  rw [hzip, foldl_mapAssign_nodup]
  · simp only [List.nil_append]
    have hm : m = (m.map Prod.fst).map (fun k => (k, Value.str (match mapIndex (some m) k with
        | some val => Sprint lib val
        | none => []))) := by
      rw [List.map_map]
      conv_lhs => rw [← List.map_id m]
      apply List.map_congr_left
      intro kv hkv
      simp only [Function.comp, id, mapIndex, mapIndex_find_of_mem m hnd kv hkv,
        Sprint_str lib kv.2 (hstr kv hkv)]
    conv_rhs => rw [hm]
    exact hperm.map _
  · simp only [List.nil_append, List.map_map]
    have : (Prod.fst ∘ fun k : Bytes => (k, Value.str (match mapIndex (some m) k with
        | some val => Sprint lib val
        | none => []))) = id := rfl
    rw [this, List.map_id]
    exact hsnd

/-- The csv decode loops applied to the rows that the csv encode loops build
from the records of a parsed document give every record back, up to the order
of the fields. -/
theorem csv_loops_round_trip (lib : StdLib) (ρ : RangeOrder) (h : List Bytes)
    (rows : List (List Bytes)) (hne : rows ≠ []) (hu : ∀ r ∈ rows, r.length = h.length) :
    List.Forall₂ sameRecord (rows.map (fun r => some (csvItem h r)))
      (csvRecords.loop (csvHeaders ρ (rows.map (fun r => some (csvItem h r))))
        ((rows.map (fun r => some (csvItem h r))).map
          (csvRow lib (csvHeaders ρ (rows.map (fun r => some (csvItem h r)))))) []) := by
  obtain ⟨r0, rest, rfl⟩ := List.exists_cons_of_ne_nil hne
  have hhs : (csvHeaders ρ ((r0 :: rest).map (fun r => some (csvItem h r)))).Perm
      ((csvItem h r0).map Prod.fst) := by
    simp only [csvHeaders, List.map_cons, List.getD_cons_zero, rangeMap]
    exact (ρ.perm 0 _).map _
  generalize csvHeaders ρ ((r0 :: rest).map (fun r => some (csvItem h r))) = hs at hhs
  rw [csvRecords_loop_eq, List.nil_append, List.map_map, List.map_map,
    List.forall₂_map_right_iff, List.forall₂_map_left_iff, List.forall₂_same]
  intro r hr
  have hkeys : (csvItem h r).map Prod.fst = (csvItem h r0).map Prod.fst := by
    rw [csvItem_keys h r (hu r hr), csvItem_keys h r0 (hu r0 (List.mem_cons_self _ _))]
  obtain ⟨hnd, hstr⟩ := csvItem_wf h r
  exact ⟨csvItem h r, _, rfl, rfl, csvItem_csvRow lib hs (csvItem h r) hnd hstr (hkeys ▸ hhs)⟩

/-! ### Enough fuel

The loops of the model that are not structurally recursive carry fuel. The
lemmas below show that the fuel given by the callers is enough: any larger
amount gives the same result. -/

theorem DecodeLastRune_scan_fuel (p : Bytes) (lim : Nat) (fuel1 : Nat) :
    ∀ (fuel2 s : Nat), s + 2 ≤ lim + fuel1 → s + 2 ≤ lim + fuel2 → 1 ≤ fuel1 → 1 ≤ fuel2 →
      DecodeLastRune.scan p lim fuel1 s = DecodeLastRune.scan p lim fuel2 s := by
  induction fuel1 with
  | zero => intro fuel2 s _ _ h; omega
  | succ fuel1 ih =>
    intro fuel2 s h1 h2 _ h4
    obtain ⟨f2, rfl⟩ : ∃ k, fuel2 = k + 1 := ⟨fuel2 - 1, by omega⟩
    unfold DecodeLastRune.scan
    split_ifs with c1 c2
    · rfl
    · rfl
    · cases s with
      | zero => rfl
      | succ s1 =>
        simp only []
        by_cases hs : s1 < lim
        · have a1 : 1 ≤ fuel1 := by omega
          have a2 : 1 ≤ f2 := by omega
          obtain ⟨g1, rfl⟩ : ∃ k, fuel1 = k + 1 := ⟨fuel1 - 1, by omega⟩
          obtain ⟨g2, rfl⟩ : ∃ k, f2 = k + 1 := ⟨f2 - 1, by omega⟩
          unfold DecodeLastRune.scan
          rw [if_pos hs, if_pos hs]
        · exact ih f2 s1 (by omega) (by omega) (by omega) (by omega)

/-- The fuel of the backwards scan in `DecodeLastRune` is enough. -/
theorem DecodeLastRune_start_fuel (p : Bytes) (fuel : Nat) (h : UTFMax + 1 ≤ fuel) :
    DecodeLastRune.scan p (p.length - UTFMax) fuel (p.length - 2) =
      DecodeLastRune.scan p (p.length - UTFMax) (UTFMax + 1) (p.length - 2) := by
  simp only [UTFMax] at h ⊢
  exact DecodeLastRune_scan_fuel p _ fuel _ _ (by omega) (by omega) (by omega) (by omega)

/-- The fuel of the loop of `lastIndexFunc` is enough. -/
theorem lastIndexFunc_loop_fuel (f : Nat → Bool) (n : Nat) :
    ∀ (m : Nat) (p : Bytes), p.length < n → p.length < m →
      lastIndexFunc.loop f n p = lastIndexFunc.loop f m p := by
  induction n with
  | zero => intro m p h; omega
  | succ n ih =>
    intro m p hn hm
    obtain ⟨m1, rfl⟩ : ∃ k, m = k + 1 := ⟨m - 1, by omega⟩
    unfold lastIndexFunc.loop
    by_cases hp : p.length > 0
    · simp only [hp, if_true]
      split_ifs with hf
      · rfl
      · obtain ⟨hs1, _⟩ := lastIndexFunc_rune_size p (by omega)
        apply ih <;> rw [List.length_take] <;> omega
    · simp only [hp, if_false]

theorem ReadSlice_length (input : Bytes) (delim : UInt8) :
    (ReadSlice input delim).1.length + (ReadSlice input delim).2.1.length = input.length ∧
      ((ReadSlice input delim).2.2 = true → 1 ≤ (ReadSlice input delim).1.length) ∧
      ((ReadSlice input delim).2.2 = false → (ReadSlice input delim).2.1 = []) := by
  induction input with
  | nil => simp [ReadSlice]
  | cons c rest ih =>
    by_cases h : c = delim
    · simp [ReadSlice, h]; omega
    · simp only [ReadSlice, h, if_false, List.length_cons]
      refine ⟨by omega, fun _ => by omega, ih.2.2⟩

/-- What `readLine` consumes: the line and the unread input together are not
longer than the input, and unless the error is `io.EOF` some input is consumed. -/
theorem readLine_length (input : Bytes) :
    (readLine input).1.length + (readLine input).2.2.length ≤ input.length ∧
      ((readLine input).2.1 = false → (readLine input).2.2.length < input.length) := by
  obtain ⟨h1, h2, h3⟩ := ReadSlice_length input 0x0A
  unfold readLine
  simp only []
  generalize ReadSlice input 0x0A = res at h1 h2 h3
  obtain ⟨line, rest, found⟩ := res
  simp only [] at h1 h2 h3 ⊢
  constructor
  · split_ifs <;>
      (try simp only [List.length_append, List.length_take, List.length_singleton,
        List.length_nil, List.length_cons]) <;> omega
  · cases found with
    | true =>
      intro _
      have := h2 rfl
      omega
    | false =>
      have hr := h3 rfl
      subst hr
      simp only [Bool.not_false, and_true, List.length_nil]
      intro he
      simp only [List.length_nil] at h1
      by_cases c1 : line.length > 0
      · omega
      · rw [if_neg c1] at he
        exact absurd he (by decide)

/-- The fuel of the line-skipping loop of `readRecord` is enough. -/
theorem readRecord_skip_fuel (n : Nat) :
    ∀ (m : Nat) (input : Bytes), input.length < n → input.length < m →
      readRecord.skip n input = readRecord.skip m input := by
  induction n with
  | zero => intro m input h; omega
  | succ n ih =>
    intro m input hn hm
    obtain ⟨m1, rfl⟩ : ∃ k, m = k + 1 := ⟨m - 1, by omega⟩
    unfold readRecord.skip
    simp only []
    split_ifs with h
    · have := (readLine_length input).2 h.1
      exact ih m1 _ (by omega) (by omega)
    · rfl

theorem IndexByte_lt (b : Bytes) (c : UInt8) (i : Nat) (h : IndexByte b c = some i) :
    i < b.length := by
  induction b generalizing i with
  | nil => simp [IndexByte] at h
  | cons x rest ih =>
    by_cases hx : x = c
    · simp only [IndexByte, hx, if_true, Option.some.injEq] at h
      subst h; simp
    · simp only [IndexByte, hx, if_false, Option.map_eq_some'] at h
      obtain ⟨j, hj, rfl⟩ := h
      have := ih j hj
      simp only [List.length_cons]
      omega

/-- The fuel of the field loop of `readRecord` is enough. -/
theorem readRecord_parse_fuel (n : Nat) :
    ∀ (m : Nat) (cur : Option Bytes) (line rest : Bytes) (fields : List Bytes),
      line.length + rest.length < n → line.length + rest.length < m →
      readRecord.parse n cur line rest fields = readRecord.parse m cur line rest fields := by
  induction n with
  | zero => intro m cur line rest fields h; omega
  | succ n ih =>
    intro m cur line rest fields hn hm
    obtain ⟨m1, rfl⟩ : ∃ k, m = k + 1 := ⟨m - 1, by omega⟩
    cases cur with
    | none =>
      simp only [readRecord.parse]
      split_ifs with h1 h2
      · rfl
      · cases hi : IndexByte line 0x2C with
        | none => rfl
        | some i =>
          simp only []
          have := IndexByte_lt line _ i hi
          apply ih <;> rw [List.length_drop] <;> omega
      · have hl : 0 < line.length := by
          by_contra hc
          exact h1 (Or.inl (by omega))
        apply ih <;> rw [List.length_drop] <;> omega
    | some cur =>
      simp only [readRecord.parse]
      cases hi : IndexByte line 0x22 with
      | none =>
        simp only []
        split_ifs with h1
        · have := (readLine_length rest).1
          apply ih <;> omega
        · rfl
      | some i =>
        simp only []
        have := IndexByte_lt line _ i hi
        split_ifs with h1 h2 h3
        · apply ih <;> simp only [List.length_drop] <;> omega
        · apply ih <;> simp only [List.length_drop] <;> omega
        · rfl
        · rfl

theorem readRecord_parse_rest (fuel : Nat) :
    ∀ (cur : Option Bytes) (line rest : Bytes) (fields : List Bytes),
      (readRecord.parse fuel cur line rest fields).2.2.length ≤ rest.length := by
  induction fuel with
  | zero => intro cur line rest fields; simp [readRecord.parse]
  | succ fuel ih =>
    intro cur line rest fields
    cases cur with
    | none =>
      simp only [readRecord.parse]
      split_ifs with h1 h2
      · exact le_refl _
      · cases hi : IndexByte line 0x2C with
        | none => exact le_refl _
        | some i => exact ih _ _ _ _
      · exact ih _ _ _ _
    | some cur =>
      simp only [readRecord.parse]
      cases hi : IndexByte line 0x22 with
      | none =>
        simp only []
        split_ifs with h1
        · have h2 := ih (some (cur ++ line)) (readLine rest).1 (readLine rest).2.2 fields
          have h3 := (readLine_length rest).1
          omega
        · exact le_refl _
      | some i =>
        simp only []
        split_ifs with h1 h2 h3
        · exact ih _ _ _ _
        · exact ih _ _ _ _
        · exact le_refl _
        · exact le_refl _

theorem readRecord_skip_rest (fuel : Nat) :
    ∀ input : Bytes, (readRecord.skip fuel input).2.1 = false →
      (readRecord.skip fuel input).2.2.length < input.length := by
  induction fuel with
  | zero => intro input h; simp [readRecord.skip] at h
  | succ fuel ih =>
    intro input
    unfold readRecord.skip
    simp only []
    split_ifs with h
    · intro he
      have h1 := ih _ he
      have h2 := (readLine_length input).2 h.1
      omega
    · intro he
      exact (readLine_length input).2 he

/-- A record that `readRecord` returns without error has consumed input. -/
theorem readRecord_consumes (r r1 : Reader) (record : List Bytes) (err : Option ReadError)
    (h : readRecord r = (record, err, r1)) (he : err ≠ some .EOF) :
    r1.r.length < r.r.length := by
  unfold readRecord at h
  simp only [] at h
  by_cases heof : (readRecord.skip (r.r.length + 1) r.r).2.1 = true
  · rw [if_pos heof] at h
    simp only [Prod.mk.injEq] at h
    exact absurd h.2.1.symm he
  · rw [if_neg heof] at h
    have hf : (readRecord.skip (r.r.length + 1) r.r).2.1 = false := by
      cases hb : (readRecord.skip (r.r.length + 1) r.r).2.1
      · rfl
      · exact absurd hb heof
    have h1 := readRecord_skip_rest _ _ hf
    have h2 := readRecord_parse_rest
      ((readRecord.skip (r.r.length + 1) r.r).1.length +
        (readRecord.skip (r.r.length + 1) r.r).2.2.length + 1) none
      (readRecord.skip (r.r.length + 1) r.r).1 (readRecord.skip (r.r.length + 1) r.r).2.2 []
    have hr : r1.r = (readRecord.parse
      ((readRecord.skip (r.r.length + 1) r.r).1.length +
        (readRecord.skip (r.r.length + 1) r.r).2.2.length + 1) none
      (readRecord.skip (r.r.length + 1) r.r).1
      (readRecord.skip (r.r.length + 1) r.r).2.2 []).2.2 := by
      split_ifs at h <;> simp only [Prod.mk.injEq] at h <;> rw [← h.2.2]
    rw [hr]
    omega

/-- The fuel of the loop of `ReadAll` is enough. -/
theorem ReadAll_loop_fuel (n : Nat) :
    ∀ (m : Nat) (r : Reader) (records : List (List Bytes)), r.r.length < n → r.r.length < m →
      ReadAll.loop n r records = ReadAll.loop m r records := by
  induction n with
  | zero => intro m r records h; omega
  | succ n ih =>
    intro m r records hn hm
    obtain ⟨m1, rfl⟩ : ∃ k, m = k + 1 := ⟨m - 1, by omega⟩
    simp only [ReadAll.loop]
    rcases hrr : readRecord r with ⟨record, err, r1⟩
    cases err with
    | some e => cases e <;> rfl
    | none =>
      simp only []
      have := readRecord_consumes r r1 record none hrr (by simp)
      exact ih m1 r1 _ (by omega) (by omega)

/-! ### Convert returns an output or an error, never neither -/

/-- For an output format that is one of the four extensions, the encode switch
returns an error and no output, or an output and no error. -/
theorem encode_output_or_error (lib : StdLib) (ρ : RangeOrder) (data : Data)
    (outputFormat : Bytes)
    (h : outputFormat ∈ [ascii "json", ascii "csv", ascii "xml", ascii "txt"]) :
    (∃ err, encode lib ρ data outputFormat = (none, some err)) ∨
      (∃ out, encode lib ρ data outputFormat = (some out, none)) := by
  have e1 : ¬ ascii "csv" = ascii "json" := by decide
  have e2 : ¬ ascii "xml" = ascii "json" := by decide
  have e3 : ¬ ascii "xml" = ascii "csv" := by decide
  have e4 : ¬ ascii "txt" = ascii "json" := by decide
  have e5 : ¬ ascii "txt" = ascii "csv" := by decide
  have e6 : ¬ ascii "txt" = ascii "xml" := by decide
  simp only [List.mem_cons, List.mem_singleton, List.not_mem_nil, or_false] at h
  rcases h with rfl | rfl | rfl | rfl
  · simp only [encode, if_true]
    cases lib.jsonMarshalIndent data with
    | error err => exact Or.inl ⟨_, rfl⟩
    | ok out => exact Or.inr ⟨_, rfl⟩
  · by_cases hl : data.length = 0
    · exact Or.inl ⟨.noData, by simp only [encode, e1, if_false, if_true, hl]⟩
    · refine Or.inr ⟨Writer.WriteAll ([] ++ writeFields 0 (csvHeaders ρ data) ++ [10])
        (data.map (csvRow lib (csvHeaders ρ data))), ?_⟩
      simp only [encode, e1, if_false, if_true, hl, Writer.Write, csvWriteData_loop_eq,
        Writer.Error]
  · simp only [encode, e2, e3, if_false, if_true]
    cases lib.xmlEncode ⟨xmlItems.loop lib ρ 0 data⟩ with
    | error err => exact Or.inl ⟨_, rfl⟩
    | ok out => exact Or.inr ⟨_, rfl⟩
  · refine Or.inr ⟨txtItems.loop lib ρ 0 data, ?_⟩
    simp only [encode, e4, e5, e6, if_false, if_true]

/-- C11: for every input buffer and every output format string, `Convert`
returns an error together with no output buffer, or no error together with an
output buffer; it never returns neither. The fall-through of the encode switch,
which returns neither (as it does for the format yaml), is not reached from
`Convert`: an output format that `ValidateFormat` accepts is one of the four
cases of the switch, and for these the switch never returns neither. -/
theorem Convert_output_or_error (lib : StdLib) (ρ : RangeOrder) (input outputFormat : Bytes) :
    ((∃ err, Convert lib ρ input outputFormat = (none, some err)) ∨
      (∃ out, Convert lib ρ input outputFormat = (some out, none))) ∧
    Convert lib ρ input outputFormat ≠ (none, none) ∧
    (ValidateFormat outputFormat GetSupportedFormats = none →
      outputFormat ∈ [ascii "json", ascii "csv", ascii "xml", ascii "txt"] ∧
      ∀ data, encode lib ρ data outputFormat ≠ (none, none)) ∧
    (∀ data, encode lib ρ data (ascii "yaml") = (none, none)) := by
  have hmem : ValidateFormat outputFormat GetSupportedFormats = none →
      outputFormat ∈ [ascii "json", ascii "csv", ascii "xml", ascii "txt"] := by
    intro hv
    rw [ValidateFormat_supported] at hv
    by_contra hn
    rw [if_neg hn] at hv
    exact Option.noConfusion hv
  have hmain : (∃ err, Convert lib ρ input outputFormat = (none, some err)) ∨
      (∃ out, Convert lib ρ input outputFormat = (some out, none)) := by
    unfold Convert
    cases hv : ValidateFormat outputFormat GetSupportedFormats with
    | some err => exact Or.inl ⟨err, rfl⟩
    | none =>
      simp only []
      cases hv2 : ValidateFormat (detectFormat input) GetSupportedFormats with
      | some err => exact Or.inl ⟨_, rfl⟩
      | none =>
        simp only []
        cases hd : decode lib input (detectFormat input) with
        | error err => exact Or.inl ⟨err, rfl⟩
        | ok data => exact encode_output_or_error lib ρ data outputFormat (hmem hv)
  refine ⟨hmain, ?_, ?_, ?_⟩
  · rcases hmain with ⟨err, he⟩ | ⟨out, ho⟩
    · rw [he]; exact fun e => Option.noConfusion (congrArg Prod.snd e)
    · rw [ho]; exact fun e => Option.noConfusion (congrArg Prod.fst e)
  · intro hv
    refine ⟨hmem hv, ?_⟩
    intro data
    rcases encode_output_or_error lib ρ data outputFormat (hmem hv) with ⟨err, he⟩ | ⟨out, ho⟩
    · rw [he]; exact fun e => Option.noConfusion (congrArg Prod.snd e)
    · rw [ho]; exact fun e => Option.noConfusion (congrArg Prod.fst e)
  · intro data
    have y1 : ¬ ascii "yaml" = ascii "json" := by decide
    have y2 : ¬ ascii "yaml" = ascii "csv" := by decide
    have y3 : ¬ ascii "yaml" = ascii "xml" := by decide
    have y4 : ¬ ascii "yaml" = ascii "txt" := by decide
    simp only [encode, y1, y2, y3, y4, if_false]

/-- C11 (witness): an output without error (a CSV document to txt, the JSON
document `[]` to txt, whose output is the empty buffer), and an error without
output (the empty input, an unknown output format, a CSV header alone). -/
theorem Convert_output_or_error_witness :
    ValidateFormat (ascii "csv") GetSupportedFormats = none ∧
    (ascii "csv" ∈ [ascii "json", ascii "csv", ascii "xml", ascii "txt"] ∧
      ∀ data, encode StdLib.noJsonXml RangeOrder.stored data (ascii "csv") ≠ (none, none)) ∧
    Convert StdLib.noJsonXml RangeOrder.stored (ascii "a,b\n1,2\n") (ascii "txt") =
      (some (ascii "a: 1\nb: 2\n\n"), none) ∧
    Convert StdLib.emptyDocs RangeOrder.stored (ascii "[]") (ascii "txt") = (some [], none) ∧
    Convert StdLib.noJsonXml RangeOrder.stored [] (ascii "txt") =
      (none, some (.unrecognizedInput [])) ∧
    Convert StdLib.noJsonXml RangeOrder.stored (ascii "a,b\n1,2\n") (ascii "yaml") =
      (none, some (.unsupportedFormat (ascii "yaml"))) ∧
    Convert StdLib.noJsonXml RangeOrder.stored (ascii "a,b\n") (ascii "csv") =
      (none, some .csvInvalid) :=
  ⟨by decide,
    (Convert_output_or_error StdLib.noJsonXml RangeOrder.stored (ascii "a,b\n1,2\n")
      (ascii "csv")).2.2.1 (by decide),
    by decide, by decide, by decide, by decide, by decide⟩

/-! ### The CSV reader reads back what the CSV writer wrote

The text that the writer writes for records of one length is read back as
these records, provided no record is written as an empty line (which the reader
skips) and no field holds a carriage return directly before a line feed (which
the reader turns into a line feed). -/

theorem noCRLF_iff (s : Bytes) :
    noCRLF s = true ↔ List.Chain' (fun a b : UInt8 => ¬ (a = 0x0D ∧ b = 0x0A)) s := by
  induction s with
  | nil => simp [noCRLF]
  | cons a rest ih =>
    cases rest with
    | nil => simp [noCRLF]
    | cons b t =>
      rw [List.chain'_cons, ← ih]
      have e : noCRLF (a :: b :: t) = (!(a == 0x0D && b == 0x0A) && noCRLF (b :: t)) := rfl
      rw [e]
      simp only [Bool.and_eq_true, Bool.not_eq_true', Bool.and_eq_false_imp, beq_iff_eq,
        beq_eq_false_iff_ne, ne_eq, not_and]

theorem parse_canon (n : Nat) (cur : Option Bytes) (line rest : Bytes) (fields : List Bytes)
    (h : line.length + rest.length < n) :
    readRecord.parse n cur line rest fields = readRecord.parseAt cur line rest fields :=
  readRecord_parse_fuel n _ cur line rest fields h (by omega)

theorem IndexByte_not_mem (b : Bytes) (c : UInt8) (h : c ∉ b) : IndexByte b c = none := by
  induction b with
  | nil => rfl
  | cons x rest ih =>
    simp only [List.mem_cons, not_or] at h
    have hx : ¬ x = c := fun e => h.1 e.symm
    simp [IndexByte, hx, ih h.2]

theorem IndexByte_append_cons (a t : Bytes) (c : UInt8) (h : c ∉ a) :
    IndexByte (a ++ c :: t) c = some a.length := by
  induction a with
  | nil => simp [IndexByte]
  | cons x rest ih =>
    simp only [List.mem_cons, not_or] at h
    have hx : ¬ x = c := fun e => h.1 e.symm
    simp [IndexByte, hx, ih h.2]

theorem ReadSlice_cons_ne (c : UInt8) (s : Bytes) (h : c ≠ 0x0A) :
    ReadSlice (c :: s) 0x0A = (c :: (ReadSlice s 0x0A).1, (ReadSlice s 0x0A).2.1,
      (ReadSlice s 0x0A).2.2) := by
  simp [ReadSlice, h]

theorem ReadSlice_cons_nl (s : Bytes) : ReadSlice (0x0A :: s) 0x0A = ([0x0A], s, true) := by
  simp [ReadSlice]

theorem ReadSlice_append (a s : Bytes) (h : 0x0A ∉ a) :
    ReadSlice (a ++ s) 0x0A = (a ++ (ReadSlice s 0x0A).1, (ReadSlice s 0x0A).2.1,
      (ReadSlice s 0x0A).2.2) := by
  induction a with
  | nil => rfl
  | cons x rest ih =>
    simp only [List.mem_cons, not_or] at h
    have hx : x ≠ 0x0A := fun e => h.1 e.symm
    rw [List.cons_append, ReadSlice_cons_ne _ _ hx, ih h.2]
    rfl

theorem ReadSlice_found (s : Bytes) (h : 0x0A ∈ s) : (ReadSlice s 0x0A).2.2 = true := by
  induction s with
  | nil => simp at h
  | cons x rest ih =>
    by_cases hx : x = 0x0A
    · simp [ReadSlice, hx]
    · simp only [ReadSlice, hx, if_false]
      rcases List.mem_cons.mp h with e | e
      · exact absurd e.symm hx
      · exact ih e

theorem ReadSlice_ne_nil (s : Bytes) (h : s ≠ []) : (ReadSlice s 0x0A).1 ≠ [] := by
  cases s with
  | nil => exact absurd rfl h
  | cons x rest =>
    by_cases hx : x = 0x0A
    · simp [ReadSlice, hx]
    · simp [ReadSlice, hx]

theorem ReadSlice_append_eq (s : Bytes) :
    (ReadSlice s 0x0A).1 ++ (ReadSlice s 0x0A).2.1 = s := by
  induction s with
  | nil => rfl
  | cons x rest ih =>
    by_cases hx : x = 0x0A
    · simp [ReadSlice, hx]
    · simp [ReadSlice, hx, ih]

theorem DecodeRune_quote (t : Bytes) : (DecodeRune (0x22 :: t)).1 = 0x22 := by
  have h : first (0x22 : UInt8) = 0xF0 := by decide
  simp [DecodeRune, h]

theorem DecodeRune_comma (t : Bytes) : (DecodeRune (0x2C :: t)).1 = 0x2C := by
  have h : first (0x2C : UInt8) = 0xF0 := by decide
  simp [DecodeRune, h]

theorem DecodeRune_newline (t : Bytes) : (DecodeRune (0x0A :: t)).1 = 0x0A := by
  have h : first (0x0A : UInt8) = 0xF0 := by decide
  simp [DecodeRune, h]

theorem parseAt_unfold (cur : Option Bytes) (line rest : Bytes) (fields : List Bytes) :
    ∃ n, line.length + rest.length ≤ n ∧
      readRecord.parseAt cur line rest fields = readRecord.parse (n + 1) cur line rest fields :=
  ⟨_, le_refl _, rfl⟩

theorem parseAt_quote_quote (cur line rest : Bytes) (fields : List Bytes) :
    readRecord.parseAt (some cur) (0x22 :: 0x22 :: line) rest fields =
      readRecord.parseAt (some (cur ++ [0x22])) line rest fields := by
  obtain ⟨n, hn, e⟩ := parseAt_unfold (some cur) (0x22 :: 0x22 :: line) rest fields
  simp only [List.length_cons] at hn
  rw [e]
  simp only [readRecord.parse, IndexByte, if_true, List.take_zero, List.append_nil,
    List.drop_succ_cons, List.drop_zero, DecodeRune_quote]
  exact parse_canon _ _ _ _ _ (by omega)

theorem parseAt_quote_comma (cur line rest : Bytes) (fields : List Bytes) :
    readRecord.parseAt (some cur) (0x22 :: 0x2C :: line) rest fields =
      readRecord.parseAt none line rest (fields ++ [cur]) := by
  obtain ⟨n, hn, e⟩ := parseAt_unfold (some cur) (0x22 :: 0x2C :: line) rest fields
  simp only [List.length_cons] at hn
  rw [e]
  simp only [readRecord.parse, IndexByte, if_true, List.take_zero, List.append_nil,
    List.drop_succ_cons, List.drop_zero, DecodeRune_comma]
  exact parse_canon _ _ _ _ _ (by omega)

theorem parseAt_quote_newline (cur rest : Bytes) (fields : List Bytes) :
    readRecord.parseAt (some cur) [0x22, 0x0A] rest fields = (fields ++ [cur], none, rest) := by
  obtain ⟨n, hn, e⟩ := parseAt_unfold (some cur) [0x22, 0x0A] rest fields
  rw [e]
  simp only [readRecord.parse, IndexByte, if_true, List.take_zero, List.append_nil,
    List.drop_succ_cons, List.drop_zero, DecodeRune_newline]
  rw [if_neg (by decide), if_neg (by decide), if_pos (by decide)]

theorem parseAt_open_quote (line rest : Bytes) (fields : List Bytes) :
    readRecord.parseAt none (0x22 :: line) rest fields =
      readRecord.parseAt (some []) line rest fields := by
  obtain ⟨n, hn, e⟩ := parseAt_unfold none (0x22 :: line) rest fields
  simp only [List.length_cons] at hn
  rw [e]
  simp only [readRecord.parse]
  rw [if_neg (by simp)]
  simp only [List.drop_succ_cons, List.drop_zero]
  exact parse_canon _ _ _ _ _ (by omega)

theorem parseAt_absorb (c : UInt8) (cur line rest : Bytes) (fields : List Bytes)
    (hc : c ≠ 0x22) (hl : line ≠ []) :
    readRecord.parseAt (some cur) (c :: line) rest fields =
      readRecord.parseAt (some (cur ++ [c])) line rest fields := by
  obtain ⟨n, hn, e⟩ := parseAt_unfold (some cur) (c :: line) rest fields
  obtain ⟨m, hm, e1⟩ := parseAt_unfold (some (cur ++ [c])) line rest fields
  simp only [List.length_cons] at hn
  have hlen : 0 < line.length := List.length_pos.mpr hl
  rw [e, e1]
  simp only [readRecord.parse, IndexByte, if_neg hc]
  cases hi : IndexByte line 0x22 with
  | none =>
    simp only [Option.map_none', List.length_cons, Nat.succ_pos, if_true, hlen, gt_iff_lt,
      Nat.zero_lt_succ]
    have := (readLine_length rest).1
    rw [parse_canon n _ _ _ _ (by omega), parse_canon m _ _ _ _ (by omega)]
    simp
  | some i =>
    have hlt := IndexByte_lt line _ i hi
    simp only [Option.map_some', List.take_succ_cons, List.drop_succ_cons]
    have ec : cur ++ c :: List.take i line = cur ++ [c] ++ List.take i line := by simp
    rw [ec]
    split_ifs with h1 h2 h3
    · rw [parse_canon n _ _ _ _ (by simp only [List.length_drop]; omega),
        parse_canon m _ _ _ _ (by simp only [List.length_drop]; omega)]
    · rw [parse_canon n _ _ _ _ (by simp only [List.length_drop]; omega),
        parse_canon m _ _ _ _ (by simp only [List.length_drop]; omega)]
    · rfl
    · rfl

theorem parseAt_end_of_line (cur line rest : Bytes) (fields : List Bytes)
    (hq : (0x22 : UInt8) ∉ line) (hl : line ≠ []) :
    readRecord.parseAt (some cur) line rest fields =
      readRecord.parseAt (some (cur ++ line)) (readLine rest).1 (readLine rest).2.2 fields := by
  obtain ⟨n, hn, e⟩ := parseAt_unfold (some cur) line rest fields
  have hlen : 0 < line.length := List.length_pos.mpr hl
  rw [e]
  simp only [readRecord.parse, IndexByte_not_mem line _ hq, gt_iff_lt, hlen, if_true]
  have := (readLine_length rest).1
  exact parse_canon n _ _ _ _ (by omega)

theorem any_special_false (f : Bytes)
    (hf : f.any (fun c => c = 0x0A || c = 0x0D || c = 0x22 || c = 0x2C) = false) :
    ∀ x ∈ f, x ≠ 0x0A ∧ x ≠ 0x0D ∧ x ≠ 0x22 ∧ x ≠ 0x2C := by
  intro x hx
  have := List.any_eq_false.mp hf x hx
  simpa [not_or, and_assoc] using this

theorem parseAt_unquoted_comma (f line rest : Bytes) (fields : List Bytes)
    (hf : f.any (fun c => c = 0x0A || c = 0x0D || c = 0x22 || c = 0x2C) = false) :
    readRecord.parseAt none (f ++ 0x2C :: line) rest fields =
      readRecord.parseAt none line rest (fields ++ [f]) := by
  obtain ⟨n, hn, e⟩ := parseAt_unfold none (f ++ 0x2C :: line) rest fields
  simp only [List.length_append, List.length_cons] at hn
  have hmem := any_special_false f hf
  have hq : (0x22 : UInt8) ∉ f := fun h => (hmem _ h).2.2.1 rfl
  have hcm : (0x2C : UInt8) ∉ f := fun h => (hmem _ h).2.2.2 rfl
  have h0 : (f ++ 0x2C :: line).getD 0 0 ≠ 0x22 := by
    cases f with
    | nil => simp
    | cons x t => simpa using (hmem x (List.mem_cons_self _ _)).2.2.1
  rw [e]
  simp only [readRecord.parse, if_pos (Or.inr h0), IndexByte_append_cons f line _ hcm,
    List.take_left', IndexByte_not_mem f _ hq, Option.isSome_none, Bool.false_eq_true, if_false]
  rw [show List.drop (f.length + 1) (f ++ 0x2C :: line) = line by
    rw [List.drop_append_eq_append_drop]; simp]
  exact parse_canon n _ _ _ _ (by omega)

theorem parseAt_unquoted_newline (f rest : Bytes) (fields : List Bytes)
    (hf : f.any (fun c => c = 0x0A || c = 0x0D || c = 0x22 || c = 0x2C) = false) :
    readRecord.parseAt none (f ++ [0x0A]) rest fields = (fields ++ [f], none, rest) := by
  obtain ⟨n, hn, e⟩ := parseAt_unfold none (f ++ [0x0A]) rest fields
  have hmem := any_special_false f hf
  have hq : (0x22 : UInt8) ∉ f := fun h => (hmem _ h).2.2.1 rfl
  have hcm : (0x2C : UInt8) ∉ f ++ [0x0A] := by
    intro h
    rcases List.mem_append.mp h with h | h
    · exact (hmem _ h).2.2.2 rfl
    · simp at h
  have h0 : (f ++ [0x0A]).getD 0 0 ≠ 0x22 := by
    cases f with
    | nil => simp
    | cons x t => simpa using (hmem x (List.mem_cons_self _ _)).2.2.1
  have hnl : lengthNL (f ++ [0x0A]) = 1 := by
    simp [lengthNL, List.getD_eq_getElem?_getD]
  rw [e]
  simp only [readRecord.parse, if_pos (Or.inr h0), IndexByte_not_mem _ _ hcm, hnl,
    List.length_append, List.length_singleton, Nat.add_sub_cancel, List.take_left',
    IndexByte_not_mem f _ hq, Option.isSome_none, Bool.false_eq_true, if_false]

theorem noCRLF_not_ends (l : Bytes) (h : noCRLF l = true) :
    ¬ (l.length ≥ 2 ∧ l.getD (l.length - 2) 0 = 0x0D ∧ l.getD (l.length - 1) 0 = 0x0A) := by
  rintro ⟨h2, ha, hb⟩
  rw [noCRLF_iff] at h
  have hs : List.Chain' (fun a b : UInt8 => ¬ (a = 0x0D ∧ b = 0x0A)) (l.drop (l.length - 2)) :=
    h.suffix (List.drop_suffix _ _)
  have hlen : (l.drop (l.length - 2)).length = 2 := by rw [List.length_drop]; omega
  have g0 := getD_drop l (l.length - 2) 0
  have g1 := getD_drop l (l.length - 2) 1
  rw [show l.length - 2 + 0 = l.length - 2 by omega, ha] at g0
  rw [show l.length - 2 + 1 = l.length - 1 by omega, hb] at g1
  generalize l.drop (l.length - 2) = d at hs hlen g0 g1
  match d, hlen with
  | [x, y], _ =>
    simp only [List.getD_cons_zero, List.getD_cons_succ] at g0 g1
    rw [List.chain'_cons] at hs
    exact hs.1 ⟨g0, g1⟩

theorem noCRLF_append_right (a b : Bytes) (h : noCRLF (a ++ b) = true) : noCRLF b = true := by
  rw [noCRLF_iff] at h ⊢
  exact h.right_of_append

theorem noCRLF_append_left (a b : Bytes) (h : noCRLF (a ++ b) = true) : noCRLF a = true := by
  rw [noCRLF_iff] at h ⊢
  exact h.left_of_append

theorem noCRLF_tail (a : UInt8) (s : Bytes) (h : noCRLF (a :: s) = true) : noCRLF s = true :=
  noCRLF_append_right [a] s h

/-- On input that holds a newline and no carriage return before a line feed,
`readLine` returns the bytes up to and including the first newline. -/
theorem readLine_eq (s : Bytes) (h1 : (0x0A : UInt8) ∈ s) (h2 : noCRLF s = true) :
    readLine s = ((ReadSlice s 0x0A).1, false, (ReadSlice s 0x0A).2.1) := by
  have hf := ReadSlice_found s h1
  have hl : noCRLF (ReadSlice s 0x0A).1 = true := by
    apply noCRLF_append_left _ (ReadSlice s 0x0A).2.1
    rw [ReadSlice_append_eq]
    exact h2
  have hn := noCRLF_not_ends _ hl
  unfold readLine
  simp only [hf, Bool.not_true, Bool.false_eq_true, and_false, if_false, if_neg hn]

theorem parseS_absorb (c : UInt8) (cur s : Bytes) (fields : List Bytes)
    (hc : c ≠ 0x22) (hn : c ≠ 0x0A) (hs : s ≠ []) :
    readRecord.parseS (some cur) (c :: s) fields =
      readRecord.parseS (some (cur ++ [c])) s fields := by
  simp only [readRecord.parseS, ReadSlice_cons_ne c s hn]
  exact parseAt_absorb c cur _ _ fields hc (ReadSlice_ne_nil s hs)

theorem parseS_newline (cur s : Bytes) (fields : List Bytes)
    (h1 : (0x0A : UInt8) ∈ s) (h2 : noCRLF s = true) :
    readRecord.parseS (some cur) (0x0A :: s) fields =
      readRecord.parseS (some (cur ++ [0x0A])) s fields := by
  simp only [readRecord.parseS, ReadSlice_cons_nl]
  rw [parseAt_end_of_line cur [0x0A] s fields (by decide) (by simp), readLine_eq s h1 h2]

theorem parseS_quote_quote (cur s : Bytes) (fields : List Bytes) :
    readRecord.parseS (some cur) (0x22 :: 0x22 :: s) fields =
      readRecord.parseS (some (cur ++ [0x22])) s fields := by
  simp only [readRecord.parseS, ReadSlice_cons_ne 0x22 _ (by decide)]
  exact parseAt_quote_quote cur _ _ fields

theorem parseS_quote_comma (cur s : Bytes) (fields : List Bytes) :
    readRecord.parseS (some cur) (0x22 :: 0x2C :: s) fields =
      readRecord.parseS none s (fields ++ [cur]) := by
  simp only [readRecord.parseS, ReadSlice_cons_ne 0x22 _ (by decide),
    ReadSlice_cons_ne 0x2C _ (by decide)]
  exact parseAt_quote_comma cur _ _ fields

theorem parseS_quote_newline (cur s : Bytes) (fields : List Bytes) :
    readRecord.parseS (some cur) (0x22 :: 0x0A :: s) fields = (fields ++ [cur], none, s) := by
  simp only [readRecord.parseS, ReadSlice_cons_ne 0x22 _ (by decide), ReadSlice_cons_nl]
  exact parseAt_quote_newline cur _ fields

theorem parseS_open_quote (s : Bytes) (fields : List Bytes) :
    readRecord.parseS none (0x22 :: s) fields = readRecord.parseS (some []) s fields := by
  simp only [readRecord.parseS, ReadSlice_cons_ne 0x22 _ (by decide)]
  exact parseAt_open_quote _ _ fields

theorem parseS_unquoted_comma (f s : Bytes) (fields : List Bytes)
    (hf : f.any (fun c => c = 0x0A || c = 0x0D || c = 0x22 || c = 0x2C) = false) :
    readRecord.parseS none (f ++ 0x2C :: s) fields =
      readRecord.parseS none s (fields ++ [f]) := by
  have hnl : (0x0A : UInt8) ∉ f := fun h => (any_special_false f hf _ h).1 rfl
  simp only [readRecord.parseS, ReadSlice_append f _ hnl, ReadSlice_cons_ne 0x2C _ (by decide)]
  exact parseAt_unquoted_comma f _ _ fields hf

theorem parseS_unquoted_newline (f s : Bytes) (fields : List Bytes)
    (hf : f.any (fun c => c = 0x0A || c = 0x0D || c = 0x22 || c = 0x2C) = false) :
    readRecord.parseS none (f ++ 0x0A :: s) fields = (fields ++ [f], none, s) := by
  have hnl : (0x0A : UInt8) ∉ f := fun h => (any_special_false f hf _ h).1 rfl
  simp only [readRecord.parseS, ReadSlice_append f _ hnl, ReadSlice_cons_nl]
  exact parseAt_unquoted_newline f _ fields hf

/-- The inner loop of a quoted field reads the text that the writer wrote for
the field `f` back as `f`. -/
theorem parseS_writeQuoted (f : Bytes) :
    ∀ (cur t : Bytes) (fields : List Bytes), (0x0A : UInt8) ∈ t →
      noCRLF (writeQuoted f ++ 0x22 :: t) = true →
      readRecord.parseS (some cur) (writeQuoted f ++ 0x22 :: t) fields =
        readRecord.parseS (some (cur ++ f)) (0x22 :: t) fields := by
  induction f with
  | nil => intro cur t fields _ _; simp [writeQuoted]
  | cons c rest ih =>
    intro cur t fields ht hn
    have e : cur ++ c :: rest = (cur ++ [c]) ++ rest := by simp
    by_cases hq : c = 0x22
    · subst hq
      simp only [writeQuoted, if_true, List.cons_append, List.nil_append] at hn ⊢
      rw [parseS_quote_quote, e]
      exact ih _ t fields ht (noCRLF_tail _ _ (noCRLF_tail _ _ hn))
    · simp only [writeQuoted, if_neg hq, List.cons_append, List.nil_append] at hn ⊢
      have hn1 := noCRLF_tail _ _ hn
      by_cases hnl : c = 0x0A
      · subst hnl
        rw [parseS_newline _ _ _ (by simp [ht]) hn1, e]
        exact ih _ t fields ht hn1
      · rw [parseS_absorb c _ _ _ hq hnl (by simp), e]
        exact ih _ t fields ht hn1

theorem fieldNeedsQuotes_false (f : Bytes) (h : fieldNeedsQuotes f = false) :
    f.any (fun c => c = 0x0A || c = 0x0D || c = 0x22 || c = 0x2C) = false := by
  unfold fieldNeedsQuotes at h
  by_cases h0 : f = []
  · subst h0; rfl
  · rw [if_neg h0] at h
    by_cases h1 : f = [0x5C, 0x2E]
    · rw [if_pos h1] at h; exact absurd h (by decide)
    · rw [if_neg h1] at h
      cases ha : f.any (fun c => c = 0x0A || c = 0x0D || c = 0x22 || c = 0x2C) with
      | false => rfl
      | true => rw [ha, if_pos rfl] at h; exact absurd h (by decide)

theorem writeField_cases (f : Bytes) :
    (writeField f = f ∧ f.any (fun c => c = 0x0A || c = 0x0D || c = 0x22 || c = 0x2C) = false) ∨
      writeField f = 0x22 :: (writeQuoted f ++ [0x22]) := by
  unfold writeField
  cases h : fieldNeedsQuotes f with
  | false => exact Or.inl ⟨by simp, fieldNeedsQuotes_false f h⟩
  | true => exact Or.inr (by simp)

/-- A field that the writer wrote, followed by a comma, is read back. -/
theorem parseS_writeField_comma (f s : Bytes) (fields : List Bytes) (hs : (0x0A : UInt8) ∈ s)
    (hn : noCRLF (writeField f ++ 0x2C :: s) = true) :
    readRecord.parseS none (writeField f ++ 0x2C :: s) fields =
      readRecord.parseS none s (fields ++ [f]) := by
  rcases writeField_cases f with ⟨e, hf⟩ | e
  · rw [e]; exact parseS_unquoted_comma f s fields hf
  · rw [e] at hn ⊢
    simp only [List.cons_append, List.append_assoc, List.singleton_append,
      List.nil_append] at hn ⊢
    rw [parseS_open_quote, parseS_writeQuoted f [] _ fields (by simp [hs]) (noCRLF_tail _ _ hn),
      List.nil_append, parseS_quote_comma]

/-- A field that the writer wrote, followed by the newline that ends the
record, is read back as the last field of the record. -/
theorem parseS_writeField_newline (f s : Bytes) (fields : List Bytes)
    (hn : noCRLF (writeField f ++ 0x0A :: s) = true) :
    readRecord.parseS none (writeField f ++ 0x0A :: s) fields = (fields ++ [f], none, s) := by
  rcases writeField_cases f with ⟨e, hf⟩ | e
  · rw [e]; exact parseS_unquoted_newline f s fields hf
  · rw [e] at hn ⊢
    simp only [List.cons_append, List.append_assoc, List.singleton_append,
      List.nil_append] at hn ⊢
    rw [parseS_open_quote, parseS_writeQuoted f [] _ fields (by simp) (noCRLF_tail _ _ hn),
      List.nil_append, parseS_quote_newline]

theorem writeFields_succ_cons (k : Nat) (g : Bytes) (gs : List Bytes) :
    writeFields (k + 1) (g :: gs) = 0x2C :: (writeField g ++ writeFields (k + 2) gs) := by
  simp [writeFields]

theorem writeFields_zero_cons (f : Bytes) (fs : List Bytes) :
    writeFields 0 (f :: fs) = writeField f ++ writeFields 1 fs := by
  simp [writeFields]

/-- The fields of a record that the writer wrote are read back. -/
theorem parseS_row (fs : List Bytes) :
    ∀ (f : Bytes) (k : Nat) (s : Bytes) (fields : List Bytes),
      noCRLF (writeField f ++ (writeFields (k + 1) fs ++ 0x0A :: s)) = true →
      readRecord.parseS none (writeField f ++ (writeFields (k + 1) fs ++ 0x0A :: s)) fields =
        (fields ++ f :: fs, none, s) := by
  induction fs with
  | nil =>
    intro f k s fields hn
    simp only [writeFields, List.nil_append] at hn ⊢
    exact parseS_writeField_newline f s fields hn
  | cons g gs ih =>
    intro f k s fields hn
    rw [writeFields_succ_cons] at hn ⊢
    simp only [List.cons_append, List.append_assoc] at hn ⊢
    rw [parseS_writeField_comma f _ fields (by simp) hn,
      ih g (k + 1) s _ (noCRLF_tail _ _ (noCRLF_append_right _ _ hn))]
    simp

theorem writeField_head (f : Bytes) (x : UInt8) (t : Bytes) (h : writeField f = x :: t) :
    x ≠ 0x0A := by
  rcases writeField_cases f with ⟨e, hf⟩ | e
  · rw [e] at h
    exact (any_special_false f hf x (h ▸ List.mem_cons_self _ _)).1
  · rw [e] at h
    simp only [List.cons.injEq] at h
    rw [← h.1]
    decide

theorem writeFields_head (f : Bytes) (fs : List Bytes) (x : UInt8) (t : Bytes)
    (h : writeFields 0 (f :: fs) = x :: t) : x ≠ 0x0A := by
  rw [writeFields_zero_cons] at h
  cases hw : writeField f with
  | cons y u =>
    rw [hw] at h
    simp only [List.cons_append, List.cons.injEq] at h
    rw [← h.1]
    exact writeField_head f y u hw
  | nil =>
    rw [hw, List.nil_append] at h
    cases fs with
    | nil => simp [writeFields] at h
    | cons g gs =>
      rw [writeFields_succ_cons] at h
      simp only [List.cons.injEq] at h
      rw [← h.1]
      decide

theorem readRecord_skip_eq (n : Nat) (x : UInt8) (t : Bytes) (hx : x ≠ 0x0A)
    (h1 : (0x0A : UInt8) ∈ t) (h2 : noCRLF (x :: t) = true) :
    readRecord.skip (n + 1) (x :: t) =
      ((ReadSlice (x :: t) 0x0A).1, false, (ReadSlice (x :: t) 0x0A).2.1) := by
  have hne := ReadSlice_ne_nil t (List.ne_nil_of_mem h1)
  have hlen : 0 < (ReadSlice t 0x0A).1.length := List.length_pos.mpr hne
  have hnl : lengthNL (x :: (ReadSlice t 0x0A).1) ≤ 1 := by
    unfold lengthNL
    split_ifs <;> omega
  simp only [readRecord.skip, readLine_eq (x :: t) (List.mem_cons_of_mem _ h1) h2]
  rw [if_neg]
  rw [ReadSlice_cons_ne x t hx]
  simp only [List.length_cons, true_and]
  omega

/-- A record that the writer wrote is read back by `readRecord`, when its text
is not empty and holds no carriage return before a line feed, and the reader
expects no other number of fields. -/
theorem readRecord_written (f : Bytes) (fs : List Bytes) (s : Bytes) (fpr : Int)
    (hb : writeFields 0 (f :: fs) ≠ [])
    (hn : noCRLF (writeFields 0 (f :: fs) ++ 0x0A :: s) = true)
    (hfpr : fpr = 0 ∨ fpr = ((f :: fs).length : Int)) :
    readRecord ⟨writeFields 0 (f :: fs) ++ 0x0A :: s, fpr⟩ =
      (f :: fs, none, ⟨s, ((f :: fs).length : Int)⟩) := by
  obtain ⟨x, t, hxt⟩ := List.exists_cons_of_ne_nil hb
  have hx := writeFields_head f fs x t hxt
  have hrow := parseS_row fs f 0 s [] (by
    rw [← List.append_assoc, ← writeFields_zero_cons]; exact hn)
  rw [← List.append_assoc, ← writeFields_zero_cons] at hrow
  have hskip := readRecord_skip_eq (writeFields 0 (f :: fs) ++ 0x0A :: s).length x
    (t ++ 0x0A :: s) hx (by simp) (by rw [← List.cons_append, ← hxt]; exact hn)
  rw [← List.cons_append, ← hxt] at hskip
  have hp : readRecord.parse
      ((ReadSlice (writeFields 0 (f :: fs) ++ 0x0A :: s) 0x0A).1.length +
        (ReadSlice (writeFields 0 (f :: fs) ++ 0x0A :: s) 0x0A).2.1.length + 1) none
      (ReadSlice (writeFields 0 (f :: fs) ++ 0x0A :: s) 0x0A).1
      (ReadSlice (writeFields 0 (f :: fs) ++ 0x0A :: s) 0x0A).2.1 [] = (f :: fs, none, s) := by
    exact hrow
  unfold readRecord
  simp only [hskip, hp, Bool.false_eq_true, if_false, Option.map_none', List.nil_append]
  rcases hfpr with h0 | h1
  · subst h0
    simp
  · subst h1
    simp only [ne_eq, not_true_eq_false, false_and, if_false]
    rw [if_pos (by simp only [List.length_cons]; omega)]

theorem readRecord_nil (fpr : Int) : readRecord ⟨[], fpr⟩ = ([], some .EOF, ⟨[], fpr⟩) := by
  simp [readRecord, readRecord.skip, readLine, ReadSlice]

theorem noCRLF_nl_cons (s : Bytes) (h : noCRLF s = true) : noCRLF (0x0A :: s) = true := by
  rw [noCRLF_iff] at h ⊢
  cases s with
  | nil => simp
  | cons y t =>
    rw [List.chain'_cons]
    exact ⟨fun hc => absurd hc.1 (by decide), h⟩

/-- The loop of `ReadAll` reads the text of written records back: records of
one length `n`, none of which is written as an empty line. -/
theorem ReadAll_loop_csvText (n : Nat) (rows : List (List Bytes)) :
    ∀ (records : List (List Bytes)) (fpr : Int) (fuel : Nat),
      (csvText rows).length < fuel → (fpr = 0 ∨ fpr = (n : Int)) →
      (∀ r ∈ rows, r.length = n ∧ writeFields 0 r ≠ []) → noCRLF (csvText rows) = true →
      ReadAll.loop fuel ⟨csvText rows, fpr⟩ records = .ok (records ++ rows) := by
  induction rows with
  | nil =>
    intro records fpr fuel hf _ _ _
    obtain ⟨k, rfl⟩ : ∃ k, fuel = k + 1 := ⟨fuel - 1, by omega⟩
    simp only [csvText, ReadAll.loop, readRecord_nil, List.append_nil]
  | cons r rest ih =>
    intro records fpr fuel hf hfpr hrows hn
    obtain ⟨k, rfl⟩ : ∃ k, fuel = k + 1 := ⟨fuel - 1, by omega⟩
    obtain ⟨hlen, hb⟩ := hrows r (List.mem_cons_self _ _)
    cases r with
    | nil => simp [writeFields] at hb
    | cons f fs =>
      simp only [csvText] at hn hf ⊢
      have hr := readRecord_written f fs (csvText rest) fpr hb hn (by rw [hlen]; exact hfpr)
      simp only [ReadAll.loop, hr]
      rw [ih (records ++ [f :: fs]) _ k
        (by simp only [List.length_append, List.length_cons] at hf; omega)
        (Or.inr (by rw [hlen]))
        (fun r1 h1 => hrows r1 (List.mem_cons_of_mem _ h1))
        (noCRLF_tail _ _ (noCRLF_append_right _ _ hn))]
      simp

theorem WriteAll_eq (rows : List (List Bytes)) :
    ∀ w : Bytes, Writer.WriteAll w rows = w ++ csvText rows := by
  induction rows with
  | nil => intro w; simp [Writer.WriteAll, csvText]
  | cons r rest ih => intro w; simp [Writer.WriteAll, Writer.Write, csvText, ih]

theorem noCRLF_append (a b : Bytes) (ha : noCRLF a = true) (hb : noCRLF b = true)
    (hl : ∀ y ∈ a.getLast?, y ≠ 0x0D) : noCRLF (a ++ b) = true := by
  rw [noCRLF_iff] at ha hb ⊢
  exact List.Chain'.append ha hb (fun x hx y _ hc => hl x hx hc.1)

theorem getLast_append_ne (a b : Bytes) (ha : ∀ y ∈ a.getLast?, y ≠ 0x0D)
    (hb : ∀ y ∈ b.getLast?, y ≠ 0x0D) : ∀ y ∈ (a ++ b).getLast?, y ≠ 0x0D := by
  intro y hy
  rw [List.getLast?_append] at hy
  cases hbl : b.getLast? with
  | none =>
    rw [hbl] at hy
    exact ha y (by simpa using hy)
  | some z =>
    rw [hbl] at hy
    change some z = some y at hy
    exact hb y (by rw [hbl]; exact hy)

theorem writeQuoted_head (f : Bytes) (h : (writeQuoted f).head? = some 0x0A) :
    f.head? = some 0x0A := by
  cases f with
  | nil => simp [writeQuoted] at h
  | cons c rest =>
    by_cases hq : c = 0x22
    · subst hq
      simp [writeQuoted] at h
    · simpa [writeQuoted, hq] using h

theorem writeQuoted_noCRLF (f : Bytes) (h : noCRLF f = true) : noCRLF (writeQuoted f) = true := by
  induction f with
  | nil => rfl
  | cons c rest ih =>
    have ht := ih (noCRLF_tail _ _ h)
    by_cases hq : c = 0x22
    · subst hq
      simp only [writeQuoted, if_true]
      exact noCRLF_append _ _ (by decide) ht (by simp)
    · simp only [writeQuoted, if_neg hq, List.singleton_append]
      rw [noCRLF_iff] at h ht ⊢
      rw [List.chain'_cons']
      refine ⟨?_, ht⟩
      intro y hy hc
      have hr := writeQuoted_head rest (by rw [Option.mem_def.mp hy, hc.2])
      cases rest with
      | nil => simp at hr
      | cons z u =>
        simp only [List.head?_cons, Option.some.injEq] at hr
        rw [List.chain'_cons] at h
        exact h.1 ⟨hc.1, hr⟩

theorem writeField_noCRLF (f : Bytes) (h : noCRLF f = true) :
    noCRLF (writeField f) = true ∧ ∀ y ∈ (writeField f).getLast?, y ≠ 0x0D := by
  rcases writeField_cases f with ⟨e, hf⟩ | e
  · rw [e]
    refine ⟨h, fun y hy => ?_⟩
    exact (any_special_false f hf y (List.mem_of_mem_getLast? hy)).2.1
  · rw [e]
    constructor
    · rw [← List.singleton_append]
      refine noCRLF_append _ _ (by decide) ?_ (by simp)
      have h1 := writeQuoted_noCRLF f h
      rw [noCRLF_iff] at h1 ⊢
      exact List.Chain'.append h1 (by simp) (fun x _ y hy hc => by
        simp only [List.head?_cons, Option.mem_def, Option.some.injEq] at hy
        rw [← hy] at hc
        exact absurd hc.2 (by decide))
    · intro y hy
      rw [← List.cons_append, List.getLast?_append] at hy
      rw [List.getLast?_singleton] at hy
      change some 0x22 = some y at hy
      rw [← Option.some.inj hy]
      decide

theorem writeFields_noCRLF (fs : List Bytes) :
    ∀ k : Nat, (∀ f ∈ fs, noCRLF f = true) →
      noCRLF (writeFields k fs) = true ∧ ∀ y ∈ (writeFields k fs).getLast?, y ≠ 0x0D := by
  induction fs with
  | nil => intro k _; simp [writeFields, noCRLF]
  | cons f rest ih =>
    intro k h
    obtain ⟨h1, h2⟩ := writeField_noCRLF f (h f (List.mem_cons_self _ _))
    obtain ⟨h3, h4⟩ := ih (k + 1) (fun g hg => h g (List.mem_cons_of_mem _ hg))
    have hc : noCRLF (if k > 0 then [(0x2C : UInt8)] else []) = true ∧
        ∀ y ∈ (if k > 0 then [(0x2C : UInt8)] else []).getLast?, y ≠ 0x0D := by
      split_ifs
      · refine ⟨by decide, fun y hy => ?_⟩
        simp only [List.getLast?_singleton, Option.mem_def, Option.some.injEq] at hy
        rw [← hy]; decide
      · exact ⟨by decide, fun y hy => by simp at hy⟩
    simp only [writeFields]
    refine ⟨noCRLF_append _ _ (noCRLF_append _ _ hc.1 h1 hc.2) h3
      (getLast_append_ne _ _ hc.2 h2), getLast_append_ne _ _ (getLast_append_ne _ _ hc.2 h2) h4⟩

theorem csvText_noCRLF (rows : List (List Bytes)) (h : ∀ r ∈ rows, ∀ f ∈ r, noCRLF f = true) :
    noCRLF (csvText rows) = true := by
  induction rows with
  | nil => rfl
  | cons r rest ih =>
    obtain ⟨h1, h2⟩ := writeFields_noCRLF r 0 (h r (List.mem_cons_self _ _))
    simp only [csvText]
    exact noCRLF_append _ _ h1
      (noCRLF_nl_cons _ (ih (fun r1 hr1 => h r1 (List.mem_cons_of_mem _ hr1)))) h2

/-- The reader reads back what the writer wrote: records of one length `n`,
none written as an empty line, no field with a carriage return before a line
feed. -/
theorem ReadAll_WriteAll (n : Nat) (rows : List (List Bytes))
    (hlen : ∀ r ∈ rows, r.length = n ∧ writeFields 0 r ≠ [])
    (hcr : ∀ r ∈ rows, ∀ f ∈ r, noCRLF f = true) :
    ReadAll (NewReader (Writer.WriteAll [] rows)) = .ok rows := by
  rw [WriteAll_eq, List.nil_append]
  unfold ReadAll NewReader
  rw [ReadAll_loop_csvText n rows [] 0 _ (by simp) (Or.inl rfl) hlen (csvText_noCRLF rows hcr)]
  simp

/-! ### Conversion of a document to its own format -/

theorem csvReadable_spec (data : Data) (h : csvReadable data = true) (m : GoMap)
    (hm : some m ∈ data) (k s : Bytes) (hk : (k, Value.str s) ∈ m) :
    noCRLF k = true ∧ noCRLF s = true ∧ (m.length = 1 → k ≠ [] ∧ s ≠ []) := by
  unfold csvReadable at h
  have h1 := List.all_eq_true.mp h _ hm
  simp only [] at h1
  have h2 := List.all_eq_true.mp h1 _ hk
  simp only [Bool.and_eq_true, decide_eq_true_eq] at h2
  exact ⟨h2.1.1, h2.1.2, h2.2⟩

theorem mapIndex_find_mem (m : GoMap) (k : Bytes) (v : Value)
    (h : mapIndex.find m k = some v) : (k, v) ∈ m := by
  induction m with
  | nil => simp [mapIndex.find] at h
  | cons e rest ih =>
    obtain ⟨a, b⟩ := e
    by_cases ha : a = k
    · simp only [mapIndex.find, ha, if_true, Option.some.injEq] at h
      rw [ha, h]
      exact List.mem_cons_self _ _
    · simp only [mapIndex.find, ha, if_false] at h
      exact List.mem_cons_of_mem _ (ih h)

theorem writeField_ne_nil (f : Bytes) (h : f ≠ []) : writeField f ≠ [] := by
  rcases writeField_cases f with ⟨e, _⟩ | e
  · rw [e]; exact h
  · rw [e]; simp

theorem writeFields_ne_nil (r : List Bytes) (h : 2 ≤ r.length ∨ ∃ f, r = [f] ∧ f ≠ []) :
    writeFields 0 r ≠ [] := by
  rcases h with h | ⟨f, rfl, hf⟩
  · match r, h with
    | a :: b :: t, _ =>
      rw [writeFields_zero_cons, writeFields_succ_cons]
      simp
  · rw [writeFields_zero_cons]
    simp [writeFields, writeField_ne_nil f hf]

theorem foldl_dedup_ne_nil (l : List Bytes) :
    ∀ ks : List Bytes, ks ≠ [] →
      l.foldl (fun ks k => if k ∈ ks then ks else ks ++ [k]) ks ≠ [] := by
  induction l with
  | nil => intro ks h; exact h
  | cons a t ih =>
    intro ks h
    simp only [List.foldl_cons]
    apply ih
    split_ifs
    · exact h
    · simp

theorem csvItem_ne_nil (h r : List Bytes) (hl : r.length = h.length) (hh : h ≠ []) :
    csvItem h r ≠ [] := by
  intro e
  have hk := csvItem_keys h r hl
  rw [e] at hk
  obtain ⟨a, t, rfl⟩ := List.exists_cons_of_ne_nil hh
  simp only [List.map_nil, List.foldl_cons, List.not_mem_nil, if_false, List.nil_append] at hk
  exact foldl_dedup_ne_nil t [a] (by simp) hk.symm

/-- The rows that the csv encode case writes for the records of a parsed CSV
document that satisfy `csvReadable`: all have the length of the header row, none
is written as an empty line, and no field holds a carriage return before a line
feed. -/
theorem csv_written_rows (lib : StdLib) (ρ : RangeOrder) (h : List Bytes)
    (rows : List (List Bytes)) (hne : rows ≠ []) (hh : h ≠ [])
    (hu : ∀ r ∈ rows, r.length = h.length)
    (hr : csvReadable (rows.map (fun r => some (csvItem h r))) = true) :
    (∀ r ∈ csvHeaders ρ (rows.map (fun r => some (csvItem h r))) ::
        (rows.map (fun r => some (csvItem h r))).map
          (csvRow lib (csvHeaders ρ (rows.map (fun r => some (csvItem h r))))),
      r.length = (csvHeaders ρ (rows.map (fun r => some (csvItem h r)))).length ∧
        writeFields 0 r ≠ []) ∧
    (∀ r ∈ csvHeaders ρ (rows.map (fun r => some (csvItem h r))) ::
        (rows.map (fun r => some (csvItem h r))).map
          (csvRow lib (csvHeaders ρ (rows.map (fun r => some (csvItem h r))))),
      ∀ f ∈ r, noCRLF f = true) := by
  obtain ⟨r0, rest, rfl⟩ := List.exists_cons_of_ne_nil hne
  have hspec := csvReadable_spec _ hr
  have hhs : (csvHeaders ρ ((r0 :: rest).map (fun r => some (csvItem h r)))).Perm
      ((csvItem h r0).map Prod.fst) := by
    simp only [csvHeaders, List.map_cons, List.getD_cons_zero, rangeMap]
    exact (ρ.perm 0 _).map _
  generalize csvHeaders ρ ((r0 :: rest).map (fun r => some (csvItem h r))) = hs at hhs
  have hkeys : ∀ r ∈ r0 :: rest, (csvItem h r).map Prod.fst = (csvItem h r0).map Prod.fst := by
    intro r hr
    rw [csvItem_keys h r (hu r hr), csvItem_keys h r0 (hu r0 (List.mem_cons_self _ _))]
  have hmem : ∀ r ∈ r0 :: rest, some (csvItem h r) ∈
      (r0 :: rest).map (fun r => some (csvItem h r)) :=
    fun r hr => List.mem_map_of_mem _ hr
  -- every header is a key of every record, with a string value
  have hval : ∀ r ∈ r0 :: rest, ∀ k ∈ hs, ∃ s, (k, Value.str s) ∈ csvItem h r ∧
      mapIndex (some (csvItem h r)) k = some (Value.str s) := by
    intro r hr k hk
    have hk1 : k ∈ (csvItem h r).map Prod.fst := by
      rw [hkeys r hr]; exact hhs.mem_iff.mp hk
    obtain ⟨kv, hkv, rfl⟩ := List.mem_map.mp hk1
    obtain ⟨hnd, hstr⟩ := csvItem_wf h r
    obtain ⟨s, hs1⟩ := hstr kv hkv
    refine ⟨s, ?_, ?_⟩
    · rw [← hs1]; exact hkv
    · rw [← hs1]; exact mapIndex_find_of_mem _ hnd kv hkv
  have hlen0 : hs.length = (csvItem h r0).length := by
    rw [hhs.length_eq, List.length_map]
  have hpos : 0 < hs.length := by
    rw [hlen0]
    exact List.length_pos.mpr (csvItem_ne_nil h r0 (hu r0 (List.mem_cons_self _ _)) hh)
  have hlenr : ∀ r ∈ r0 :: rest, (csvItem h r).length = hs.length := by
    intro r hr
    have := congrArg List.length (hkeys r hr)
    simp only [List.length_map] at this
    rw [this, hlen0]
  constructor
  · intro r hr
    rcases List.mem_cons.mp hr with rfl | hr
    · refine ⟨rfl, writeFields_ne_nil _ ?_⟩
      by_cases h2 : 2 ≤ r.length
      · exact Or.inl h2
      · right
        obtain ⟨k, rfl⟩ := List.length_eq_one.mp (show r.length = 1 by omega)
        refine ⟨k, rfl, ?_⟩
        obtain ⟨s, hs1, _⟩ := hval r0 (List.mem_cons_self _ _) k (List.mem_singleton_self _)
        exact ((hspec _ (hmem r0 (List.mem_cons_self _ _)) k s hs1).2.2
          (by rw [← hlen0]; rfl)).1
    · simp only [List.map_map, List.mem_map, Function.comp] at hr
      obtain ⟨r1, hr1, rfl⟩ := hr
      refine ⟨by simp [csvRow], writeFields_ne_nil _ ?_⟩
      by_cases h2 : 2 ≤ hs.length
      · left; simpa [csvRow] using h2
      · right
        obtain ⟨k, rfl⟩ := List.length_eq_one.mp (show hs.length = 1 by omega)
        obtain ⟨s, hs1, hs2⟩ := hval r1 hr1 k (List.mem_singleton_self _)
        refine ⟨s, by simp [csvRow, hs2, Sprint], ?_⟩
        exact ((hspec _ (hmem r1 hr1) k s hs1).2.2 (hlenr r1 hr1)).2
  · intro r hr f hf
    rcases List.mem_cons.mp hr with rfl | hr
    · obtain ⟨s, hs1, _⟩ := hval r0 (List.mem_cons_self _ _) f hf
      exact (hspec _ (hmem r0 (List.mem_cons_self _ _)) f s hs1).1
    · simp only [List.map_map, List.mem_map, Function.comp] at hr
      obtain ⟨r1, hr1, rfl⟩ := hr
      simp only [csvRow, List.mem_map] at hf
      obtain ⟨k, hk, rfl⟩ := hf
      obtain ⟨s, hs1, hs2⟩ := hval r1 hr1 k hk
      rw [hs2]
      exact (hspec _ (hmem r1 hr1) k s hs1).2.1

theorem decode_csv_inv (lib : StdLib) (d : Bytes) (data : Data)
    (h : decode lib d (ascii "csv") = .ok data) :
    ∃ (hd : List Bytes) (rows : List (List Bytes)), ReadAll (NewReader d) = .ok (hd :: rows) ∧
      rows ≠ [] ∧ data = rows.map (fun r => some (csvItem hd r)) := by
  have e1 : ¬ ascii "csv" = ascii "json" := by decide
  simp only [decode, e1, if_false, if_true] at h
  cases hR : ReadAll (NewReader d) with
  | error err => rw [hR] at h; simp at h
  | ok records =>
    rw [hR] at h
    simp only [] at h
    split_ifs at h with hl
    obtain ⟨hd, r, rest, rfl⟩ : ∃ hd r rest, records = hd :: r :: rest := by
      match records, hl with
      | [], hl => simp at hl
      | [_], hl => simp at hl
      | hd :: r :: rest, _ => exact ⟨hd, r, rest, rfl⟩
    refine ⟨hd, r :: rest, rfl, by simp, ?_⟩
    simp only [List.getD_cons_zero, List.drop_succ_cons, List.drop_zero, csvRecords_loop_eq,
      List.nil_append, Except.ok.injEq] at h
    exact h.symm

/-- The csv case of the same-format conversion: a document that decodes as csv
is converted without error, and when the decoded records satisfy `csvReadable`
the output decodes to the same records, up to the order of the fields. -/
theorem Convert_csv_same_format (lib : StdLib) (ρ : RangeOrder) (d : Bytes) (data : Data)
    (hd : detectFormat d = ascii "csv") (hdec : decode lib d (ascii "csv") = .ok data) :
    ∃ out, Convert lib ρ d (ascii "csv") = (some out, none) ∧
      (csvReadable data = true →
        ∃ data1, decode lib out (ascii "csv") = .ok data1 ∧
          List.Forall₂ sameRecord data data1) := by
  have v1 : ValidateFormat (ascii "csv") GetSupportedFormats = none := by decide
  have e1 : ¬ ascii "csv" = ascii "json" := by decide
  obtain ⟨h, rows, hparse, hk, rfl⟩ := decode_csv_inv lib d data hdec
  obtain ⟨m, hm⟩ := ReadAll_uniform d (h :: rows) hparse
  have hu : ∀ r ∈ rows, r.length = h.length := by
    intro r hr
    rw [(hm r (List.mem_cons_of_mem _ hr)).1, (hm h (List.mem_cons_self _ _)).1]
  have hh : h ≠ [] := by
    have := hm h (List.mem_cons_self _ _)
    exact List.length_pos.mp (by omega)
  have hrt := csv_loops_round_trip lib ρ h rows hk hu
  refine ⟨Writer.WriteAll [] (csvHeaders ρ (rows.map (fun r => some (csvItem h r))) ::
    (rows.map (fun r => some (csvItem h r))).map
      (csvRow lib (csvHeaders ρ (rows.map (fun r => some (csvItem h r)))))), ?_, ?_⟩
  · have hl : ¬ (rows.map (fun r => some (csvItem h r))).length = 0 := by
      rw [List.length_map]
      exact fun e => hk (List.length_eq_zero.mp e)
    simp only [Convert, v1, hd, hdec, encode, e1, if_false, if_true, hl, Writer.Write,
      csvWriteData_loop_eq, Writer.Error, Writer.WriteAll]
  · intro hr
    obtain ⟨hw1, hw2⟩ := csv_written_rows lib ρ h rows hk hh hu hr
    have hread := ReadAll_WriteAll _ _ hw1 hw2
    have hne1 : (rows.map (fun r => some (csvItem h r))).map
        (csvRow lib (csvHeaders ρ (rows.map (fun r => some (csvItem h r))))) ≠ [] := by
      intro he
      have := congrArg List.length he
      simp only [List.length_map, List.length_nil] at this
      exact hk (List.length_eq_zero.mp this)
    refine ⟨_, decode_csv_ok lib _ _ _ hread hne1, ?_⟩
    rw [csvRecords_loop_eq, List.nil_append] at hrt
    exact hrt

/-- The xml case of the same-format conversion, relative to the XML library
reading back the value that it encoded. -/
theorem Convert_xml_same_format (lib : StdLib) (ρ : RangeOrder) (d : Bytes) (data : Data)
    (out : Bytes) (hd : detectFormat d = ascii "xml")
    (hdec : decode lib d (ascii "xml") = .ok data)
    (henc : lib.xmlEncode ⟨xmlItems.loop lib ρ 0 data⟩ = .ok out)
    (hback : lib.xmlUnmarshal (xmlHeader ++ out) = .ok ⟨xmlItems.loop lib ρ 0 data⟩) :
    Convert lib ρ d (ascii "xml") = (some (xmlHeader ++ out), none) ∧
      ∃ data1, decode lib (xmlHeader ++ out) (ascii "xml") = .ok data1 ∧
        List.Forall₂ sameRecord data data1 := by
  have v3 : ValidateFormat (ascii "xml") GetSupportedFormats = none := by decide
  have e2 : ¬ ascii "xml" = ascii "json" := by decide
  have e3 : ¬ ascii "xml" = ascii "csv" := by decide
  have hdata : ∃ xmlData : XMLData, data =
      xmlData.Items.map (fun item => some (xmlRecord.loop item.Fields [])) := by
    simp only [decode, e2, e3, if_false, if_true] at hdec
    cases hx : lib.xmlUnmarshal d with
    | error err => rw [hx] at hdec; simp at hdec
    | ok xmlData =>
      rw [hx] at hdec
      simp only [Except.ok.injEq] at hdec
      exact ⟨xmlData, hdec.symm⟩
  obtain ⟨xmlData, rfl⟩ := hdata
  have hrt : List.Forall₂ sameRecord
      (xmlData.Items.map (fun item => some (xmlRecord.loop item.Fields [])))
      ((xmlItems.loop lib ρ 0
        (xmlData.Items.map (fun item => some (xmlRecord.loop item.Fields [])))).map
        (fun item => some (xmlRecord.loop item.Fields []))) := by
    apply xml_loops_round_trip
    intro item hitem
    simp only [List.mem_map] at hitem
    obtain ⟨x, _, rfl⟩ := hitem
    exact ⟨_, rfl, (xmlRecord_loop_wf x.Fields).1, (xmlRecord_loop_wf x.Fields).2⟩
  refine ⟨?_, _, ?_, hrt⟩
  · simp only [Convert, v3, hd, hdec, encode, e2, e3, if_false, if_true, henc]
  · simp only [decode, e2, e3, if_false, if_true, hback]

/-- C4 (counterexamples): five documents whose conversion to their own format
does not decode to the records of the document. The line-text document `foo`
becomes `line: foo` and a blank line, which decodes to the value `line: foo`.
The CSV document of the header `a,a` and the row `1,` (one record, the field
`a` being empty) becomes the line `a` and an empty line, which the csv decode
case rejects. The CSV document of the header `,` and the row `1,2` (one record
with the empty field name) becomes an empty line and the line `2`, which the
csv decode case rejects. The CSV document whose field `a` holds `x`, carriage
return, line feed, `y` is written with that field in quotes, and decodes to
the value `x`, line feed, `y`; and so for a field name of that text. -/
theorem Convert_not_round_trip :
    (detectFormat (ascii "foo") = ascii "txt" ∧
      decode StdLib.noJsonXml (ascii "foo") (ascii "txt") =
        .ok [some [(ascii "line", .str (ascii "foo"))]] ∧
      Convert StdLib.noJsonXml RangeOrder.stored (ascii "foo") (ascii "txt") =
        (some (ascii "line: foo\n\n"), none) ∧
      decode StdLib.noJsonXml (ascii "line: foo\n\n") (ascii "txt") =
        .ok [some [(ascii "line", .str (ascii "line: foo"))]] ∧
      decode StdLib.noJsonXml (ascii "line: foo\n\n") (ascii "txt") ≠
        decode StdLib.noJsonXml (ascii "foo") (ascii "txt")) ∧
    (detectFormat (ascii "a,a\n1,\n") = ascii "csv" ∧
      decode StdLib.noJsonXml (ascii "a,a\n1,\n") (ascii "csv") =
        .ok [some [(ascii "a", .str [])]] ∧
      Convert StdLib.noJsonXml RangeOrder.stored (ascii "a,a\n1,\n") (ascii "csv") =
        (some (ascii "a\n\n"), none) ∧
      decode StdLib.noJsonXml (ascii "a\n\n") (ascii "csv") = .error .csvInvalid ∧
      decode StdLib.noJsonXml (ascii "a\n\n") (ascii "csv") ≠
        decode StdLib.noJsonXml (ascii "a,a\n1,\n") (ascii "csv")) ∧
    (detectFormat (ascii ",\n1,2\n") = ascii "csv" ∧
      decode StdLib.noJsonXml (ascii ",\n1,2\n") (ascii "csv") =
        .ok [some [([], .str (ascii "2"))]] ∧
      Convert StdLib.noJsonXml RangeOrder.stored (ascii ",\n1,2\n") (ascii "csv") =
        (some (ascii "\n2\n"), none) ∧
      decode StdLib.noJsonXml (ascii "\n2\n") (ascii "csv") = .error .csvInvalid ∧
      decode StdLib.noJsonXml (ascii "\n2\n") (ascii "csv") ≠
        decode StdLib.noJsonXml (ascii ",\n1,2\n") (ascii "csv")) ∧
    (detectFormat (ascii "a,a\n1,\"x\r\r\ny\"\n") = ascii "csv" ∧
      decode StdLib.noJsonXml (ascii "a,a\n1,\"x\r\r\ny\"\n") (ascii "csv") =
        .ok [some [(ascii "a", .str (ascii "x\r\ny"))]] ∧
      Convert StdLib.noJsonXml RangeOrder.stored (ascii "a,a\n1,\"x\r\r\ny\"\n")
          (ascii "csv") =
        (some (ascii "a\n\"x\r\ny\"\n"), none) ∧
      decode StdLib.noJsonXml (ascii "a\n\"x\r\ny\"\n") (ascii "csv") =
        .ok [some [(ascii "a", .str (ascii "x\ny"))]] ∧
      decode StdLib.noJsonXml (ascii "a\n\"x\r\ny\"\n") (ascii "csv") ≠
        decode StdLib.noJsonXml (ascii "a,a\n1,\"x\r\r\ny\"\n") (ascii "csv")) ∧
    (detectFormat (ascii "c,\"x\r\r\ny\"\n1,2\n") = ascii "csv" ∧
      decode StdLib.noJsonXml (ascii "c,\"x\r\r\ny\"\n1,2\n") (ascii "csv") =
        .ok [some [(ascii "c", .str (ascii "1")), (ascii "x\r\ny", .str (ascii "2"))]] ∧
      Convert StdLib.noJsonXml RangeOrder.stored (ascii "c,\"x\r\r\ny\"\n1,2\n")
          (ascii "csv") =
        (some (ascii "c,\"x\r\ny\"\n1,2\n"), none) ∧
      decode StdLib.noJsonXml (ascii "c,\"x\r\ny\"\n1,2\n") (ascii "csv") =
        .ok [some [(ascii "c", .str (ascii "1")), (ascii "x\ny", .str (ascii "2"))]] ∧
      decode StdLib.noJsonXml (ascii "c,\"x\r\ny\"\n1,2\n") (ascii "csv") ≠
        decode StdLib.noJsonXml (ascii "c,\"x\r\r\ny\"\n1,2\n") (ascii "csv")) :=
  ⟨⟨by decide, by decide, by decide, by decide, by decide⟩,
   ⟨by decide, by decide, by decide, by decide, by decide⟩,
   ⟨by decide, by decide, by decide, by decide, by decide⟩,
   ⟨by decide, by decide, by decide, by decide, by decide⟩,
   ⟨by decide, by decide, by decide, by decide, by decide⟩⟩

/-- C4 (amended): the conversion of a document to its own format, per format.
(json) When a document is detected and decoded as json and the JSON library
encodes its record set to `out` and decodes `out` back to that record set (as
`encoding/json` does), `Convert` returns `out` without error, and decoding
`out` as json yields the records of the document.
(csv) A document that is detected and decoded as csv is converted to csv
without error; when no field name and no value of the decoded records holds a
carriage return directly before a line feed, and a record with a single field
has a name and a value that are not empty (`csvReadable`), decoding the output
as csv yields as many records, in the same order, each with the same (key,
value) pairs.
(xml) When a document is detected and decoded as xml and the XML library
encodes the value built from its record set to `out` and reads the header
followed by `out` back as that value (as `encoding/xml` does), `Convert`
returns the header followed by `out` without error, and decoding that as xml
yields as many records, in the same order, each with the same (key, value)
pairs.
(txt) A line-text document is converted to line text without error, and
decoding the output as line text yields as many records as decoding the
document, in the same order, the value `v` of each record having become
`line: v`. -/
theorem Convert_same_format (lib : StdLib) (ρ : RangeOrder) (d : Bytes) :
    (∀ (data : Data) (out : Bytes), detectFormat d = ascii "json" →
      decode lib d (ascii "json") = .ok data →
      lib.jsonMarshalIndent data = .ok out → lib.jsonUnmarshal out = .ok data →
      Convert lib ρ d (ascii "json") = (some out, none) ∧
        decode lib out (ascii "json") = .ok data) ∧
    (∀ data : Data, detectFormat d = ascii "csv" → decode lib d (ascii "csv") = .ok data →
      ∃ out, Convert lib ρ d (ascii "csv") = (some out, none) ∧
        (csvReadable data = true →
          ∃ data1, decode lib out (ascii "csv") = .ok data1 ∧
            List.Forall₂ sameRecord data data1)) ∧
    (∀ (data : Data) (out : Bytes), detectFormat d = ascii "xml" →
      decode lib d (ascii "xml") = .ok data →
      lib.xmlEncode ⟨xmlItems.loop lib ρ 0 data⟩ = .ok out →
      lib.xmlUnmarshal (xmlHeader ++ out) = .ok ⟨xmlItems.loop lib ρ 0 data⟩ →
      Convert lib ρ d (ascii "xml") = (some (xmlHeader ++ out), none) ∧
        ∃ data1, decode lib (xmlHeader ++ out) (ascii "xml") = .ok data1 ∧
          List.Forall₂ sameRecord data data1) ∧
    (detectFormat d = ascii "txt" →
      decode lib d (ascii "txt") = .ok ((txtValues d).map lineRecord) ∧
      Convert lib ρ d (ascii "txt") = (some (txtOutput (txtValues d)), none) ∧
      decode lib (txtOutput (txtValues d)) (ascii "txt") =
        .ok ((txtValues d).map (fun v => lineRecord (ascii "line: " ++ v)))) := by
  have v0 : ValidateFormat (ascii "json") GetSupportedFormats = none := by decide
  have v4 : ValidateFormat (ascii "txt") GetSupportedFormats = none := by decide
  have e4 : ¬ ascii "txt" = ascii "json" := by decide
  have e5 : ¬ ascii "txt" = ascii "csv" := by decide
  have e6 : ¬ ascii "txt" = ascii "xml" := by decide
  refine ⟨?_, ?_, ?_, ?_⟩
  · intro data out hd hdec henc hback
    refine ⟨?_, ?_⟩
    · simp only [Convert, v0, hd, hdec, encode, if_true, henc]
    · simp only [decode, if_true, hback]
  · intro data hd hdec
    exact Convert_csv_same_format lib ρ d data hd hdec
  · intro data out hd hdec henc hback
    exact Convert_xml_same_format lib ρ d data out hd hdec henc hback
  · intro hd
    refine ⟨decode_txt_values lib d, ?_, decode_txtOutput lib _ (txtValues_spec d)⟩
    simp only [Convert, v4, hd, decode_txt_values, encode, e4, e5, e6, if_false, if_true,
      txtItems_loop_lines]

/-- C4 (witness): a JSON and an XML document of one record with the field `a`
of value `1`, the CSV document of the header `name,note` and a row whose second
field is quoted, and the line-text document `foo`, blank line, `bar`. -/
theorem Convert_same_format_witness :
    (Convert StdLib.sampleDocs RangeOrder.stored (ascii "[\x7b\"a\":\"1\"\x7d]") (ascii "json") =
        (some (ascii "[\n  \x7b\n    \"a\": \"1\"\n  \x7d\n]"), none) ∧
      decode StdLib.sampleDocs (ascii "[\n  \x7b\n    \"a\": \"1\"\n  \x7d\n]") (ascii "json") =
        .ok [some [(ascii "a", .str (ascii "1"))]]) ∧
    (∃ out, Convert StdLib.noJsonXml RangeOrder.stored
          (ascii "name,note\nAlice,\"hi, \"\"you\"\"\"\n") (ascii "csv") = (some out, none) ∧
        ∃ data1, decode StdLib.noJsonXml out (ascii "csv") = .ok data1 ∧
          List.Forall₂ sameRecord
            [some [(ascii "name", .str (ascii "Alice")),
              (ascii "note", .str (ascii "hi, \"you\""))]] data1) ∧
    (Convert StdLib.sampleDocs RangeOrder.stored
          (ascii "<root><item><field name=\"a\">1</field></item></root>") (ascii "xml") =
        (some (xmlHeader ++
          ascii "<root>\n  <item>\n    <field name=\"a\">1</field>\n  </item>\n</root>"), none) ∧
      ∃ data1, decode StdLib.sampleDocs (xmlHeader ++
          ascii "<root>\n  <item>\n    <field name=\"a\">1</field>\n  </item>\n</root>")
          (ascii "xml") = .ok data1 ∧
        List.Forall₂ sameRecord [some [(ascii "a", .str (ascii "1"))]] data1) ∧
    (decode StdLib.noJsonXml (ascii "foo\n\nbar\n") (ascii "txt") =
        .ok ((txtValues (ascii "foo\n\nbar\n")).map lineRecord) ∧
      Convert StdLib.noJsonXml RangeOrder.stored (ascii "foo\n\nbar\n") (ascii "txt") =
        (some (txtOutput (txtValues (ascii "foo\n\nbar\n"))), none) ∧
      decode StdLib.noJsonXml (txtOutput (txtValues (ascii "foo\n\nbar\n"))) (ascii "txt") =
        .ok ((txtValues (ascii "foo\n\nbar\n")).map (fun v => lineRecord (ascii "line: " ++ v)))) :=
  ⟨(Convert_same_format StdLib.sampleDocs RangeOrder.stored (ascii "[\x7b\"a\":\"1\"\x7d]")).1
      [some [(ascii "a", .str (ascii "1"))]] (ascii "[\n  \x7b\n    \"a\": \"1\"\n  \x7d\n]")
      (by decide) (by decide) (by decide) (by decide),
   (match (Convert_same_format StdLib.noJsonXml RangeOrder.stored
        (ascii "name,note\nAlice,\"hi, \"\"you\"\"\"\n")).2.1
        [some [(ascii "name", .str (ascii "Alice")), (ascii "note", .str (ascii "hi, \"you\""))]]
        (by decide) (by decide) with
    | ⟨out, h1, h2⟩ => ⟨out, h1, h2 (by decide)⟩),
   (Convert_same_format StdLib.sampleDocs RangeOrder.stored
      (ascii "<root><item><field name=\"a\">1</field></item></root>")).2.2.1
      [some [(ascii "a", .str (ascii "1"))]]
      (ascii "<root>\n  <item>\n    <field name=\"a\">1</field>\n  </item>\n</root>")
      (by decide) (by decide) (by decide) (by decide),
   (Convert_same_format StdLib.noJsonXml RangeOrder.stored (ascii "foo\n\nbar\n")).2.2.2
      (by decide)⟩

end FileConverter
